import Mathlib

/-!
Connection-resolution engine (`internal/algorithms/pathfinding.go`)

A shallow embedding of the path finder of the repository, of its cache and batch
resolver, of the aggregate calls and the strength analysis of `ConnectionService`
(`internal/service/connection_service.go`) and of the compatibility score of
`EligibleMatch` (`internal/models/person.go`), with theorems about them.

Modelling conventions
* Family identifiers are Go `string`s, here `String`.
* `float64` strengths are exact rationals (`ℚ`); rounding is not modelled.
* A Go call returning `(value, error)` whose value is only used when the error is
  `nil` is an `Except`.  `FindPath` itself returns both components separately, so that
  "a path and an error at once" is a statement about the code and not about a type.
* Path slices (`[]string`) share backing arrays the way Go slices do: `append` writes in
  place when the capacity suffices.  The store of backing arrays is `Heap`; the capacity a
  reallocating `append` picks is a parameter `growCap` of every search function, with the
  constants of the gc runtime in `gcGrowCap`.
* The graph store is a function of the arguments of a lookup: a lookup repeated within
  one search gets the same answer.
* Every `GetNeighbors` / `GetConnectionStrength` call is recorded, in order, in a call log.
* The `context.Context` argument, the metrics calls and the time stamps of results are
  left out.  Where the clock decides (the cache), the reading of `time.Now()` is an
  argument of the operation; instants and durations are integers.
* A pointer receiver is a state that the operation takes and returns.
* The goroutines of the batch resolver are a step function on a shared state, run under
  an arbitrary schedule.
* A Go `int` is 64 bits wide.  The arithmetic on ages (`abs` and the subtraction in front
  of it) wraps at 64 bits, see `wrapInt`; lengths, depths and degrees are counts of
  nodes and rounds and are integers without a bound.
-/

namespace KinConnect

/-! ## Go slices over a store of backing arrays -/

/-- A slice header of a path: the backing array and the length.  Path slices always start
at offset 0 of their array; the capacity is the size of that array. -/
structure Slice where
  arr : Nat
  len : Nat
deriving DecidableEq, Repr

/-- The backing arrays allocated so far; an array never changes size. -/
abbrev Heap := List (List String)

/-- The backing array behind a pointer. -/
def Heap.array (h : Heap) (p : Nat) : List String := h.getD p []

/-- The value of `cap(s)`. -/
def Heap.cap (h : Heap) (s : Slice) : Nat := (h.array s.arr).length

/-- The elements `s[0], ..., s[len(s)-1]` as they are in the store now. -/
def Heap.read (h : Heap) (s : Slice) : List String :=
  (List.range s.len).map (fun i => (h.array s.arr).getD i "")

/-- Overwrite the cells `i, i+1, ...` of an array with `xs`. -/
def writeAt (a : List String) (i : Nat) (xs : List String) : List String :=
  a.take i ++ xs ++ a.drop (i + xs.length)

/-- A composite literal `[]string{x}`: a fresh array of capacity 1. -/
def alloc (h : Heap) (x : String) : Heap × Slice :=
  (h ++ [[x]], ⟨h.length, 1⟩)

/-- The builtin `append(s, xs...)`.  When `len(s) + len(xs) <= cap(s)` the new elements are
written into the backing array of `s`, whoever else shares it; otherwise the elements are
copied to a fresh array whose capacity is chosen by `growCap oldCap newLen` (and is at least
`newLen`). -/
def append (growCap : Nat → Nat → Nat) (h : Heap) (s : Slice) (xs : List String) :
    Heap × Slice :=
  if s.len + xs.length ≤ h.cap s then
    (h.set s.arr (writeAt (h.array s.arr) s.len xs), ⟨s.arr, s.len + xs.length⟩)
  else
    (h ++ [h.read s ++ xs ++
        List.replicate (max (growCap (h.cap s) (s.len + xs.length)) (s.len + xs.length)
          - (s.len + xs.length)) ""],
      ⟨h.length, s.len + xs.length⟩)

/-- Capacity chosen by `runtime.growslice` of the gc toolchain for 16-byte elements
(strings on 64-bit targets): the requested length when it exceeds twice the old capacity,
else twice the old capacity while that is below 256, else growth by a quarter plus 192
until the request fits.  For at most 16 elements every capacity is an allocator size
class, so no rounding applies; above that the size-class rounding is left out. -/
def gcGrowCap (oldCap newLen : Nat) : Nat :=
  if newLen > oldCap + oldCap then newLen
  else if oldCap < 256 then oldCap + oldCap
  else
    (List.range newLen).foldl
      (fun c _ => if c ≥ newLen then c else c + (c + 768) / 4) (oldCap + (oldCap + 768) / 4)

/-! ## Utility functions -/

/-- Function `reverse`: a fresh slice holding the elements in opposite order. -/
def reverse (slice : List String) : List String :=
  slice.foldl (fun reversed v => v :: reversed) []

/-- The loop of `hasCycle`, with the keys of the `seen` map. -/
def hasCycleFrom (seen : List String) : List String → Bool
  | [] => false
  | familyID :: rest =>
    if familyID ∈ seen then true else hasCycleFrom (familyID :: seen) rest

/-- Function `hasCycle`: does a family ID occur twice in the path. -/
def hasCycle (path : List String) : Bool := hasCycleFrom [] path

/-- The loop of `pathKey`; `first` tells whether the index is 0. -/
def pathKeyFrom (key : String) (first : Bool) : List String → String
  | [] => key
  | familyID :: rest =>
    pathKeyFrom ((if first then key else key ++ "->") ++ familyID) false rest

/-- Function `pathKey`: the family IDs joined by `->`. -/
def pathKey (path : List String) : String := pathKeyFrom "" true path

/-! ## Data model -/

/-- Errors: one reported by the graph store, or one wrapped by the path finder. -/
inductive Err where
  | store (msg : String)
  | neighborsFailed (familyID : String) (cause : Err)
  | strengthFailed (a b : String) (cause : Err)
deriving DecidableEq, Repr

/-- Interface `GraphRepository`: the read interface of the graph store. -/
structure GraphRepository where
  GetNeighbors : String → Except Err (List String)
  GetConnectionStrength : String → String → Except Err ℚ
  GetFamilyTrustScore : String → Except Err ℚ

/-- A lookup issued to the graph store. -/
inductive Call where
  | neighbors (familyID : String)
  | strength (a b : String)
deriving DecidableEq, Repr

/-- Does the store answer this lookup with an error. -/
def GraphRepository.fails (repo : GraphRepository) : Call → Bool
  | .neighbors x => match repo.GetNeighbors x with
    | .error _ => true
    | .ok _ => false
  | .strength a b => match repo.GetConnectionStrength a b with
    | .error _ => true
    | .ok _ => false

/-- Struct `models.ConnectionPath`, without the `CalculatedAt` time stamp. -/
structure ConnectionPath where
  SourceFamilyID : String
  TargetFamilyID : String
  Path : List String
  Degree : Int
  PathStrength : ℚ
  RelationTypes : List String
  Verified : Bool
deriving DecidableEq, Repr

/-- Struct `PathState`: a partial path of a search frontier.  `Visited` holds the keys of the
map, all of which map to `true`. -/
structure PathState where
  FamilyID : String
  Path : Slice
  Visited : List String
deriving DecidableEq, Repr

/-- What `FindPath` returns, `(path, err)`, together with the lookups it issued. -/
structure FindResult where
  calls : List Call
  path : Option ConnectionPath
  err : Option Err
deriving DecidableEq, Repr

/-! ## calculatePathStrength -/

/-- The loop of `calculatePathStrength` over the consecutive pairs of the path, with the
running `strength` and `allVerified`. -/
def strengthLoop (repo : GraphRepository) :
    List String → ℚ → Bool → List Call → List Call × Except Err (ℚ × Bool)
  | a :: b :: rest, strength, allVerified, calls =>
    match repo.GetConnectionStrength a b with
    | .error e => (calls ++ [Call.strength a b], .error (Err.strengthFailed a b e))
    | .ok connStrength =>
      strengthLoop repo (b :: rest) (strength * connStrength)
        (if connStrength ≤ 1 / 2 then false else allVerified)
        (calls ++ [Call.strength a b])
  | _, strength, allVerified, calls => (calls, .ok (strength, allVerified))

/-- Method `calculatePathStrength`: fills `PathStrength` and `Verified` of the path, or fails. -/
def calculatePathStrength (repo : GraphRepository) (calls : List Call)
    (path : ConnectionPath) : List Call × Option Err × ConnectionPath :=
  if path.Path.length < 2 then
    (calls, none, { path with PathStrength := 1, Verified := true })
  else
    match strengthLoop repo path.Path 1 true calls with
    | (calls1, .error e) => (calls1, some e, path)
    | (calls1, .ok (strength, allVerified)) =>
      (calls1, none, { path with PathStrength := strength, Verified := allVerified })

/-! ## FindPath -/

/-- The two search directions of `FindPath`. -/
inductive Dir where
  | forward
  | backward
deriving DecidableEq, Repr

/-- The mutable state of one `FindPath` call. -/
structure BFSState where
  heap : Heap
  calls : List Call
  forwardVisited : List (String × Slice)
  backwardVisited : List (String × Slice)

/-- The visited map of the frontier being expanded. -/
def BFSState.own (st : BFSState) : Dir → List (String × Slice)
  | .forward => st.forwardVisited
  | .backward => st.backwardVisited

/-- The visited map of the other frontier. -/
def BFSState.opp (st : BFSState) : Dir → List (String × Slice)
  | .forward => st.backwardVisited
  | .backward => st.forwardVisited

/-- The assignment `ownVisited[neighbor] = newPath`, for a key that is not yet present. -/
def BFSState.record (st : BFSState) (d : Dir) (neighbor : String) (newPath : Slice) :
    BFSState :=
  match d with
  | .forward => { st with forwardVisited := (neighbor, newPath) :: st.forwardVisited }
  | .backward => { st with backwardVisited := (neighbor, newPath) :: st.backwardVisited }

/-- Outcome of a part of the loop body: `FindPath` has returned, or the loop goes on with
the state and the new queue. -/
inductive Step where
  | ret (r : FindResult)
  | next (st : BFSState) (newQueue : List PathState)

/-- The "Connection found" block: build the `ConnectionPath` of the assembled `fullPath`, compute its
strength and return it (or the error of the strength computation). -/
def connect (repo : GraphRepository) (fromID toID : String) (calls : List Call)
    (fullPath : List String) : FindResult :=
  match calculatePathStrength repo calls
      { SourceFamilyID := fromID, TargetFamilyID := toID, Path := fullPath,
        Degree := (fullPath.length : Int) - 1, PathStrength := 0,
        RelationTypes := [], Verified := false } with
  | (calls1, some e, _) => ⟨calls1, none, some e⟩
  | (calls1, none, connectionPath) => ⟨calls1, some connectionPath, none⟩

/-- The loop `for _, neighbor := range neighbors` of either frontier: lines 72-120 for
`Dir.forward`, lines 136-184 for `Dir.backward`. -/
def expandNeighbors (repo : GraphRepository) (growCap : Nat → Nat → Nat)
    (fromID toID : String) (d : Dir) (state : PathState) :
    List String → BFSState → List PathState → Step
  | [], st, newQueue => .next st newQueue
  | neighbor :: rest, st, newQueue =>
    match (st.opp d).lookup neighbor with
    | some oppPath =>
      let spliced := match d with
        | .forward =>
          append growCap st.heap state.Path (reverse ((st.heap.read oppPath).drop 1))
        | .backward =>
          append growCap st.heap oppPath (reverse ((st.heap.read state.Path).drop 1))
      if hasCycle (spliced.1.read spliced.2) then
        expandNeighbors repo growCap fromID toID d state rest
          { st with heap := spliced.1 } newQueue
      else
        .ret (connect repo fromID toID st.calls (spliced.1.read spliced.2))
    | none =>
      if neighbor ∈ state.Visited then
        expandNeighbors repo growCap fromID toID d state rest st newQueue
      else
        match (st.own d).lookup neighbor with
        | some _ => expandNeighbors repo growCap fromID toID d state rest st newQueue
        | none =>
          let grown := append growCap st.heap state.Path [neighbor]
          expandNeighbors repo growCap fromID toID d state rest
            (BFSState.record { st with heap := grown.1 } d neighbor grown.2)
            (newQueue ++ [⟨neighbor, grown.2, neighbor :: state.Visited⟩])

/-- The loop `for _, state := range queue` of either frontier. -/
def expandQueue (repo : GraphRepository) (growCap : Nat → Nat → Nat)
    (fromID toID : String) (d : Dir) :
    List PathState → BFSState → List PathState → Step
  | [], st, newQueue => .next st newQueue
  | state :: rest, st, newQueue =>
    match repo.GetNeighbors state.FamilyID with
    | .error e =>
      .ret ⟨st.calls ++ [Call.neighbors state.FamilyID], none,
        some (Err.neighborsFailed state.FamilyID e)⟩
    | .ok neighbors =>
      match expandNeighbors repo growCap fromID toID d state neighbors
          { st with calls := st.calls ++ [Call.neighbors state.FamilyID] } newQueue with
      | .ret r => .ret r
      | .next st1 newQueue1 => expandQueue repo growCap fromID toID d rest st1 newQueue1

/-- The "Expand forward/backward frontier" blocks: an empty queue is left alone. -/
def expandFrontier (repo : GraphRepository) (growCap : Nat → Nat → Nat)
    (fromID toID : String) (d : Dir) (queue : List PathState) (st : BFSState) : Step :=
  if queue.length > 0 then expandQueue repo growCap fromID toID d queue st []
  else .next st queue

/-- The main loop of `FindPath`.  `rounds` is `maxDepth + 1 - depth`: the body runs for
`depth = 0, ..., maxDepth`, and `rounds = 0` is the `break` on `depth > maxDepth`. -/
def searchRounds (repo : GraphRepository) (growCap : Nat → Nat → Nat)
    (fromID toID : String) :
    Nat → List PathState → List PathState → BFSState → FindResult
  | 0, _, _, st => ⟨st.calls, none, none⟩
  | rounds + 1, forwardQueue, backwardQueue, st =>
    if forwardQueue.length > 0 ∨ backwardQueue.length > 0 then
      match expandFrontier repo growCap fromID toID .forward forwardQueue st with
      | .ret r => r
      | .next st1 forwardQueue1 =>
        match expandFrontier repo growCap fromID toID .backward backwardQueue st1 with
        | .ret r => r
        | .next st2 backwardQueue1 =>
          searchRounds repo growCap fromID toID rounds forwardQueue1 backwardQueue1 st2
    else ⟨st.calls, none, none⟩

/-- The queues and visited maps `FindPath` starts from: four one-element slices. -/
def initialState (fromID toID : String) : List PathState × List PathState × BFSState :=
  let fq := alloc [] fromID
  let bq := alloc fq.1 toID
  let fv := alloc bq.1 fromID
  let bv := alloc fv.1 toID
  ([⟨fromID, fq.2, [fromID]⟩], [⟨toID, bq.2, [toID]⟩],
    ⟨bv.1, [], [(fromID, fv.2)], [(toID, bv.2)]⟩)

/-- Method `BidirectionalBFS.FindPath` (lines 35-194). -/
def FindPath (repo : GraphRepository) (growCap : Nat → Nat → Nat)
    (fromID toID : String) (maxDepth : Int) : FindResult :=
  if fromID = toID then
    ⟨[], some { SourceFamilyID := fromID, TargetFamilyID := toID, Path := [fromID],
                Degree := 0, PathStrength := 1, RelationTypes := [], Verified := true },
      none⟩
  else
    searchRounds repo growCap fromID toID (maxDepth + 1).toNat
      (initialState fromID toID).1 (initialState fromID toID).2.1
      (initialState fromID toID).2.2

/-! ## FindMultiplePaths -/

/-- The mutable state of one `findPathWithExclusions` call. -/
structure ExclState where
  heap : Heap
  calls : List Call
  visited : List String

/-- Outcome of the neighbor loop of `findPathWithExclusions`. -/
inductive ExclStep where
  | ret (r : FindResult)
  | next (st : ExclState) (queue : List PathState)

/-- The loop `for _, neighbor := range neighbors` of `findPathWithExclusions`
(lines 250-303); `excludedPaths` holds the keys of the map. -/
def exclNeighbors (repo : GraphRepository) (growCap : Nat → Nat → Nat)
    (fromID toID : String) (excludedPaths : List String) (state : PathState) :
    List String → ExclState → List PathState → ExclStep
  | [], st, queue => .next st queue
  | neighbor :: rest, st, queue =>
    if neighbor = toID then
      let full := append growCap st.heap state.Path [neighbor]
      if hasCycle (full.1.read full.2) then
        exclNeighbors repo growCap fromID toID excludedPaths state rest
          { st with heap := full.1 } queue
      else if pathKey (full.1.read full.2) ∈ excludedPaths then
        exclNeighbors repo growCap fromID toID excludedPaths state rest
          { st with heap := full.1 } queue
      else
        .ret (connect repo fromID toID st.calls (full.1.read full.2))
    else if neighbor ∉ state.Visited ∧ neighbor ∉ st.visited then
      let grown := append growCap st.heap state.Path [neighbor]
      if hasCycle (grown.1.read grown.2) then
        exclNeighbors repo growCap fromID toID excludedPaths state rest
          { st with heap := grown.1 } queue
      else
        exclNeighbors repo growCap fromID toID excludedPaths state rest
          { st with heap := grown.1, visited := neighbor :: st.visited }
          (queue ++ [⟨neighbor, grown.2, neighbor :: state.Visited⟩])
    else
      exclNeighbors repo growCap fromID toID excludedPaths state rest st queue

/-- The queue loop of `findPathWithExclusions` (lines 241-304), run for at most `fuel`
iterations; `none` when the fuel runs out before the loop ends. -/
def exclusionLoop (repo : GraphRepository) (growCap : Nat → Nat → Nat)
    (fromID toID : String) (maxDepth : Int) (excludedPaths : List String) :
    Nat → List PathState → ExclState → Option FindResult
  | _, [], st => some ⟨st.calls, none, none⟩
  | 0, _ :: _, _ => none
  | fuel + 1, state :: queue, st =>
    if (state.Path.len : Int) ≤ maxDepth then
      match repo.GetNeighbors state.FamilyID with
      | .error e => some ⟨st.calls ++ [Call.neighbors state.FamilyID], none, some e⟩
      | .ok neighbors =>
        match exclNeighbors repo growCap fromID toID excludedPaths state neighbors
            { st with calls := st.calls ++ [Call.neighbors state.FamilyID] } queue with
        | .ret r => some r
        | .next st1 queue1 =>
          exclusionLoop repo growCap fromID toID maxDepth excludedPaths fuel queue1 st1
    else some ⟨st.calls, none, none⟩

/-- Method `findPathWithExclusions`, with `fuel` bounding the iterations of its queue loop. -/
def findPathWithExclusions (repo : GraphRepository) (growCap : Nat → Nat → Nat)
    (fuel : Nat) (fromID toID : String) (maxDepth : Int) (excludedPaths : List String) :
    Option FindResult :=
  if fromID = toID then
    some ⟨[], some { SourceFamilyID := fromID, TargetFamilyID := toID, Path := [fromID],
                     Degree := 0, PathStrength := 1, RelationTypes := [],
                     Verified := true },
      none⟩
  else
    exclusionLoop repo growCap fromID toID maxDepth excludedPaths fuel
      [⟨fromID, (alloc [] fromID).2, [fromID]⟩] ⟨(alloc [] fromID).1, [], [fromID]⟩

/-- What `FindMultiplePaths` returns, `(paths, err)`, together with the lookups issued. -/
structure MultiResult where
  calls : List Call
  paths : List ConnectionPath
  err : Option Err
deriving DecidableEq, Repr

/-- The attempt loop of `FindMultiplePaths`.  `attempts` is `maxPaths - attempt`;
`pathsFound` holds the keys of the map. -/
def multiLoop (repo : GraphRepository) (growCap : Nat → Nat → Nat) (fuel : Nat)
    (fromID toID : String) (maxDepth maxPaths : Int) :
    Nat → List ConnectionPath → List String → List Call → Option MultiResult
  | 0, paths, _, calls => some ⟨calls, paths, none⟩
  | attempts + 1, paths, pathsFound, calls =>
    if (paths.length : Int) < maxPaths then
      match findPathWithExclusions repo growCap fuel fromID toID maxDepth pathsFound with
      | none => none
      | some r =>
        match r.err with
        | some e => some ⟨calls ++ r.calls, [], some e⟩
        | none =>
          match r.path with
          | some path =>
            if pathKey path.Path ∉ pathsFound ∧ hasCycle path.Path = false then
              multiLoop repo growCap fuel fromID toID maxDepth maxPaths attempts
                (paths ++ [path]) (pathKey path.Path :: pathsFound) (calls ++ r.calls)
            else
              multiLoop repo growCap fuel fromID toID maxDepth maxPaths attempts
                paths pathsFound (calls ++ r.calls)
          | none =>
            multiLoop repo growCap fuel fromID toID maxDepth maxPaths attempts
              paths pathsFound (calls ++ r.calls)
    else some ⟨calls, paths, none⟩

/-- Method `BidirectionalBFS.FindMultiplePaths`; `fuel` bounds the queue loop of every
single-path search, and the result is `none` if one of them runs out of it. -/
def FindMultiplePaths (repo : GraphRepository) (growCap : Nat → Nat → Nat) (fuel : Nat)
    (fromID toID : String) (maxDepth maxPaths : Int) : Option MultiResult :=
  multiLoop repo growCap fuel fromID toID maxDepth maxPaths maxPaths.toNat [] [] []

/-! ## PathCache and CachedPathFinder -/

/-- Interface `PathFinder`.  The results are the pairs `(path, err)` and `(paths, err)`;
`FindMultiplePaths` is `none` when the modelled search runs out of fuel. -/
structure PathFinder where
  FindPath : String → String → Int → Option ConnectionPath × Option Err
  FindMultiplePaths :
    String → String → Int → Int → Option (List ConnectionPath × Option Err)

/-- The `BidirectionalBFS` finder over a store, as a `PathFinder`. -/
def bfsFinder (repo : GraphRepository) (growCap : Nat → Nat → Nat) (fuel : Nat) :
    PathFinder where
  FindPath := fun fromID toID maxDepth =>
    ((FindPath repo growCap fromID toID maxDepth).path,
      (FindPath repo growCap fromID toID maxDepth).err)
  FindMultiplePaths := fun fromID toID maxDepth maxPaths =>
    (FindMultiplePaths repo growCap fuel fromID toID maxDepth maxPaths).map
      (fun r => (r.paths, r.err))

/-- Struct `CachedPath`: a cached path pointer (possibly nil) with its time stamps.
Instants of `time.Time` and durations are integers (nanoseconds). -/
structure CachedPath where
  Path : Option ConnectionPath
  CachedAt : Int
  ExpiresAt : Int
deriving DecidableEq, Repr

/-- Struct `PathCache`: the entries of the `cache` map, at most one per key, and the
`ttl`.  The mutex is left out: the operations are taken one at a time. -/
structure PathCache where
  cache : List (String × CachedPath)
  ttl : Int
deriving DecidableEq, Repr

/-- Function `NewPathCache`. -/
def NewPathCache (ttl : Int) : PathCache := ⟨[], ttl⟩

/-- The map key `fmt.Sprintf("%s->%s", fromID, toID)`. -/
def cacheKey (fromID toID : String) : String := fromID ++ "->" ++ toID

/-- The map assignment `m[key] = value`: a present entry is replaced. -/
def mapSet {β : Type} (m : List (String × β)) (key : String) (value : β) :
    List (String × β) :=
  (key, value) :: m.filter (fun e => e.1 ≠ key)

/-- Method `PathCache.Get`, executed when `time.Now()` is `now`: the cache afterwards,
the path and `found`. -/
def PathCache.Get (pc : PathCache) (now : Int) (fromID toID : String) :
    PathCache × Option ConnectionPath × Bool :=
  match pc.cache.lookup (cacheKey fromID toID) with
  | none => (pc, none, false)
  | some cached =>
    if now > cached.ExpiresAt then (pc, none, false) else (pc, cached.Path, true)

/-- Method `PathCache.Set`, executed when `time.Now()` is `now`: the cache afterwards. -/
def PathCache.Set (pc : PathCache) (now : Int) (fromID toID : String)
    (path : Option ConnectionPath) : PathCache :=
  { pc with
    cache := mapSet pc.cache (cacheKey fromID toID) (CachedPath.mk path now (now + pc.ttl)) }

/-- Struct `CachedPathFinder`. -/
structure CachedPathFinder where
  pathFinder : PathFinder
  cache : PathCache

/-- Function `NewCachedPathFinder`. -/
def NewCachedPathFinder (pathFinder : PathFinder) (cacheTTL : Int) : CachedPathFinder :=
  ⟨pathFinder, NewPathCache cacheTTL⟩

/-- Method `CachedPathFinder.FindPath`: the finder afterwards and `(path, err)`.  The
clock reads `tGet` in the cache lookup and `tSet` when the result is stored. -/
def CachedPathFinder.FindPath (cpf : CachedPathFinder) (tGet tSet : Int)
    (fromID toID : String) (maxDepth : Int) :
    CachedPathFinder × Option ConnectionPath × Option Err :=
  match cpf.cache.Get tGet fromID toID with
  | (cache1, cached, true) => ({ cpf with cache := cache1 }, cached, none)
  | (cache1, _, false) =>
    match cpf.pathFinder.FindPath fromID toID maxDepth with
    | (_, some err) => ({ cpf with cache := cache1 }, none, some err)
    | (some path, none) =>
      ({ cpf with cache := cache1.Set tSet fromID toID (some path) }, some path, none)
    | (none, none) => ({ cpf with cache := cache1 }, none, none)

/-- Method `CachedPathFinder.FindMultiplePaths`: not cached. -/
def CachedPathFinder.FindMultiplePaths (cpf : CachedPathFinder) (fromID toID : String)
    (maxDepth maxPaths : Int) : Option (List ConnectionPath × Option Err) :=
  cpf.pathFinder.FindMultiplePaths fromID toID maxDepth maxPaths

/-! ## ParallelPathFinder -/

/-- Struct `PathQuery`. -/
structure PathQuery where
  FromID : String
  ToID : String
  MaxDepth : Int
deriving DecidableEq, Repr

/-- Struct `PathResult`. -/
structure PathResult where
  Query : PathQuery
  Path : Option ConnectionPath
  Error : Option Err
deriving DecidableEq, Repr

/-- Where the goroutine of a query stands: blocked at `semaphore <- struct{}{}`, holding
a slot of the semaphore, or finished (result written, slot released, `wg.Done()` run). -/
inductive Phase where
  | waiting
  | running
  | done
deriving DecidableEq, Repr

/-- The shared state of one `FindMultiplePathsParallel` call: the phase of every
goroutine and the `results` slice (nil entries are `none`). -/
structure ParState where
  phases : List Phase
  results : List (Option PathResult)
deriving DecidableEq, Repr

/-- The number of elements in the semaphore channel. -/
def ParState.held (st : ParState) : Nat := st.phases.count Phase.running

/-- The state after `wg.Add(1); go func(...)` for every query. -/
def parInit (queries : List PathQuery) : ParState :=
  ⟨queries.map (fun _ => Phase.waiting), queries.map (fun _ => none)⟩

/-- One scheduling turn of the goroutine `index`.  Waiting, it acquires a slot if the
channel of capacity `maxWorkers` is not full and stays blocked otherwise; running, it calls
`FindPath`, writes `results[index]`, releases the slot and signals the wait group. -/
def parStep (pathFinder : PathFinder) (maxWorkers : Int) (queries : List PathQuery)
    (st : ParState) (index : Nat) : ParState :=
  match st.phases.get? index, queries.get? index with
  | some Phase.waiting, some _ =>
    if (st.held : Int) < maxWorkers then
      { st with phases := st.phases.set index Phase.running }
    else st
  | some Phase.running, some q =>
    { phases := st.phases.set index Phase.done,
      results := st.results.set index
        (some ⟨q, (pathFinder.FindPath q.FromID q.ToID q.MaxDepth).1,
          (pathFinder.FindPath q.FromID q.ToID q.MaxDepth).2⟩) }
  | _, _ => st

/-- Method `ParallelPathFinder.FindMultiplePathsParallel` under a schedule: the list of
goroutines that take a turn, in order.  The value is `(results, err)` once `wg.Wait()`
returns, and `none` while some goroutine has not finished. -/
def FindMultiplePathsParallel (pathFinder : PathFinder) (maxWorkers : Int)
    (queries : List PathQuery) (schedule : List Nat) :
    Option (List (Option PathResult) × Option Err) :=
  if queries.length = 0 then some ([], none)
  else
    if (schedule.foldl (parStep pathFinder maxWorkers queries) (parInit queries)).phases.all
        (fun p => p = Phase.done) then
      some ((schedule.foldl (parStep pathFinder maxWorkers queries) (parInit queries)).results,
        none)
    else none

/-! ## ConnectionService.AnalyzeConnectionStrength -/

/-- Errors of `AnalyzeConnectionStrength`: the validation error "invalid path for
analysis", or a wrapped failure of a strength lookup. -/
inductive AnalysisErr where
  | invalidPath
  | strengthLookup (cause : Err)
deriving DecidableEq, Repr

/-- Struct `ConnectionAnalysis`, without the `AnalyzedAt` time stamp. -/
structure ConnectionAnalysis where
  Path : ConnectionPath
  ConnectionStrengths : List ℚ
  WeakestLink : ℚ
  WeakestLinkIndex : Nat
  StrongestLink : ℚ
  StrongestLinkIndex : Nat
  AverageStrength : ℚ
  TotalConnections : Int
  PathClassification : String
deriving DecidableEq, Repr

/-- The loop of `AnalyzeConnectionStrength` from index `i` on, over the rest of the path,
with the analysis so far, `totalStrength` and `connectionStrengths`. -/
def analyzeLoop (repo : GraphRepository) :
    List String → Nat → ConnectionAnalysis → ℚ → List ℚ → List Call →
      List Call × Except AnalysisErr (ConnectionAnalysis × ℚ × List ℚ)
  | a :: b :: rest, i, analysis, totalStrength, connectionStrengths, calls =>
    match repo.GetConnectionStrength a b with
    | .error e => (calls ++ [Call.strength a b], .error (AnalysisErr.strengthLookup e))
    | .ok strength =>
      let analysis1 :=
        if strength < analysis.WeakestLink then
          { analysis with WeakestLink := strength, WeakestLinkIndex := i }
        else analysis
      let analysis2 :=
        if strength > analysis1.StrongestLink then
          { analysis1 with StrongestLink := strength, StrongestLinkIndex := i }
        else analysis1
      analyzeLoop repo (b :: rest) (i + 1) analysis2 (totalStrength + strength)
        (connectionStrengths ++ [strength]) (calls ++ [Call.strength a b])
  | _, _, analysis, totalStrength, connectionStrengths, calls =>
    (calls, .ok (analysis, totalStrength, connectionStrengths))

/-- The classification of an average strength. -/
def classify (average : ℚ) : String :=
  if average ≥ 8 / 10 then "Strong"
  else if average ≥ 6 / 10 then "Moderate"
  else if average ≥ 4 / 10 then "Weak"
  else "Very Weak"

/-- What `AnalyzeConnectionStrength` returns, `(analysis, err)`, with the strength
lookups it issued. -/
structure AnalysisResult where
  calls : List Call
  analysis : Option ConnectionAnalysis
  err : Option AnalysisErr
deriving DecidableEq, Repr

/-- Method `ConnectionService.AnalyzeConnectionStrength`; `path` is the pointer argument,
`none` when nil.  The metrics calls are left out. -/
def AnalyzeConnectionStrength (repo : GraphRepository) (path : Option ConnectionPath) :
    AnalysisResult :=
  match path with
  | none => ⟨[], none, some AnalysisErr.invalidPath⟩
  | some p =>
    if p.Path.length < 2 then ⟨[], none, some AnalysisErr.invalidPath⟩
    else
      match analyzeLoop repo p.Path 0
          { Path := p, ConnectionStrengths := [], WeakestLink := 1, WeakestLinkIndex := 0,
            StrongestLink := 0, StrongestLinkIndex := 0, AverageStrength := 0,
            TotalConnections := (p.Path.length : Int) - 1, PathClassification := "" }
          0 [] [] with
      | (calls, .error e) => ⟨calls, none, some e⟩
      | (calls, .ok (analysis, totalStrength, connectionStrengths)) =>
        ⟨calls,
          some { analysis with
            AverageStrength := totalStrength / (connectionStrengths.length : ℚ),
            ConnectionStrengths := connectionStrengths,
            PathClassification :=
              classify (totalStrength / (connectionStrengths.length : ℚ)) },
          none⟩

/-! ## EligibleMatch.CalculateCompatibilityScore -/

/-- Struct `Education`, with the field that the scoring reads. -/
structure Education where
  HighestDegree : String
deriving DecidableEq, Repr

/-- Struct `Profession`, with the field that the scoring reads. -/
structure Profession where
  Industry : String
deriving DecidableEq, Repr

/-- Struct `Person`, with the fields that the scoring reads.  `Age` is the value of a Go
`int`; `validatePerson` admits the ages 0..150. -/
structure Person where
  ID : String
  FamilyID : String
  Age : Int
  Education : Education
  Profession : Profession
deriving DecidableEq, Repr

/-- Struct `Family`, with the fields that the service and the scoring read. -/
structure Family where
  ID : String
  Name : String
  TrustScore : ℚ
deriving DecidableEq, Repr

/-- Struct `EligibleMatch`, without the `CreatedAt` time stamp; the pointers `Person` and
`Family` are taken to be non-nil, `ConnectionPath` is `none` when nil. -/
structure EligibleMatch where
  Person : Person
  Family : Family
  CompatibilityScore : ℚ
  ConnectionPath : Option ConnectionPath
  MatchReasons : List String
deriving DecidableEq, Repr

/-- The value of a Go `int` (64 bits, two's complement) that an arithmetic operation with
the exact result `x` yields: `x` reduced modulo `2^64 = 18446744073709551616` into
`-2^63 .. 2^63 - 1`. -/
def wrapInt (x : Int) : Int :=
  (x + 9223372036854775808) % 18446744073709551616 - 9223372036854775808

/-- Function `abs`; the negation wraps, so `abs` of the least `int` is that same negative
value. -/
def abs (x : Int) : Int :=
  if x < 0 then wrapInt (-x) else x

/-- The map `educationLevels` of `isCompatibleEducation`. -/
def educationLevels : List (String × Int) :=
  [("High School", 1), ("Diploma", 2), ("Graduate", 3), ("Post-Graduate", 4),
    ("Doctorate", 5)]

/-- Function `isCompatibleEducation`. -/
def isCompatibleEducation (edu1 edu2 : String) : Bool :=
  match educationLevels.lookup edu1, educationLevels.lookup edu2 with
  | some level1, some level2 => decide (abs (wrapInt (level1 - level2)) ≤ 1)
  | _, _ => false

/-- The map `compatibleGroups` of `isCompatibleProfession`. -/
def compatibleGroups : List (String × List String) :=
  [("Technology", ["Technology", "Engineering", "Finance"]),
    ("Engineering", ["Engineering", "Technology", "Manufacturing"]),
    ("Finance", ["Finance", "Banking", "Technology"]),
    ("Medicine", ["Medicine", "Healthcare", "Research"]),
    ("Education", ["Education", "Research", "Government"]),
    ("Business", ["Business", "Finance", "Marketing"])]

/-- Function `isCompatibleProfession`. -/
def isCompatibleProfession (prof1 prof2 : String) : Bool :=
  match compatibleGroups.lookup prof1 with
  | some group => group.any (fun compatibleProf => decide (compatibleProf = prof2))
  | none => false

/-- The local variables `score` and `maxScore` of `CalculateCompatibilityScore`, with the
slice `em.MatchReasons`. -/
structure Scoring where
  score : ℚ
  maxScore : ℚ
  reasons : List String
deriving DecidableEq, Repr

/-- The block "Age compatibility" of `CalculateCompatibilityScore`. -/
def scoreAge (em : EligibleMatch) (seeker : Person) (s : Scoring) : Scoring :=
  let maxScore := s.maxScore + 20
  let ageWeight : ℚ := 20
  let ageDiff := abs (wrapInt (em.Person.Age - seeker.Age))
  if ageDiff ≤ 2 then
    ⟨s.score + ageWeight, maxScore, s.reasons ++ ["Similar age"]⟩
  else if ageDiff ≤ 5 then
    ⟨s.score + ageWeight * (7 / 10), maxScore, s.reasons ++ ["Compatible age range"]⟩
  else if ageDiff ≤ 10 then
    ⟨s.score + ageWeight * (3 / 10), maxScore, s.reasons⟩
  else ⟨s.score, maxScore, s.reasons⟩

/-- The block "Education compatibility". -/
def scoreEducation (em : EligibleMatch) (seeker : Person) (s : Scoring) : Scoring :=
  let maxScore := s.maxScore + 25
  let eduWeight : ℚ := 25
  if em.Person.Education.HighestDegree = seeker.Education.HighestDegree then
    ⟨s.score + eduWeight, maxScore, s.reasons ++ ["Same education level"]⟩
  else if isCompatibleEducation em.Person.Education.HighestDegree
      seeker.Education.HighestDegree then
    ⟨s.score + eduWeight * (8 / 10), maxScore, s.reasons ++ ["Compatible education"]⟩
  else ⟨s.score, maxScore, s.reasons⟩

/-- The block "Profession compatibility". -/
def scoreProfession (em : EligibleMatch) (seeker : Person) (s : Scoring) : Scoring :=
  let maxScore := s.maxScore + 20
  let profWeight : ℚ := 20
  if em.Person.Profession.Industry = seeker.Profession.Industry then
    ⟨s.score + profWeight, maxScore, s.reasons ++ ["Same profession field"]⟩
  else if isCompatibleProfession em.Person.Profession.Industry
      seeker.Profession.Industry then
    ⟨s.score + profWeight * (6 / 10), maxScore, s.reasons ++ ["Compatible profession"]⟩
  else ⟨s.score, maxScore, s.reasons⟩

/-- The block "Family trust score". -/
def scoreTrust (em : EligibleMatch) (s : Scoring) : Scoring :=
  let maxScore := s.maxScore + 15
  let trustWeight : ℚ := 15
  let trustScore := (em.Family.TrustScore / 10) * trustWeight
  let score := s.score + trustScore
  if em.Family.TrustScore ≥ 8 then
    ⟨score, maxScore, s.reasons ++ ["High family trust score"]⟩
  else ⟨score, maxScore, s.reasons⟩

/-- The block "Connection path strength". -/
def scorePath (em : EligibleMatch) (s : Scoring) : Scoring :=
  let maxScore := s.maxScore + 20
  let pathWeight : ℚ := 20
  match em.ConnectionPath with
  | some path =>
    let pathScore := path.PathStrength * pathWeight
    let score := s.score + pathScore
    if path.Degree ≤ 2 then
      ⟨score, maxScore, s.reasons ++ ["Close family connection"]⟩
    else ⟨score, maxScore, s.reasons ++ ["Family connection exists"]⟩
  | none => ⟨s.score, maxScore, s.reasons⟩

/-- The five blocks of `CalculateCompatibilityScore` in order, from `score = 0` and
`maxScore = 0`. -/
def scoring (em : EligibleMatch) (seeker : Person) : Scoring :=
  scorePath em (scoreTrust em (scoreProfession em seeker (scoreEducation em seeker
    (scoreAge em seeker ⟨0, 0, em.MatchReasons⟩))))

/-- Method `EligibleMatch.CalculateCompatibilityScore`: the match after the call. -/
def CalculateCompatibilityScore (em : EligibleMatch) (seeker : Person) : EligibleMatch :=
  let s := scoring em seeker
  { em with CompatibilityScore := (s.score / s.maxScore) * 100, MatchReasons := s.reasons }

/-! ## ConnectionService: common connections -/

/-- Struct `CommonConnection`. -/
structure CommonConnection where
  CommonFamily : Family
  PathToFamily1 : ConnectionPath
  PathToFamily2 : ConnectionPath
  TotalDegree : Int
  CombinedStrength : ℚ
deriving DecidableEq, Repr

/-- The inner loop of `sortCommonConnectionsByDegree` from position `j` on, on the part of
the slice from `j` on: `k` is the number of comparisons left, `len(connections)-i-1-j`;
adjacent entries are exchanged when the left one has the greater `TotalDegree`. -/
def bubblePass : Nat → List CommonConnection → List CommonConnection
  | k + 1, a :: b :: rest =>
    if a.TotalDegree > b.TotalDegree then b :: bubblePass k (a :: rest)
    else a :: bubblePass k (b :: rest)
  | _, connections => connections

/-- The outer loop of `sortCommonConnectionsByDegree`: `k` is the number of passes left,
`len(connections)-1-i`, which is also the number of comparisons of the next pass. -/
def bubbleLoop : Nat → List CommonConnection → List CommonConnection
  | 0, connections => connections
  | k + 1, connections => bubbleLoop k (bubblePass (k + 1) connections)

/-- Method `ConnectionService.sortCommonConnectionsByDegree`: the slice after the call. -/
def sortCommonConnectionsByDegree (connections : List CommonConnection) :
    List CommonConnection :=
  bubbleLoop (connections.length - 1) connections

/-- Function `findIntersection`: the items of `slice2` that occur in `slice1`, in the
order of `slice2`. -/
def findIntersection (slice1 slice2 : List String) : List String :=
  slice2.filter (fun item => decide (item ∈ slice1))

/-- Errors of the aggregate calls of `ConnectionService`: the wrapped failure of one of
the bulk lookups. -/
inductive ServiceErr where
  | familyConnections (cause : Err)
  | centralFamily (cause : Err)
  | connectedFamilies (cause : Err)
  | connections1 (cause : Err)
  | connections2 (cause : Err)
deriving DecidableEq, Repr

/-- One lookup issued by `ConnectionService`, with its arguments. -/
inductive ServiceCall where
  | familyConnections (familyID : String) (degree : Int)
  | familyByID (familyID : String)
  | familiesByIDs (familyIDs : List String)
  | findPath (fromID toID : String) (maxDepth : Int)
deriving DecidableEq, Repr

/-- The collaborators of `ConnectionService`: the bulk query
`connectionRepo.GetFamilyConnections`, the lookups `familyRepo.GetFamilyByID` and
`familyRepo.GetFamiliesByIDs`, and the interface value `pathFinder`.  The path finder has
state of its own (the service is built over a `CachedPathFinder`): `FindPath` takes the
state `σ` and returns the state after the call with the pair `(path, err)`.  The metrics
collector is left out. -/
structure ConnectionService (σ : Type) where
  GetFamilyConnections : String → Int → Except Err (List String)
  GetFamilyByID : String → Except Err Family
  GetFamiliesByIDs : List String → Except Err (List Family)
  FindPath : σ → String → String → Int → σ × Option ConnectionPath × Option Err

/-- Struct `FamilyNetwork`, without the `GeneratedAt` time stamp; the map
`ConnectedFamilies` is a list of entries with distinct keys. -/
structure FamilyNetwork where
  CentralFamily : Family
  ConnectedFamilies : List (Int × List Family)
  TotalConnections : Int
  MaxDegree : Int
deriving DecidableEq, Repr

/-- The map read `m[key]` of a `map[int][]*Family`: the nil slice for an absent key. -/
def bucketGet (m : List (Int × List Family)) (key : Int) : List Family :=
  (m.lookup key).getD []

/-- The map assignment `m[key] = value` of a `map[int][]*Family`. -/
def bucketSet (m : List (Int × List Family)) (key : Int) (value : List Family) :
    List (Int × List Family) :=
  (key, value) :: m.filter (fun e => e.1 ≠ key)

/-- What an aggregate call of `ConnectionService` returns, `(value, err)`, with the state
of the path finder after the call and the lookups it issued, in order. -/
structure ServiceResult (σ α : Type) where
  finder : σ
  calls : List ServiceCall
  value : Option α
  err : Option ServiceErr

/-- The loop "Organize families by degree" of `GetFamilyNetwork` over the rest of
`connectedFamilies`. -/
def networkLoop {σ : Type} (s : ConnectionService σ) (familyID : String) (degree : Int) :
    List Family → σ → List ServiceCall → List (Int × List Family) →
      σ × List ServiceCall × List (Int × List Family)
  | [], finder, calls, buckets => (finder, calls, buckets)
  | family :: rest, finder, calls, buckets =>
    match s.FindPath finder familyID family.ID degree with
    | (finder1, path, err) =>
      let calls1 := calls ++ [ServiceCall.findPath familyID family.ID degree]
      match err with
      | some _ => networkLoop s familyID degree rest finder1 calls1 buckets
      | none =>
        match path with
        | some p =>
          let degreeLevel := p.Degree
          if degreeLevel ≤ degree then
            networkLoop s familyID degree rest finder1 calls1
              (bucketSet buckets degreeLevel (bucketGet buckets degreeLevel ++ [family]))
          else networkLoop s familyID degree rest finder1 calls1 buckets
        | none => networkLoop s familyID degree rest finder1 calls1 buckets

/-- Method `ConnectionService.GetFamilyNetwork`, from the state `finder` of the path
finder. -/
def GetFamilyNetwork {σ : Type} (s : ConnectionService σ) (finder : σ) (familyID : String)
    (degree : Int) : ServiceResult σ FamilyNetwork :=
  let degree := if degree ≤ 0 ∨ degree > 4 then 2 else degree
  let calls1 := [ServiceCall.familyConnections familyID degree]
  match s.GetFamilyConnections familyID degree with
  | .error e => ⟨finder, calls1, none, some (ServiceErr.familyConnections e)⟩
  | .ok connectedFamilyIDs =>
    let calls2 := calls1 ++ [ServiceCall.familyByID familyID]
    match s.GetFamilyByID familyID with
    | .error e => ⟨finder, calls2, none, some (ServiceErr.centralFamily e)⟩
    | .ok centralFamily =>
      let calls3 := calls2 ++ [ServiceCall.familiesByIDs connectedFamilyIDs]
      match s.GetFamiliesByIDs connectedFamilyIDs with
      | .error e => ⟨finder, calls3, none, some (ServiceErr.connectedFamilies e)⟩
      | .ok connectedFamilies =>
        match networkLoop s familyID degree connectedFamilies finder calls3 [] with
        | (finder1, calls4, buckets) =>
          ⟨finder1, calls4,
            some ⟨centralFamily, buckets, (connectedFamilies.length : Int), degree⟩, none⟩

/-- The loop of `FindCommonConnections` over the rest of `commonFamilyIDs`. -/
def commonLoop {σ : Type} (s : ConnectionService σ) (family1ID family2ID : String)
    (maxDegree : Int) :
    List String → σ → List ServiceCall → List CommonConnection →
      σ × List ServiceCall × List CommonConnection
  | [], finder, calls, commonConnections => (finder, calls, commonConnections)
  | commonFamilyID :: rest, finder, calls, commonConnections =>
    let calls1 := calls ++ [ServiceCall.familyByID commonFamilyID]
    match s.GetFamilyByID commonFamilyID with
    | .error _ => commonLoop s family1ID family2ID maxDegree rest finder calls1
        commonConnections
    | .ok commonFamily =>
      match s.FindPath finder family1ID commonFamilyID maxDegree with
      | (finder1, path1, err1) =>
        let calls2 := calls1 ++ [ServiceCall.findPath family1ID commonFamilyID maxDegree]
        match err1 with
        | some _ => commonLoop s family1ID family2ID maxDegree rest finder1 calls2
            commonConnections
        | none =>
          match s.FindPath finder1 family2ID commonFamilyID maxDegree with
          | (finder2, path2, err2) =>
            let calls3 := calls2 ++
              [ServiceCall.findPath family2ID commonFamilyID maxDegree]
            match err2 with
            | some _ => commonLoop s family1ID family2ID maxDegree rest finder2 calls3
                commonConnections
            | none =>
              match path1, path2 with
              | some p1, some p2 =>
                commonLoop s family1ID family2ID maxDegree rest finder2 calls3
                  (commonConnections ++
                    [⟨commonFamily, p1, p2, p1.Degree + p2.Degree,
                      (p1.PathStrength + p2.PathStrength) / 2⟩])
              | _, _ => commonLoop s family1ID family2ID maxDegree rest finder2 calls3
                  commonConnections

/-- Method `ConnectionService.FindCommonConnections`, from the state `finder` of the path
finder. -/
def FindCommonConnections {σ : Type} (s : ConnectionService σ) (finder : σ)
    (family1ID family2ID : String) (maxDegree : Int) :
    ServiceResult σ (List CommonConnection) :=
  let maxDegree := if maxDegree ≤ 0 ∨ maxDegree > 3 then 2 else maxDegree
  let calls1 := [ServiceCall.familyConnections family1ID maxDegree]
  match s.GetFamilyConnections family1ID maxDegree with
  | .error e => ⟨finder, calls1, none, some (ServiceErr.connections1 e)⟩
  | .ok connections1 =>
    let calls2 := calls1 ++ [ServiceCall.familyConnections family2ID maxDegree]
    match s.GetFamilyConnections family2ID maxDegree with
    | .error e => ⟨finder, calls2, none, some (ServiceErr.connections2 e)⟩
    | .ok connections2 =>
      let commonFamilyIDs := findIntersection connections1 connections2
      match commonLoop s family1ID family2ID maxDegree commonFamilyIDs finder calls2 []
        with
      | (finder1, calls3, commonConnections) =>
        ⟨finder1, calls3, some (sortCommonConnectionsByDegree commonConnections), none⟩

/-- Handler `ConnectionHandler.FindCommonConnections`, as far as the query parameter
`max_degree` goes: `parsed` is the integer that the parameter holds, `none` when it is
missing or does not parse; the value is what the handler passes to the service and reports
as `max_degree` in its answer. -/
def handlerMaxDegree (parsed : Option Int) : Int :=
  match parsed with
  | some d => if d > 0 ∧ d ≤ 4 then d else 2
  | none => 2

/-! ## Test graphs -/

/-- A store over an undirected edge list with strengths; every lookup succeeds, and a
pair without an edge has strength 0. -/
def edgeStore (edges : List (String × String × ℚ)) : GraphRepository where
  GetNeighbors := fun x =>
    .ok (edges.filterMap (fun e =>
      if e.1 = x then some e.2.1 else if e.2.1 = x then some e.1 else none))
  GetConnectionStrength := fun a b =>
    .ok (((edges.filter (fun e =>
      (e.1 = a ∧ e.2.1 = b) ∨ (e.1 = b ∧ e.2.1 = a))).map (fun e => e.2.2)).headD 0)
  GetFamilyTrustScore := fun _ => .ok 0

/-- The single edge A–B. -/
def graphAB : GraphRepository := edgeStore [("A", "B", 9 / 10)]

/-- The chain A–B–C of the scenario: strengths 0.9 and 0.5. -/
def graphABC : GraphRepository := edgeStore [("A", "B", 9 / 10), ("B", "C", 1 / 2)]

/-- The chain A–B–C–D–E, every edge of strength 1. -/
def chainAE : GraphRepository :=
  edgeStore [("A", "B", 1), ("B", "C", 1), ("C", "D", 1), ("D", "E", 1)]

/-- Two routes X–M1–Y and X–M2–Y. -/
def diamond : GraphRepository :=
  edgeStore [("X", "M1", 1), ("X", "M2", 1 / 2), ("M1", "Y", 1), ("M2", "Y", 1 / 3)]

/-- A store whose every lookup fails. -/
def failingStore : GraphRepository where
  GetNeighbors := fun _ => .error (Err.store "unavailable")
  GetConnectionStrength := fun _ _ => .error (Err.store "unavailable")
  GetFamilyTrustScore := fun _ => .error (Err.store "unavailable")

/-! ## Specification vocabulary -/

/-- The consecutive node pairs `(Path[i], Path[i+1])` of a path. -/
def pairs (path : List String) : List (String × String) := path.zip path.tail

/-- The strength the store reports for an edge (0 when the lookup fails). -/
def strengthOf (repo : GraphRepository) (e : String × String) : ℚ :=
  match repo.GetConnectionStrength e.1 e.2 with
  | .ok s => s
  | .error _ => 0

/-- The invariant of a resolved path, with its strength and verification flag as the
documentation describes them. -/
def Assembled (repo : GraphRepository) (p : ConnectionPath) : Prop :=
  p.Path.Nodup ∧ p.Degree = (p.Path.length : Int) - 1 ∧
  (∀ e ∈ pairs p.Path, ∃ s, repo.GetConnectionStrength e.1 e.2 = .ok s) ∧
  p.PathStrength = ((pairs p.Path).map (strengthOf repo)).prod ∧
  (p.Verified = true ↔ ∀ e ∈ pairs p.Path, 1 / 2 < strengthOf repo e)

/-- No lookup of the log failed. -/
def Clean (repo : GraphRepository) (cs : List Call) : Prop :=
  ∀ c ∈ cs, repo.fails c = false

/-- The last lookup of the log failed and none before it did. -/
def Stopped (repo : GraphRepository) (cs : List Call) : Prop :=
  ∃ pre c, cs = pre ++ [c] ∧ Clean repo pre ∧ repo.fails c = true

/-- The log of a finished search: either no error and no failed lookup, or an error, no
path, and the failed lookup is the last one issued. -/
def LogOK (repo : GraphRepository) (r : FindResult) : Prop :=
  (r.err = none ∧ Clean repo r.calls) ∨
  (r.path = none ∧ r.err.isSome = true ∧ Stopped repo r.calls)

/-- Length of the path spliced at a meeting point, from the lengths of the expanded
state's path and of the other frontier's path. -/
def spliceLen : Dir → Nat → Nat → Nat
  | .forward, s, o => s + (o - 1)
  | .backward, s, o => o + (s - 1)

/-- The node `y` is in the neighbor list the store returns for `x`. -/
def Adjacent (repo : GraphRepository) (x y : String) : Prop :=
  ∃ l, repo.GetNeighbors x = .ok l ∧ y ∈ l

/-- An edge between `x` and `y` in either direction. -/
def Linked (repo : GraphRepository) (x y : String) : Prop :=
  Adjacent repo x y ∨ Adjacent repo y x

/-- A route joins `x` and `y`: a chain of edges, each taken in either direction. -/
def Route (repo : GraphRepository) : String → String → Prop :=
  Relation.ReflTransGen (Linked repo)

/-- The path `p` is returned by `FindPath` or is among the paths returned by
`FindMultiplePaths`, for some arguments. -/
def ReturnedBy (repo : GraphRepository) (growCap : Nat → Nat → Nat)
    (p : ConnectionPath) : Prop :=
  (∃ fromID toID maxDepth, (FindPath repo growCap fromID toID maxDepth).path = some p) ∨
  (∃ fuel fromID toID maxDepth maxPaths res,
    FindMultiplePaths repo growCap fuel fromID toID maxDepth maxPaths = some res ∧
      p ∈ res.paths)

/-- What `FindPath("A", "C", 3)` returns on `graphABC`. -/
def pathAB : ConnectionPath := ⟨"A", "C", ["A", "B"], 1, 9 / 10, [], true⟩

/-- What `FindMultiplePaths("A", "C", 2, 1)` returns on `graphABC`. -/
def pathABC : ConnectionPath := ⟨"A", "C", ["A", "B", "C"], 2, 9 / 20, [], false⟩

/-- The lookups and paths of `FindMultiplePaths("A", "C", 2, 1)` on `graphABC`. -/
def multiABC : MultiResult :=
  ⟨[Call.neighbors "A", Call.neighbors "B", Call.strength "A" "B", Call.strength "B" "C"],
    [pathABC], none⟩

/-- The slice `s` holds the elements `l`: `len(s) = len(l)` and the backing array of `s`
starts with `l`. -/
def Holds (h : Heap) (s : Slice) (l : List String) : Prop :=
  s.len = l.length ∧ ∃ t, h.array s.arr = l ++ t

/-- From `X` to `Y` the graph consists of the 2-hop routes through the nodes `ms`, which
are pairwise different and different from `X` and `Y`: the neighbors of `X` are `ms`, every
`m` in `ms` has `Y` and at most `X` besides as neighbors, and the strengths of the edges
`X–m` and `m–Y` can be looked up. -/
def TwoHopRoutes (repo : GraphRepository) (X Y : String) (ms : List String) : Prop :=
  X ≠ Y ∧ ms.Nodup ∧ X ∉ ms ∧ Y ∉ ms ∧ repo.GetNeighbors X = .ok ms ∧
  (∀ m ∈ ms, ∃ l, repo.GetNeighbors m = .ok l ∧ Y ∈ l ∧ ∀ z ∈ l, z = X ∨ z = Y) ∧
  (∀ m ∈ ms, (∃ s, repo.GetConnectionStrength X m = .ok s) ∧
    ∃ s, repo.GetConnectionStrength m Y = .ok s)

/-- The queue holds, in order, one state per node of `ms`, each with the path `[X, m]`
in an array of its own. -/
def RouteQueue (h : Heap) (X : String) (q : List PathState) (ms : List String) : Prop :=
  List.Forall₂ (fun st m => st.FamilyID = m ∧ Holds h st.Path [X, m]) q ms ∧
  (q.map (fun st => st.Path.arr)).Nodup ∧
  ∀ st ∈ q, 0 < st.Path.arr ∧ st.Path.arr < h.length

/-- Two routes from X to Y, X–`a->b`–Y and X–a–b–Y, whose path keys coincide. -/
def graphArrow : GraphRepository :=
  edgeStore [("X", "a->b", 1), ("a->b", "Y", 1), ("X", "a", 1), ("a", "b", 1), ("b", "Y", 1)]

/-- What `FindMultiplePaths("X", "Y", 4, 2)` returns on `diamond`. -/
def multiDiamond : MultiResult :=
  ⟨[Call.neighbors "X", Call.neighbors "M1", Call.strength "X" "M1", Call.strength "M1" "Y",
      Call.neighbors "X", Call.neighbors "M1", Call.neighbors "M2", Call.strength "X" "M2",
      Call.strength "M2" "Y"],
    [⟨"X", "Y", ["X", "M1", "Y"], 2, 1, [], true⟩,
      ⟨"X", "Y", ["X", "M2", "Y"], 2, 1 / 6, [], false⟩], none⟩

/-- The result slice the batch call is to return: for every query its own
`PathResult`, in the order of the queries. -/
def parExpected (pathFinder : PathFinder) (queries : List PathQuery) :
    List (Option PathResult) :=
  queries.map (fun q => some ⟨q, (pathFinder.FindPath q.FromID q.ToID q.MaxDepth).1,
    (pathFinder.FindPath q.FromID q.ToID q.MaxDepth).2⟩)

/-- The state reached from the start under a schedule. -/
def parRun (pathFinder : PathFinder) (maxWorkers : Int) (queries : List PathQuery)
    (st : ParState) (schedule : List Nat) : ParState :=
  schedule.foldl (parStep pathFinder maxWorkers queries) st

/-- Work left in a state: two turns for a waiting goroutine, one for a running one. -/
def parWork (phases : List Phase) : Nat :=
  (phases.map (fun p => match p with
    | Phase.waiting => 2
    | Phase.running => 1
    | Phase.done => 0)).sum

/-- The invariant of the shared state: one phase and one result slot per query, and the
slot of every finished goroutine holds the result of its query. -/
def ParInv (pathFinder : PathFinder) (queries : List PathQuery) (st : ParState) : Prop :=
  st.phases.length = queries.length ∧ st.results.length = queries.length ∧
  ∀ i, st.phases.get? i = some Phase.done →
    st.results.get? i = (parExpected pathFinder queries).get? i

/-- In the list `ss` the value `w` is the least one and `idx` is the first index that
holds it. -/
def IsFirstMin (ss : List ℚ) (w : ℚ) (idx : Nat) : Prop :=
  ss.get? idx = some w ∧ (∀ s ∈ ss, w ≤ s) ∧ ∀ j < idx, ∀ s, ss.get? j = some s → w < s

/-- In the list `ss` the value `w` is the greatest one and `idx` is the first index that
holds it. -/
def IsFirstMax (ss : List ℚ) (w : ℚ) (idx : Nat) : Prop :=
  ss.get? idx = some w ∧ (∀ s ∈ ss, s ≤ w) ∧ ∀ j < idx, ∀ s, ss.get? j = some s → s < w

/-- The weakest link after the strengths `seen`: the start value 1 at index 0 before any
strength, the first least strength afterwards. -/
def WeakInv (seen : List ℚ) (w : ℚ) (idx : Nat) : Prop :=
  (seen = [] → w = 1 ∧ idx = 0) ∧ (seen ≠ [] → IsFirstMin seen w idx)

/-- The strongest link after the strengths `seen`: the start value 0 at index 0 before
any strength, the first greatest strength afterwards. -/
def StrongInv (seen : List ℚ) (w : ℚ) (idx : Nat) : Prop :=
  (seen = [] → w = 0 ∧ idx = 0) ∧ (seen ≠ [] → IsFirstMax seen w idx)

/-- The chain A–B–C–D with strengths 0.9, 0.3 and 0.7. -/
def chainWeak : GraphRepository :=
  edgeStore [("A", "B", 9 / 10), ("B", "C", 3 / 10), ("C", "D", 7 / 10)]

/-- A path over the four nodes of `chainWeak`. -/
def weakPath : ConnectionPath := ⟨"A", "D", ["A", "B", "C", "D"], 3, 0, [], false⟩

/-- Points `A` of the age factor, for the two ages. -/
def agePoints (candidate seeker : Int) : ℚ :=
  if |candidate - seeker| ≤ 2 then 20
  else if |candidate - seeker| ≤ 5 then 14
  else if |candidate - seeker| ≤ 10 then 6
  else 0

/-- The ordinal scale of education levels, lowest first. -/
def educationScale : List String :=
  ["High School", "Diploma", "Graduate", "Post-Graduate", "Doctorate"]

/-- Two degrees are both known levels at most one step apart on the ordinal scale. -/
def AdjacentLevels (edu1 edu2 : String) : Prop :=
  ∃ i j, educationScale.get? i = some edu1 ∧ educationScale.get? j = some edu2 ∧
    (i ≤ j + 1 ∧ j ≤ i + 1)

instance (edu1 edu2 : String) : Decidable (AdjacentLevels edu1 edu2) :=
  decidable_of_iff
    (∃ i ∈ List.range 5, ∃ j ∈ List.range 5, educationScale.get? i = some edu1 ∧
      educationScale.get? j = some edu2 ∧ (i ≤ j + 1 ∧ j ≤ i + 1))
    (by
      constructor
      · rintro ⟨i, _, j, _, h⟩
        exact ⟨i, j, h⟩
      · rintro ⟨i, j, h1, h2, h3⟩
        have hi : i < educationScale.length := by
          by_contra hge
          rw [List.get?_eq_none.2 (not_lt.1 hge)] at h1
          cases h1
        have hj : j < educationScale.length := by
          by_contra hge
          rw [List.get?_eq_none.2 (not_lt.1 hge)] at h2
          cases h2
        exact ⟨i, List.mem_range.2 hi, j, List.mem_range.2 hj, h1, h2, h3⟩)

/-- Points `E` of the education factor, for the two `HighestDegree` strings. -/
def educationPoints (candidate seeker : String) : ℚ :=
  if candidate = seeker then 25
  else if AdjacentLevels candidate seeker then 20
  else 0

/-- The seeker's industry is in the compatible group of the candidate's industry. -/
def InCompatibleGroup (candidate seeker : String) : Prop :=
  ∃ group, (candidate, group) ∈ compatibleGroups ∧ seeker ∈ group

instance (candidate seeker : String) : Decidable (InCompatibleGroup candidate seeker) :=
  decidable_of_iff (∃ e ∈ compatibleGroups, e.1 = candidate ∧ seeker ∈ e.2)
    (by
      constructor
      · rintro ⟨⟨c, g⟩, hmem, rfl, hs⟩
        exact ⟨g, hmem, hs⟩
      · rintro ⟨g, hmem, hs⟩
        exact ⟨(candidate, g), hmem, rfl, hs⟩)

/-- Points `P` of the profession factor, for the two industries. -/
def professionPoints (candidate seeker : String) : ℚ :=
  if candidate = seeker then 20
  else if InCompatibleGroup candidate seeker then 12
  else 0

/-- Points `T` of the family trust factor. -/
def trustPoints (trustScore : ℚ) : ℚ :=
  15 * (trustScore / 10)

/-- Points `S` of the connection path factor. -/
def pathPoints (path : Option ConnectionPath) : ℚ :=
  match path with
  | some p => 20 * p.PathStrength
  | none => 0

/-- A candidate aged 38 of another education, another industry and a family of trust 0,
without a connection path. -/
def matchOlder : EligibleMatch :=
  ⟨⟨"P2", "F2", 38, ⟨"Doctorate"⟩, ⟨"Medicine"⟩⟩, ⟨"F2", "Rao", 0⟩, 0, none, []⟩

/-- A seeker aged 30. -/
def seeker30 : Person :=
  ⟨"P1", "F1", 30, ⟨"High School"⟩, ⟨"Technology"⟩⟩

/-- A candidate aged 50 whose family has trust score 5. -/
def matchTrusted : EligibleMatch :=
  ⟨⟨"P3", "F3", 50, ⟨"Doctorate"⟩, ⟨"Medicine"⟩⟩, ⟨"F3", "Iyer", 5⟩, 0, none, []⟩

/-- A candidate aged 50 with a connection path of strength 0. -/
def matchPath0 : EligibleMatch :=
  ⟨⟨"P4", "F4", 50, ⟨"Doctorate"⟩, ⟨"Medicine"⟩⟩, ⟨"F4", "Nair", 0⟩, 0,
    some ⟨"F1", "F4", ["F1", "F4"], 1, 0, [], false⟩, []⟩

/-- A candidate of the same age, education and industry as `seeker30`, of a family with
trust score 10, joined by a path of strength 1. -/
def matchBest : EligibleMatch :=
  ⟨⟨"P5", "F5", 30, ⟨"High School"⟩, ⟨"Technology"⟩⟩, ⟨"F5", "Menon", 10⟩, 0,
    some ⟨"F1", "F5", ["F1", "F5"], 1, 1, [], true⟩, []⟩

/-- A candidate whose `Age` is the least `int`, of another education, another industry and
a family of trust 0, without a connection path. -/
def matchLeastAge : EligibleMatch :=
  ⟨⟨"P6", "F6", -2 ^ 63, ⟨"Doctorate"⟩, ⟨"Medicine"⟩⟩, ⟨"F6", "Das", 0⟩, 0, none, []⟩

/-- A seeker with `Age = 0`. -/
def seekerZero : Person :=
  ⟨"P0", "F0", 0, ⟨"High School"⟩, ⟨"Technology"⟩⟩

/-- The reason that the age block appends, if any. -/
def ageReasons (candidate seeker : Int) : List String :=
  if |candidate - seeker| ≤ 2 then ["Similar age"]
  else if |candidate - seeker| ≤ 5 then ["Compatible age range"]
  else []

/-- The reason that the education block appends, if any. -/
def educationReasons (candidate seeker : String) : List String :=
  if candidate = seeker then ["Same education level"]
  else if AdjacentLevels candidate seeker then ["Compatible education"]
  else []

/-- The reason that the profession block appends, if any. -/
def professionReasons (candidate seeker : String) : List String :=
  if candidate = seeker then ["Same profession field"]
  else if InCompatibleGroup candidate seeker then ["Compatible profession"]
  else []

/-- The reason that the family trust block appends, if any. -/
def trustReasons (trustScore : ℚ) : List String :=
  if trustScore ≥ 8 then ["High family trust score"] else []

/-- The reason that the connection path block appends, if any. -/
def pathReasons (path : Option ConnectionPath) : List String :=
  match path with
  | some p => if p.Degree ≤ 2 then ["Close family connection"]
              else ["Family connection exists"]
  | none => []

/-- A common connection of total degree `d` under the family name `name`. -/
def commonOf (name : String) (d : Int) : CommonConnection :=
  ⟨⟨name, name, 5⟩, ⟨"A", name, ["A", name], 1, 1, [], true⟩,
    ⟨"B", name, ["B", name], 1, 1, [], true⟩, d, 1⟩

/-- The degree argument of a lookup, for the lookups that have one. -/
def ServiceCall.degree? : ServiceCall → Option Int
  | .familyConnections _ degree => some degree
  | .findPath _ _ maxDepth => some maxDepth
  | _ => none

/-- The degree after normalisation to the documented range: the caller's value when it
lies in 1..4, else the default 2. -/
def normalisedDegree (degree : Int) : Int :=
  if 1 ≤ degree ∧ degree ≤ 4 then degree else 2

/-- The path lookups `FindPath(anchor, f, d)` for the candidates `f` in order, from the
state `finder` of the path finder: each candidate with the pair `(path, err)` of its
lookup. -/
def pathLookups {σ : Type} (s : ConnectionService σ) (anchor : String) (d : Int) :
    List Family → σ → List (Family × Option ConnectionPath × Option Err)
  | [], _ => []
  | f :: rest, finder =>
    (f, (s.FindPath finder anchor f.ID d).2) ::
      pathLookups s anchor d rest (s.FindPath finder anchor f.ID d).1

/-- The bucket of a candidate by its lookup: `k` when the lookup succeeded with a path of
`Degree` `k ≤ d`; none when the lookup failed, found no path, or found a path of a degree
above `d`. -/
def bucketOf (d : Int) (o : Family × Option ConnectionPath × Option Err) : Option Int :=
  match o with
  | (_, some p, none) => if p.Degree ≤ d then some p.Degree else none
  | _ => none

/-- A service over a store of families: the bulk query returns `ids` for every family, the
families are read from `families`, and the path finder is a `CachedPathFinder`, with the
clock reading 0. -/
def serviceOver (families : List Family) (ids : List String) :
    ConnectionService CachedPathFinder where
  GetFamilyConnections := fun _ _ => .ok ids
  GetFamilyByID := fun id =>
    match families.find? (fun f => f.ID = id) with
    | some f => .ok f
    | none => .error (Err.store "family not found")
  GetFamiliesByIDs := fun l => .ok (families.filter (fun f => decide (f.ID ∈ l)))
  FindPath := fun cpf fromID toID maxDepth => cpf.FindPath 0 0 fromID toID maxDepth

/-- The families A to E. -/
def familiesAE : List Family :=
  [⟨"A", "A", 5⟩, ⟨"B", "B", 5⟩, ⟨"C", "C", 5⟩, ⟨"D", "D", 5⟩, ⟨"E", "E", 5⟩]

/-- The path finder of the service on the chain A–B–C–D–E: the search wrapped in a cache
with a TTL of five minutes. -/
def finderAE : CachedPathFinder :=
  NewCachedPathFinder (bfsFinder chainAE gcGrowCap 10) 300000000000

/-- A tree: the chain A–B–C–D1–E–F–G–H with the leaf D2 at C. -/
def treeAH : GraphRepository :=
  edgeStore [("A", "B", 1), ("B", "C", 1), ("C", "D1", 1), ("C", "D2", 1), ("D1", "E", 1),
    ("E", "F", 1), ("F", "G", 1), ("G", "H", 1)]

/-- A tree: the chain X–A–B–C1–Y with the leaf C2 at B. -/
def forkXY : GraphRepository :=
  edgeStore [("X", "A", 1), ("A", "B", 1), ("B", "C1", 1), ("B", "C2", 1), ("C1", "Y", 1)]

/-- One call `CachedPathFinder.FindPath(fromID, toID, maxDepth)`, with the clock readings
of its cache lookup and of its cache store. -/
structure FindPathCall where
  tGet : Int
  tSet : Int
  fromID : String
  toID : String
  maxDepth : Int
deriving DecidableEq, Repr

/-- The finder after a sequence of `FindPath` calls, one after the other. -/
def runCalls (cpf : CachedPathFinder) : List FindPathCall → CachedPathFinder
  | [] => cpf
  | c :: rest => runCalls (cpf.FindPath c.tGet c.tSet c.fromID c.toID c.maxDepth).1 rest

/-- Every entry of the cache was stored by one of the `calls`, under the key of that call,
and holds the path that the wrapped finder returns for the arguments of that call. -/
def CacheInv (pf : PathFinder) (calls : List FindPathCall) (cpf : CachedPathFinder) :
    Prop :=
  cpf.pathFinder = pf ∧
  ∀ key cached, cpf.cache.cache.lookup key = some cached →
    ∃ c ∈ calls, cacheKey c.fromID c.toID = key ∧
      pf.FindPath c.fromID c.toID c.maxDepth = (cached.Path, none)

/-- A slice of a search frontier is in order: its array is allocated, and it holds a
sequence of different nodes that are all keys of the visited map of its frontier. -/
def SliceInv (h : Heap) (keys : List String) (s : Slice) : Prop :=
  s.arr < h.length ∧ ∃ l, Holds h s l ∧ l.Nodup ∧ ∀ x ∈ l, x ∈ keys

/-- One frontier is in order: the paths of its visited map and of its pending states are,
and the pending states are visited and carry visited nodes only. -/
def SideInv (h : Heap) (vis : List (String × Slice)) (pending : List PathState) : Prop :=
  (∀ e ∈ vis, SliceInv h (vis.map Prod.fst) e.2) ∧
  (∀ s ∈ pending, SliceInv h (vis.map Prod.fst) s.Path ∧
    s.FamilyID ∈ vis.map Prod.fst ∧ ∀ x ∈ s.Visited, x ∈ vis.map Prod.fst)

/-- The backing arrays that the paths of a frontier live in. -/
def sliceArrs (vis : List (String × Slice)) (pending : List PathState) : List Nat :=
  vis.map (fun e => e.2.arr) ++ pending.map (fun s => s.Path.arr)

/-- Two frontiers with their visited maps and pending states: both are in order, they
share no backing array, and no node is visited by both. -/
def FrontInv (h : Heap) (own opp : List (String × Slice)) (ownQ oppQ : List PathState) :
    Prop :=
  SideInv h own ownQ ∧ SideInv h opp oppQ ∧
  (∀ a ∈ sliceArrs own ownQ, ∀ b ∈ sliceArrs opp oppQ, a ≠ b) ∧
  (∀ x ∈ own.map Prod.fst, x ∉ opp.map Prod.fst)

/-- The invariant of the search, seen from the frontier `d` with its pending states
`ownQ` and the pending states `oppQ` of the opposite frontier. -/
def SearchInv (st : BFSState) (d : Dir) (ownQ oppQ : List PathState) : Prop :=
  FrontInv st.heap (st.own d) (st.opp d) ownQ oppQ

/-- A walk of `k` steps from `x` to `y`, each step to a neighbor. -/
def Walk (repo : GraphRepository) : Nat → String → String → Prop
  | 0, x, y => x = y
  | k + 1, x, y => ∃ z, Adjacent repo x z ∧ Walk repo k z y

/-- Every visited node that is not pending has all its neighbors visited. -/
def Closed (repo : GraphRepository) (vis : List (String × Slice))
    (pending : List PathState) : Prop :=
  ∀ x ∈ vis.map Prod.fst, x ∉ pending.map (fun s => s.FamilyID) →
    ∀ y, Adjacent repo x y → y ∈ vis.map Prod.fst

/-- Every lookup of the store succeeds. -/
def AllSucceed (repo : GraphRepository) : Prop :=
  (∀ x, ∃ l, repo.GetNeighbors x = .ok l) ∧
  ∀ a b, ∃ s, repo.GetConnectionStrength a b = .ok s

/-- The neighbor relation is symmetric. -/
def SymmetricNeighbors (repo : GraphRepository) : Prop :=
  ∀ x y, Adjacent repo x y → Adjacent repo y x

/-- The node list `route` is a route from `x` to `y`: it starts at `x`, ends at `y`, and
consecutive nodes are joined by an edge. -/
def IsRoute (repo : GraphRepository) (x y : String) (route : List String) : Prop :=
  route.head? = some x ∧ route.getLast? = some y ∧ ∀ e ∈ pairs route, Linked repo e.1 e.2

/-! ## Auxiliary lemmas -/

theorem hasCycleFrom_eq_false (seen path : List String) :
    hasCycleFrom seen path = false ↔ (∀ x ∈ path, x ∉ seen) ∧ path.Nodup := by
  induction path generalizing seen with
  | nil => simp [hasCycleFrom]
  | cons a rest ih =>
    by_cases ha : a ∈ seen
    · simp only [hasCycleFrom, ha, if_true]
      constructor
      · intro h; cases h
      · rintro ⟨h, _⟩; exact absurd ha (h a (List.mem_cons_self _ _))
    · simp only [hasCycleFrom, ha, if_false, ih, List.nodup_cons, List.mem_cons]
      constructor
      · rintro ⟨h1, h2⟩
        refine ⟨?_, ?_, h2⟩
        · intro x hx
          rcases hx with rfl | hx
          · exact ha
          · exact fun hs => h1 x hx (Or.inr hs)
        · intro har; exact h1 a har (Or.inl rfl)
      · rintro ⟨h1, h2, h3⟩
        refine ⟨?_, h3⟩
        intro x hx hs
        rcases hs with rfl | hs
        · exact h2 hx
        · exact h1 x (Or.inr hx) hs

theorem hasCycle_eq_false (path : List String) : hasCycle path = false ↔ path.Nodup := by
  simp [hasCycle, hasCycleFrom_eq_false]

theorem reverse_eq (l : List String) : reverse l = l.reverse := by
  have h : ∀ (l acc : List String),
      l.foldl (fun reversed v => v :: reversed) acc = l.reverse ++ acc := by
    intro l
    induction l with
    | nil => intro acc; rfl
    | cons a t ih => intro acc; simp [List.foldl, ih]
  simp [reverse, h l []]

theorem length_reverse (l : List String) : (reverse l).length = l.length := by
  simp [reverse_eq]

theorem length_read (h : Heap) (s : Slice) : (h.read s).length = s.len := by
  simp [Heap.read]

theorem append_len (g : Nat → Nat → Nat) (h : Heap) (s : Slice) (xs : List String) :
    (append g h s xs).2.len = s.len + xs.length := by
  unfold append
  split <;> rfl

theorem mem_of_lookup {β : Type} (k : String) (v : β) (l : List (String × β))
    (h : l.lookup k = some v) : (k, v) ∈ l := by
  induction l with
  | nil => simp at h
  | cons e t ih =>
    obtain ⟨k1, v1⟩ := e
    by_cases hk : k = k1
    · subst hk
      simp [List.lookup] at h
      subst h
      exact List.mem_cons_self _ _
    · have : (k == k1) = false := by simpa using hk
      simp [List.lookup, this] at h
      exact List.mem_cons_of_mem _ (ih h)

theorem pairs_cons_cons (a b : String) (rest : List String) :
    pairs (a :: b :: rest) = (a, b) :: pairs (b :: rest) := by
  simp [pairs]

theorem clean_snoc {repo : GraphRepository} {cs : List Call} {c : Call}
    (h : Clean repo cs) (hc : repo.fails c = false) : Clean repo (cs ++ [c]) := by
  intro x hx
  rcases List.mem_append.1 hx with hx | hx
  · exact h x hx
  · rw [List.mem_singleton.1 hx]; exact hc

theorem strengthLoop_ok (repo : GraphRepository) (path : List String) :
    ∀ (strength : ℚ) (allVerified : Bool) (calls calls1 : List Call) (s : ℚ) (v : Bool),
      strengthLoop repo path strength allVerified calls = (calls1, .ok (s, v)) →
      (∀ e ∈ pairs path, ∃ x, repo.GetConnectionStrength e.1 e.2 = .ok x) ∧
      s = strength * ((pairs path).map (strengthOf repo)).prod ∧
      (v = true ↔ allVerified = true ∧ ∀ e ∈ pairs path, 1 / 2 < strengthOf repo e) := by
  induction path with
  | nil =>
    intro strength allVerified calls calls1 s v h
    simp [strengthLoop] at h
    simp [pairs, h.2.1.symm, h.2.2.symm]
  | cons a t ih =>
    cases t with
    | nil =>
      intro strength allVerified calls calls1 s v h
      simp [strengthLoop] at h
      simp [pairs, h.2.1.symm, h.2.2.symm]
    | cons b rest =>
      intro strength allVerified calls calls1 s v h
      rw [strengthLoop] at h
      cases hab : repo.GetConnectionStrength a b with
      | error e => rw [hab] at h; simp at h
      | ok x =>
        rw [hab] at h
        have hs : strengthOf repo (a, b) = x := by simp [strengthOf, hab]
        obtain ⟨h1, h2, h3⟩ := ih _ _ _ _ _ _ h
        rw [pairs_cons_cons]
        refine ⟨?_, ?_, ?_⟩
        · intro e he
          rcases List.mem_cons.1 he with rfl | he
          · exact ⟨x, hab⟩
          · exact h1 e he
        · rw [h2, List.map_cons, List.prod_cons, hs, mul_assoc]
        · rw [h3]
          by_cases hx : x ≤ 1 / 2
          · simp only [hx, if_true, List.mem_cons, forall_eq_or_imp, hs]
            constructor
            · rintro ⟨h, _⟩; cases h
            · rintro ⟨_, h, _⟩; exact absurd hx (not_le.2 h)
          · simp only [hx, if_false, List.mem_cons, forall_eq_or_imp, hs]
            constructor
            · rintro ⟨h, h4⟩; exact ⟨h, not_le.1 hx, h4⟩
            · rintro ⟨h, _, h4⟩; exact ⟨h, h4⟩

theorem strengthLoop_log (repo : GraphRepository) (path : List String) :
    ∀ (strength : ℚ) (allVerified : Bool) (calls : List Call), Clean repo calls →
      (∀ e, (strengthLoop repo path strength allVerified calls).2 = .error e →
        Stopped repo (strengthLoop repo path strength allVerified calls).1) ∧
      (∀ x, (strengthLoop repo path strength allVerified calls).2 = .ok x →
        Clean repo (strengthLoop repo path strength allVerified calls).1) := by
  induction path with
  | nil =>
    intro strength allVerified calls hc
    simp [strengthLoop, hc]
  | cons a t ih =>
    cases t with
    | nil =>
      intro strength allVerified calls hc
      simp [strengthLoop, hc]
    | cons b rest =>
      intro strength allVerified calls hc
      rw [strengthLoop]
      cases hab : repo.GetConnectionStrength a b with
      | error e =>
        simp only [reduceCtorEq, false_implies, implies_true, and_true]
        intro _ _
        exact ⟨calls, Call.strength a b, rfl, hc, by simp [GraphRepository.fails, hab]⟩
      | ok x =>
        exact ih _ _ _ (clean_snoc hc (by simp [GraphRepository.fails, hab]))

theorem connect_path (repo : GraphRepository) (fromID toID : String) (calls : List Call)
    (full : List String) (hc : hasCycle full = false) (p : ConnectionPath)
    (h : (connect repo fromID toID calls full).path = some p) :
    p.Path = full ∧ Assembled repo p := by
  have hnd := (hasCycle_eq_false full).1 hc
  unfold connect calculatePathStrength at h
  by_cases hlen : full.length < 2
  · simp only [hlen, if_true] at h
    simp only [Option.some.injEq] at h
    subst h
    refine ⟨rfl, hnd, rfl, ?_⟩
    have hp : pairs full = [] := by
      match full, hlen with
      | [], _ => rfl
      | [_], _ => rfl
      | _ :: _ :: _, h => simp at h; omega
    simp [hp]
  · simp only [hlen, if_false] at h
    cases hl : strengthLoop repo full 1 true calls with
    | mk calls1 res =>
      cases res with
      | error e => simp [hl] at h
      | ok sv =>
        obtain ⟨s, v⟩ := sv
        simp only [hl, Option.some.injEq] at h
        subst h
        obtain ⟨h1, h2, h3⟩ := strengthLoop_ok repo full _ _ _ _ _ _ hl
        exact ⟨rfl, hnd, rfl, h1, by simpa using h2, by simpa using h3⟩

theorem connect_log (repo : GraphRepository) (fromID toID : String) (calls : List Call)
    (full : List String) (hc : Clean repo calls) :
    LogOK repo (connect repo fromID toID calls full) := by
  unfold connect calculatePathStrength
  by_cases hlen : full.length < 2
  · simp only [hlen, if_true]
    exact Or.inl ⟨rfl, hc⟩
  · simp only [hlen, if_false]
    have hl := strengthLoop_log repo full 1 true calls hc
    cases hres : strengthLoop repo full 1 true calls with
    | mk calls1 res =>
      rw [hres] at hl
      cases res with
      | error e => exact Or.inr ⟨rfl, rfl, hl.1 e rfl⟩
      | ok sv =>
        obtain ⟨s, v⟩ := sv
        exact Or.inl ⟨rfl, hl.2 _ rfl⟩

theorem record_calls (st : BFSState) (d : Dir) (n : String) (p : Slice) :
    (st.record d n p).calls = st.calls := by
  cases d <;> rfl

theorem record_opp (st : BFSState) (d : Dir) (n : String) (p : Slice) :
    (st.record d n p).opp d = st.opp d := by
  cases d <;> rfl

theorem record_own (st : BFSState) (d : Dir) (n : String) (p : Slice) :
    (st.record d n p).own d = (n, p) :: st.own d := by
  cases d <;> rfl

theorem withHeap_opp (st : BFSState) (h : Heap) (d : Dir) :
    BFSState.opp { st with heap := h } d = st.opp d := by
  cases d <;> rfl

theorem withHeap_own (st : BFSState) (h : Heap) (d : Dir) :
    BFSState.own { st with heap := h } d = st.own d := by
  cases d <;> rfl

theorem splice_len (g : Nat → Nat → Nat) (h : Heap) (d : Dir) (sp op : Slice) :
    ((match d with
      | .forward => append g h sp (reverse ((h.read op).drop 1))
      | .backward => append g h op (reverse ((h.read sp).drop 1))).1.read
      (match d with
      | .forward => append g h sp (reverse ((h.read op).drop 1))
      | .backward => append g h op (reverse ((h.read sp).drop 1))).2).length
      = spliceLen d sp.len op.len := by
  cases d <;> simp [length_read, append_len, length_reverse, spliceLen]

theorem expandNeighbors_spec (repo : GraphRepository) (g : Nat → Nat → Nat)
    (fromID toID : String) (d : Dir) (state : PathState) (nbrs : List String) :
    ∀ (st : BFSState) (q : List PathState),
      (∀ st1 q1, expandNeighbors repo g fromID toID d state nbrs st q = .next st1 q1 →
        st1.calls = st.calls ∧ st1.opp d = st.opp d ∧
        (∀ e ∈ st1.own d, e ∈ st.own d ∨ (e.1 ∈ nbrs ∧ e.2.len = state.Path.len + 1)) ∧
        (∀ s ∈ q1, s ∈ q ∨ (s.FamilyID ∈ nbrs ∧ s.Path.len = state.Path.len + 1))) ∧
      (∀ r, expandNeighbors repo g fromID toID d state nbrs st q = .ret r →
        ∃ n ∈ nbrs, ∃ oppPath, (n, oppPath) ∈ st.opp d ∧ ∃ full, hasCycle full = false ∧
          full.length = spliceLen d state.Path.len oppPath.len ∧
          r = connect repo fromID toID st.calls full) := by
  induction nbrs with
  | nil =>
    intro st q
    constructor
    · intro st1 q1 h
      simp only [expandNeighbors, Step.next.injEq] at h
      obtain ⟨rfl, rfl⟩ := h
      exact ⟨rfl, rfl, fun e he => Or.inl he, fun s hs => Or.inl hs⟩
    · intro r h
      simp [expandNeighbors] at h
  | cons neighbor rest ih =>
    intro st q
    have weaken : ∀ (st0 : BFSState) (q0 : List PathState),
        st0.calls = st.calls → st0.opp d = st.opp d →
        (∀ e ∈ st0.own d, e ∈ st.own d ∨
          (e.1 ∈ neighbor :: rest ∧ e.2.len = state.Path.len + 1)) →
        (∀ s ∈ q0, s ∈ q ∨ (s.FamilyID ∈ neighbor :: rest ∧ s.Path.len = state.Path.len + 1)) →
        (∀ st1 q1, expandNeighbors repo g fromID toID d state rest st0 q0 = .next st1 q1 →
          st1.calls = st.calls ∧ st1.opp d = st.opp d ∧
          (∀ e ∈ st1.own d, e ∈ st.own d ∨
            (e.1 ∈ neighbor :: rest ∧ e.2.len = state.Path.len + 1)) ∧
          (∀ s ∈ q1, s ∈ q ∨
            (s.FamilyID ∈ neighbor :: rest ∧ s.Path.len = state.Path.len + 1))) ∧
        (∀ r, expandNeighbors repo g fromID toID d state rest st0 q0 = .ret r →
          ∃ n ∈ neighbor :: rest, ∃ oppPath, (n, oppPath) ∈ st.opp d ∧ ∃ full,
            hasCycle full = false ∧
            full.length = spliceLen d state.Path.len oppPath.len ∧
            r = connect repo fromID toID st.calls full) := by
      intro st0 q0 hcalls hopp hown hq
      obtain ⟨ihn, ihr⟩ := ih st0 q0
      constructor
      · intro st1 q1 h
        obtain ⟨h1, h2, h3, h4⟩ := ihn st1 q1 h
        refine ⟨h1.trans hcalls, h2.trans hopp, ?_, ?_⟩
        · intro e he
          rcases h3 e he with h | ⟨h, hl⟩
          · exact hown e h
          · exact Or.inr ⟨List.mem_cons_of_mem _ h, hl⟩
        · intro s hs
          rcases h4 s hs with h | ⟨h, hl⟩
          · exact hq s h
          · exact Or.inr ⟨List.mem_cons_of_mem _ h, hl⟩
      · intro r h
        obtain ⟨n, hn, oppPath, hmem, full, hc, hlen, hr⟩ := ihr r h
        exact ⟨n, List.mem_cons_of_mem _ hn, oppPath, hopp ▸ hmem, full, hc, hlen,
          hcalls ▸ hr⟩
    rw [expandNeighbors]
    cases hopp : (st.opp d).lookup neighbor with
    | some oppPath =>
      simp only
      split
      · exact weaken _ q rfl (withHeap_opp st _ d)
          (fun e he => Or.inl (by rwa [withHeap_own] at he)) (fun s hs => Or.inl hs)
      · rename_i hcyc
        constructor
        · intro st1 q1 h; cases h
        · intro r h
          simp only [Step.ret.injEq] at h
          refine ⟨neighbor, List.mem_cons_self _ _, oppPath, mem_of_lookup _ _ _ hopp, _,
            by simpa using hcyc, splice_len g st.heap d state.Path oppPath, h.symm⟩
    | none =>
      simp only
      split
      · exact weaken st q rfl rfl (fun e he => Or.inl he) (fun s hs => Or.inl hs)
      · cases hown : (st.own d).lookup neighbor with
        | some _ =>
          exact weaken st q rfl rfl (fun e he => Or.inl he) (fun s hs => Or.inl hs)
        | none =>
          simp only
          refine weaken _ _ (record_calls _ d _ _) ?_ ?_ ?_
          · rw [record_opp]; exact withHeap_opp st _ d
          · intro e he
            rw [record_own] at he
            rcases List.mem_cons.1 he with rfl | he
            · exact Or.inr ⟨List.mem_cons_self _ _, append_len _ _ _ _⟩
            · exact Or.inl (by rwa [withHeap_own] at he)
          · intro s hs
            rcases List.mem_append.1 hs with hs | hs
            · exact Or.inl hs
            · rw [List.mem_singleton.1 hs]
              exact Or.inr ⟨List.mem_cons_self _ _, append_len _ _ _ _⟩

theorem expandFrontier_eq (repo : GraphRepository) (g : Nat → Nat → Nat)
    (fromID toID : String) (d : Dir) (queue : List PathState) (st : BFSState) :
    expandFrontier repo g fromID toID d queue st
      = expandQueue repo g fromID toID d queue st [] := by
  cases queue with
  | nil => simp [expandFrontier, expandQueue]
  | cons s t => simp [expandFrontier]

theorem expandQueue_spec (repo : GraphRepository) (g : Nat → Nat → Nat)
    (fromID toID : String) (d : Dir) (queue : List PathState) :
    ∀ (st : BFSState) (q : List PathState),
      (∀ st1 q1, expandQueue repo g fromID toID d queue st q = .next st1 q1 →
        st1.calls = st.calls ++ queue.map (fun s => Call.neighbors s.FamilyID) ∧
        (∀ s ∈ queue, ∃ nbrs, repo.GetNeighbors s.FamilyID = .ok nbrs) ∧
        st1.opp d = st.opp d ∧
        (∀ e ∈ st1.own d, e ∈ st.own d ∨ ∃ s ∈ queue, ∃ nbrs,
          repo.GetNeighbors s.FamilyID = .ok nbrs ∧ e.1 ∈ nbrs ∧
          e.2.len = s.Path.len + 1) ∧
        (∀ x ∈ q1, x ∈ q ∨ ∃ s ∈ queue, ∃ nbrs,
          repo.GetNeighbors s.FamilyID = .ok nbrs ∧ x.FamilyID ∈ nbrs ∧
          x.Path.len = s.Path.len + 1)) ∧
      (∀ r, expandQueue repo g fromID toID d queue st q = .ret r →
        (∃ cs, ∃ s ∈ queue, ∃ e, Clean repo cs ∧ repo.GetNeighbors s.FamilyID = .error e ∧
          r = ⟨st.calls ++ cs ++ [Call.neighbors s.FamilyID], none,
            some (Err.neighborsFailed s.FamilyID e)⟩) ∨
        (∃ cs, ∃ s ∈ queue, ∃ nbrs, Clean repo cs ∧
          repo.GetNeighbors s.FamilyID = .ok nbrs ∧
          ∃ n ∈ nbrs, ∃ oppPath, (n, oppPath) ∈ st.opp d ∧ ∃ full, hasCycle full = false ∧
            full.length = spliceLen d s.Path.len oppPath.len ∧
            r = connect repo fromID toID (st.calls ++ cs) full)) := by
  induction queue with
  | nil =>
    intro st q
    constructor
    · intro st1 q1 h
      simp only [expandQueue, Step.next.injEq] at h
      obtain ⟨rfl, rfl⟩ := h
      simp
    · intro r h
      simp [expandQueue] at h
  | cons state rest ih =>
    intro st q
    rw [expandQueue]
    cases hn : repo.GetNeighbors state.FamilyID with
    | error e =>
      constructor
      · intro st1 q1 h; cases h
      · intro r h
        simp only [Step.ret.injEq] at h
        refine Or.inl ⟨[], state, List.mem_cons_self _ _, e, ?_, hn, ?_⟩
        · intro c hc; cases hc
        · simp [← h]
    | ok nbrs =>
      simp only
      have hok : repo.fails (Call.neighbors state.FamilyID) = false := by
        simp [GraphRepository.fails, hn]
      obtain ⟨hnext, hret⟩ := expandNeighbors_spec repo g fromID toID d state nbrs
        { st with calls := st.calls ++ [Call.neighbors state.FamilyID] } q
      have hopp0 : BFSState.opp
          { st with calls := st.calls ++ [Call.neighbors state.FamilyID] } d = st.opp d := by
        cases d <;> rfl
      have hown0 : BFSState.own
          { st with calls := st.calls ++ [Call.neighbors state.FamilyID] } d = st.own d := by
        cases d <;> rfl
      cases hexp : expandNeighbors repo g fromID toID d state nbrs
          { st with calls := st.calls ++ [Call.neighbors state.FamilyID] } q with
      | ret r0 =>
        simp only
        constructor
        · intro st1 q1 h; cases h
        · intro r h
          simp only [Step.ret.injEq] at h
          subst h
          obtain ⟨n, hnm, oppPath, hmem, full, hc, hlen, hr⟩ := hret r0 hexp
          refine Or.inr ⟨[Call.neighbors state.FamilyID], state, List.mem_cons_self _ _, nbrs,
            ?_, hn, n, hnm, oppPath, hopp0 ▸ hmem, full, hc, hlen, hr⟩
          intro c hc
          rw [List.mem_singleton.1 hc]; exact hok
      | next st2 q2 =>
        simp only
        obtain ⟨h1, h2, h3, h4⟩ := hnext st2 q2 hexp
        obtain ⟨ihn, ihr⟩ := ih st2 q2
        constructor
        · intro st1 q1 h
          obtain ⟨k1, k2, k3, k4, k5⟩ := ihn st1 q1 h
          refine ⟨?_, ?_, ?_, ?_, ?_⟩
          · rw [k1, h1]; simp
          · intro s hs
            rcases List.mem_cons.1 hs with rfl | hs
            · exact ⟨nbrs, hn⟩
            · exact k2 s hs
          · rw [k3, h2, hopp0]
          · intro e he
            rcases k4 e he with h | ⟨s, hs, nb, hnb, hm, hl⟩
            · rcases h3 e h with h | ⟨hm, hl⟩
              · exact Or.inl (hown0 ▸ h)
              · exact Or.inr ⟨state, List.mem_cons_self _ _, nbrs, hn, hm, hl⟩
            · exact Or.inr ⟨s, List.mem_cons_of_mem _ hs, nb, hnb, hm, hl⟩
          · intro x hx
            rcases k5 x hx with h | ⟨s, hs, nb, hnb, hm, hl⟩
            · rcases h4 x h with h | ⟨hm, hl⟩
              · exact Or.inl h
              · exact Or.inr ⟨state, List.mem_cons_self _ _, nbrs, hn, hm, hl⟩
            · exact Or.inr ⟨s, List.mem_cons_of_mem _ hs, nb, hnb, hm, hl⟩
        · intro r h
          rcases ihr r h with ⟨cs, s, hs, e, hcl, hne, hr⟩ |
              ⟨cs, s, hs, nb, hcl, hnb, n, hnm, oppPath, hmem, full, hc, hlen, hr⟩
          · refine Or.inl ⟨Call.neighbors state.FamilyID :: cs, s, List.mem_cons_of_mem _ hs,
              e, ?_, hne, ?_⟩
            · intro c hc
              rcases List.mem_cons.1 hc with rfl | hc
              · exact hok
              · exact hcl c hc
            · rw [hr, h1]; simp
          · refine Or.inr ⟨Call.neighbors state.FamilyID :: cs, s, List.mem_cons_of_mem _ hs,
              nb, ?_, hnb, n, hnm, oppPath, ?_, full, hc, hlen, ?_⟩
            · intro c hc
              rcases List.mem_cons.1 hc with rfl | hc
              · exact hok
              · exact hcl c hc
            · rw [← hopp0, ← h2]; exact hmem
            · rw [hr, h1]; simp

theorem spliceLen_mono (d : Dir) {a b a1 b1 : Nat} (ha : a ≤ a1) (hb : b ≤ b1) :
    spliceLen d a b ≤ spliceLen d a1 b1 := by
  cases d <;> simp only [spliceLen] <;> omega

theorem frontier_ret (repo : GraphRepository) (g : Nat → Nat → Nat)
    (fromID toID : String) (d : Dir) (queue : List PathState) (st : BFSState) (a b : Nat)
    (hclean : Clean repo st.calls) (hq : ∀ s ∈ queue, s.Path.len = a)
    (hopp : ∀ e ∈ st.opp d, e.2.len ≤ b) (r : FindResult)
    (h : expandFrontier repo g fromID toID d queue st = .ret r) :
    LogOK repo r ∧ ∀ p, r.path = some p → Assembled repo p ∧ p.Path.length ≤ spliceLen d a b := by
  rw [expandFrontier_eq] at h
  rcases (expandQueue_spec repo g fromID toID d queue st []).2 r h with
    ⟨cs, s, _, e, hcl, hne, hr⟩ |
    ⟨cs, s, hs, nb, hcl, _, n, _, oppPath, hmem, full, hc, hlen, hr⟩
  · subst hr
    refine ⟨Or.inr ⟨rfl, rfl, st.calls ++ cs, _, rfl, ?_, ?_⟩, ?_⟩
    · intro c hc
      rcases List.mem_append.1 hc with hc | hc
      · exact hclean c hc
      · exact hcl c hc
    · simp [GraphRepository.fails, hne]
    · intro p hp; cases hp
  · subst hr
    refine ⟨connect_log repo fromID toID _ full ?_, ?_⟩
    · intro c hc
      rcases List.mem_append.1 hc with hc | hc
      · exact hclean c hc
      · exact hcl c hc
    · intro p hp
      obtain ⟨hpath, hass⟩ := connect_path repo fromID toID _ full hc p hp
      refine ⟨hass, ?_⟩
      rw [hpath, hlen, hq s hs]
      exact spliceLen_mono d (le_refl _) (hopp _ hmem)

theorem frontier_next (repo : GraphRepository) (g : Nat → Nat → Nat)
    (fromID toID : String) (d : Dir) (queue : List PathState) (st : BFSState) (a : Nat)
    (hclean : Clean repo st.calls) (hq : ∀ s ∈ queue, s.Path.len = a)
    (hown : ∀ e ∈ st.own d, e.2.len ≤ a + 1) (st1 : BFSState) (q1 : List PathState)
    (h : expandFrontier repo g fromID toID d queue st = .next st1 q1) :
    Clean repo st1.calls ∧ st1.opp d = st.opp d ∧ (∀ e ∈ st1.own d, e.2.len ≤ a + 1) ∧
      ∀ s ∈ q1, s.Path.len = a + 1 := by
  rw [expandFrontier_eq] at h
  obtain ⟨h1, h2, h3, h4, h5⟩ := (expandQueue_spec repo g fromID toID d queue st []).1 st1 q1 h
  refine ⟨?_, h3, ?_, ?_⟩
  · rw [h1]
    intro c hc
    rcases List.mem_append.1 hc with hc | hc
    · exact hclean c hc
    · obtain ⟨s, hs, rfl⟩ := List.mem_map.1 hc
      obtain ⟨nb, hnb⟩ := h2 s hs
      simp [GraphRepository.fails, hnb]
  · intro e he
    rcases h4 e he with h | ⟨s, hs, _, _, _, hl⟩
    · exact hown e h
    · rw [hl, hq s hs]
  · intro x hx
    rcases h5 x hx with h | ⟨s, hs, _, _, _, hl⟩
    · cases h
    · rw [hl, hq s hs]

theorem searchRounds_spec (repo : GraphRepository) (g : Nat → Nat → Nat)
    (fromID toID : String) (rounds : Nat) :
    ∀ (k : Nat) (fq bq : List PathState) (st : BFSState),
      Clean repo st.calls → (∀ s ∈ fq, s.Path.len = k + 1) → (∀ s ∈ bq, s.Path.len = k + 1) →
      (∀ e ∈ st.forwardVisited, e.2.len ≤ k + 1) →
      (∀ e ∈ st.backwardVisited, e.2.len ≤ k + 1) →
      LogOK repo (searchRounds repo g fromID toID rounds fq bq st) ∧
      ∀ p, (searchRounds repo g fromID toID rounds fq bq st).path = some p →
        Assembled repo p ∧ p.Path.length ≤ 2 * (k + rounds) := by
  induction rounds with
  | zero =>
    intro k fq bq st hcl _ _ _ _
    simp only [searchRounds]
    exact ⟨Or.inl ⟨rfl, hcl⟩, fun p hp => by cases hp⟩
  | succ n ih =>
    intro k fq bq st hcl hfq hbq hfv hbv
    rw [searchRounds]
    split
    · cases hF : expandFrontier repo g fromID toID .forward fq st with
      | ret r =>
        simp only
        obtain ⟨h1, h2⟩ := frontier_ret repo g fromID toID .forward fq st (k + 1) (k + 1)
          hcl hfq hbv r hF
        refine ⟨h1, fun p hp => ⟨(h2 p hp).1, ?_⟩⟩
        have := (h2 p hp).2
        simp only [spliceLen, Nat.add_sub_cancel] at this
        omega
      | next st1 fq1 =>
        simp only
        obtain ⟨c1, o1, w1, q1⟩ := frontier_next repo g fromID toID .forward fq st (k + 1)
          hcl hfq (fun e he => Nat.le_succ_of_le (hfv e he)) st1 fq1 hF
        have hbv1 : ∀ e ∈ st1.backwardVisited, e.2.len ≤ k + 1 := by
          intro e he
          have : e ∈ st1.opp .forward := he
          rw [o1] at this
          exact hbv e this
        cases hB : expandFrontier repo g fromID toID .backward bq st1 with
        | ret r =>
          simp only
          obtain ⟨h1, h2⟩ := frontier_ret repo g fromID toID .backward bq st1 (k + 1)
            (k + 1 + 1) c1 hbq w1 r hB
          refine ⟨h1, fun p hp => ⟨(h2 p hp).1, ?_⟩⟩
          have := (h2 p hp).2
          simp only [spliceLen, Nat.add_sub_cancel] at this
          omega
        | next st2 bq1 =>
          simp only
          obtain ⟨c2, o2, w2, q2⟩ := frontier_next repo g fromID toID .backward bq st1 (k + 1)
            c1 hbq (fun e he => Nat.le_succ_of_le (hbv1 e he)) st2 bq1 hB
          have hfv2 : ∀ e ∈ st2.forwardVisited, e.2.len ≤ k + 1 + 1 := by
            intro e he
            have : e ∈ st2.opp .backward := he
            rw [o2] at this
            exact w1 e this
          obtain ⟨h1, h2⟩ := ih (k + 1) fq1 bq1 st2 c2 q1 q2 hfv2 w2
          refine ⟨h1, fun p hp => ⟨(h2 p hp).1, ?_⟩⟩
          have := (h2 p hp).2
          omega
    · exact ⟨Or.inl ⟨rfl, hcl⟩, fun p hp => by cases hp⟩

theorem assembled_single (repo : GraphRepository) (a b x : String) :
    Assembled repo ⟨a, b, [x], 0, 1, [], true⟩ := by
  refine ⟨by simp, by simp, ?_, ?_, ?_⟩ <;> simp [pairs]

theorem FindPath_spec (repo : GraphRepository) (g : Nat → Nat → Nat)
    (fromID toID : String) (maxDepth : Int) :
    LogOK repo (FindPath repo g fromID toID maxDepth) ∧
    ∀ p, (FindPath repo g fromID toID maxDepth).path = some p →
      Assembled repo p ∧
      (fromID = toID ∨ p.Path.length ≤ 2 * (maxDepth + 1).toNat) := by
  unfold FindPath
  by_cases hft : fromID = toID
  · simp only [hft, if_true]
    refine ⟨Or.inl ⟨rfl, fun c hc => by cases hc⟩, ?_⟩
    intro p hp
    simp only [Option.some.injEq] at hp
    subst hp
    exact ⟨assembled_single repo _ _ _, Or.inl trivial⟩
  · simp only [hft, if_false]
    have h := searchRounds_spec repo g fromID toID (maxDepth + 1).toNat 0
      (initialState fromID toID).1 (initialState fromID toID).2.1
      (initialState fromID toID).2.2 (fun c hc => by cases hc)
      (by simp [initialState, alloc]) (by simp [initialState, alloc])
      (by simp [initialState, alloc]) (by simp [initialState, alloc])
    refine ⟨h.1, fun p hp => ⟨(h.2 p hp).1, Or.inr ?_⟩⟩
    have := (h.2 p hp).2
    omega

theorem route_symm (repo : GraphRepository) {a b : String} (h : Route repo a b) :
    Route repo b a := by
  have hs : Symmetric (Linked repo) := fun x y hxy => Or.symm hxy
  exact Relation.ReflTransGen.symmetric hs h

theorem frontier_noroute (repo : GraphRepository) (g : Nat → Nat → Nat)
    (fromID toID : String) (d : Dir) (root oroot : String) (queue : List PathState)
    (st : BFSState) (hall : ∀ x, ∃ l, repo.GetNeighbors x = .ok l)
    (hsep : ¬ Route repo root oroot) (hq : ∀ s ∈ queue, Route repo root s.FamilyID)
    (hown : ∀ e ∈ st.own d, Route repo root e.1)
    (hopp : ∀ e ∈ st.opp d, Route repo oroot e.1) :
    ∃ st1 q1, expandFrontier repo g fromID toID d queue st = .next st1 q1 ∧
      st1.opp d = st.opp d ∧ (∀ e ∈ st1.own d, Route repo root e.1) ∧
      ∀ s ∈ q1, Route repo root s.FamilyID := by
  rw [expandFrontier_eq]
  obtain ⟨hnext, hret⟩ := expandQueue_spec repo g fromID toID d queue st []
  cases hE : expandQueue repo g fromID toID d queue st [] with
  | ret r =>
    exfalso
    rcases hret r hE with ⟨_, s, _, e, _, hne, _⟩ |
      ⟨_, s, hs, nb, _, hnb, n, hn, oppPath, hmem, _⟩
    · obtain ⟨l, hl⟩ := hall s.FamilyID
      rw [hl] at hne; cases hne
    · apply hsep
      have h1 : Route repo root n :=
        Relation.ReflTransGen.tail (hq s hs) (Or.inl ⟨nb, hnb, hn⟩)
      exact Relation.ReflTransGen.trans h1 (route_symm repo (hopp _ hmem))
  | next st1 q1 =>
    obtain ⟨_, _, h3, h4, h5⟩ := hnext st1 q1 hE
    refine ⟨st1, q1, rfl, h3, ?_, ?_⟩
    · intro e he
      rcases h4 e he with h | ⟨s, hs, nb, hnb, hm, _⟩
      · exact hown e h
      · exact Relation.ReflTransGen.tail (hq s hs) (Or.inl ⟨nb, hnb, hm⟩)
    · intro x hx
      rcases h5 x hx with h | ⟨s, hs, nb, hnb, hm, _⟩
      · cases h
      · exact Relation.ReflTransGen.tail (hq s hs) (Or.inl ⟨nb, hnb, hm⟩)

theorem searchRounds_noroute (repo : GraphRepository) (g : Nat → Nat → Nat)
    (fromID toID : String) (hall : ∀ x, ∃ l, repo.GetNeighbors x = .ok l)
    (hsep : ¬ Route repo fromID toID) (rounds : Nat) :
    ∀ (fq bq : List PathState) (st : BFSState),
      (∀ s ∈ fq, Route repo fromID s.FamilyID) → (∀ s ∈ bq, Route repo toID s.FamilyID) →
      (∀ e ∈ st.forwardVisited, Route repo fromID e.1) →
      (∀ e ∈ st.backwardVisited, Route repo toID e.1) →
      (searchRounds repo g fromID toID rounds fq bq st).path = none ∧
      (searchRounds repo g fromID toID rounds fq bq st).err = none := by
  induction rounds with
  | zero => intro fq bq st _ _ _ _; simp [searchRounds]
  | succ n ih =>
    intro fq bq st hfq hbq hfv hbv
    rw [searchRounds]
    split
    · obtain ⟨st1, fq1, hF, o1, w1, q1⟩ := frontier_noroute repo g fromID toID .forward
        fromID toID fq st hall hsep hfq hfv hbv
      rw [hF]
      simp only
      have hbv1 : ∀ e ∈ st1.backwardVisited, Route repo toID e.1 := by
        intro e he
        have : e ∈ st1.opp .forward := he
        rw [o1] at this
        exact hbv e this
      obtain ⟨st2, bq1, hB, o2, w2, q2⟩ := frontier_noroute repo g fromID toID .backward
        toID fromID bq st1 hall (fun h => hsep (route_symm repo h)) hbq hbv1 w1
      rw [hB]
      simp only
      have hfv2 : ∀ e ∈ st2.forwardVisited, Route repo fromID e.1 := by
        intro e he
        have : e ∈ st2.opp .backward := he
        rw [o2] at this
        exact w1 e this
      exact ih fq1 bq1 st2 q1 q2 hfv2 w2
    · simp

theorem exclNeighbors_ret (repo : GraphRepository) (g : Nat → Nat → Nat)
    (fromID toID : String) (excl : List String) (state : PathState) (nbrs : List String) :
    ∀ (st : ExclState) (q : List PathState) (r : FindResult),
      exclNeighbors repo g fromID toID excl state nbrs st q = .ret r →
      ∃ calls full, hasCycle full = false ∧ r = connect repo fromID toID calls full := by
  induction nbrs with
  | nil => intro st q r h; simp [exclNeighbors] at h
  | cons neighbor rest ih =>
    intro st q r h
    rw [exclNeighbors] at h
    split at h
    · simp only at h
      split at h
      · exact ih _ _ _ h
      · rename_i hcyc
        split at h
        · exact ih _ _ _ h
        · simp only [ExclStep.ret.injEq] at h
          exact ⟨_, _, by simpa using hcyc, h.symm⟩
    · split at h
      · simp only at h
        split at h
        · exact ih _ _ _ h
        · exact ih _ _ _ h
      · exact ih _ _ _ h

theorem exclusionLoop_path (repo : GraphRepository) (g : Nat → Nat → Nat)
    (fromID toID : String) (maxDepth : Int) (excl : List String) (fuel : Nat) :
    ∀ (queue : List PathState) (st : ExclState) (r : FindResult),
      exclusionLoop repo g fromID toID maxDepth excl fuel queue st = some r →
      ∀ p, r.path = some p → Assembled repo p := by
  induction fuel with
  | zero =>
    intro queue st r h p hp
    cases queue with
    | nil =>
      simp only [exclusionLoop, Option.some.injEq] at h
      subst h; cases hp
    | cons s t => simp [exclusionLoop] at h
  | succ n ih =>
    intro queue st r h p hp
    cases queue with
    | nil =>
      simp only [exclusionLoop, Option.some.injEq] at h
      subst h; cases hp
    | cons state t =>
      rw [exclusionLoop] at h
      split at h
      · cases hn : repo.GetNeighbors state.FamilyID with
        | error e =>
          rw [hn] at h
          simp only [Option.some.injEq] at h
          subst h; cases hp
        | ok nbrs =>
          rw [hn] at h
          simp only at h
          cases hx : exclNeighbors repo g fromID toID excl state nbrs
              { st with calls := st.calls ++ [Call.neighbors state.FamilyID] } t with
          | ret r0 =>
            rw [hx] at h
            simp only [Option.some.injEq] at h
            subst h
            obtain ⟨calls, full, hc, hr⟩ := exclNeighbors_ret repo g fromID toID excl state
              nbrs _ _ _ hx
            rw [hr] at hp
            exact (connect_path repo fromID toID calls full hc p hp).2
          | next st1 q1 =>
            rw [hx] at h
            exact ih _ _ _ h p hp
      · simp only [Option.some.injEq] at h
        subst h; cases hp

theorem findPathWithExclusions_path (repo : GraphRepository) (g : Nat → Nat → Nat)
    (fuel : Nat) (fromID toID : String) (maxDepth : Int) (excl : List String)
    (r : FindResult)
    (h : findPathWithExclusions repo g fuel fromID toID maxDepth excl = some r) :
    ∀ p, r.path = some p → Assembled repo p := by
  unfold findPathWithExclusions at h
  split at h
  · simp only [Option.some.injEq] at h
    subst h
    intro p hp
    simp only [Option.some.injEq] at hp
    subst hp
    exact assembled_single repo _ _ _
  · exact exclusionLoop_path repo g fromID toID maxDepth excl fuel _ _ r h

theorem multiLoop_paths (repo : GraphRepository) (g : Nat → Nat → Nat) (fuel : Nat)
    (fromID toID : String) (maxDepth maxPaths : Int) (attempts : Nat) :
    ∀ (paths : List ConnectionPath) (found : List String) (calls : List Call)
      (res : MultiResult), (∀ p ∈ paths, Assembled repo p) →
      multiLoop repo g fuel fromID toID maxDepth maxPaths attempts paths found calls
        = some res →
      ∀ p ∈ res.paths, Assembled repo p := by
  induction attempts with
  | zero =>
    intro paths found calls res hp h
    simp only [multiLoop, Option.some.injEq] at h
    subst h; exact hp
  | succ n ih =>
    intro paths found calls res hp h
    rw [multiLoop] at h
    split at h
    · cases hf : findPathWithExclusions repo g fuel fromID toID maxDepth found with
      | none => rw [hf] at h; cases h
      | some r =>
        rw [hf] at h
        simp only at h
        have hr := findPathWithExclusions_path repo g fuel fromID toID maxDepth found r hf
        cases he : r.err with
        | some e =>
          rw [he] at h
          simp only [Option.some.injEq] at h
          subst h
          intro p hp; cases hp
        | none =>
          rw [he] at h
          simp only at h
          cases hpath : r.path with
          | none =>
            rw [hpath] at h
            exact ih _ _ _ _ hp h
          | some path =>
            rw [hpath] at h
            simp only at h
            split at h
            · refine ih _ _ _ _ ?_ h
              intro p hpm
              rcases List.mem_append.1 hpm with hpm | hpm
              · exact hp p hpm
              · rw [List.mem_singleton.1 hpm]; exact hr path hpath
            · exact ih _ _ _ _ hp h
    · simp only [Option.some.injEq] at h
      subst h; exact hp

theorem FindMultiplePaths_assembled (repo : GraphRepository) (g : Nat → Nat → Nat)
    (fuel : Nat) (fromID toID : String) (maxDepth maxPaths : Int) (res : MultiResult)
    (h : FindMultiplePaths repo g fuel fromID toID maxDepth maxPaths = some res) :
    ∀ p ∈ res.paths, Assembled repo p :=
  multiLoop_paths repo g fuel fromID toID maxDepth maxPaths _ [] [] [] res
    (fun p hp => by cases hp) h

theorem stopped_last {repo : GraphRepository} {cs pre post : List Call} {c : Call}
    (hs : Stopped repo cs) (hcs : cs = pre ++ c :: post) (hf : repo.fails c = true) :
    post = [] := by
  obtain ⟨pre1, c1, h1, hclean, _⟩ := hs
  rcases List.eq_nil_or_concat post with hp | ⟨post1, last, hp⟩
  · exact hp
  · exfalso
    rw [hcs, hp, List.concat_eq_append] at h1
    have h2 : (pre ++ c :: post1) ++ [last] = pre1 ++ [c1] := by simpa using h1
    have h3 := List.append_inj_left' h2 rfl
    have hc : c ∈ pre1 := by rw [← h3]; simp
    rw [hclean c hc] at hf
    cases hf

theorem logOK_failing {repo : GraphRepository} {r : FindResult} (h : LogOK repo r)
    (pre : List Call) (c : Call) (post : List Call) (hcs : r.calls = pre ++ c :: post)
    (hf : repo.fails c = true) : post = [] ∧ r.err.isSome = true ∧ r.path = none := by
  rcases h with ⟨_, hclean⟩ | ⟨hp, he, hs⟩
  · have : repo.fails c = false := hclean c (by rw [hcs]; simp)
    rw [this] at hf; cases hf
  · exact ⟨stopped_last hs hcs hf, he, hp⟩

theorem logOK_not_both {repo : GraphRepository} {r : FindResult} (h : LogOK repo r) :
    ¬ (r.path.isSome = true ∧ r.err.isSome = true) := by
  rintro ⟨h1, h2⟩
  rcases h with ⟨he, _⟩ | ⟨hp, _, _⟩
  · rw [he] at h2; cases h2
  · rw [hp] at h1; cases h1

theorem FindPath_first_lookup_fails (repo : GraphRepository) (g : Nat → Nat → Nat)
    (fromID toID : String) (maxDepth : Int) (hne : fromID ≠ toID) (h0 : 0 ≤ maxDepth)
    (hf : repo.fails (Call.neighbors fromID) = true) :
    (FindPath repo g fromID toID maxDepth).err.isSome = true ∧
      (FindPath repo g fromID toID maxDepth).path = none := by
  obtain ⟨n, hn⟩ : ∃ n, (maxDepth + 1).toNat = n + 1 :=
    ⟨maxDepth.toNat, by omega⟩
  cases hg : repo.GetNeighbors fromID with
  | ok l => simp [GraphRepository.fails, hg] at hf
  | error e =>
    simp [FindPath, hne, hn, initialState, searchRounds, expandFrontier, expandQueue, hg]

theorem graphAB_linked {x y : String} (h : Linked graphAB x y) :
    (x = "A" ∧ y = "B") ∨ (x = "B" ∧ y = "A") := by
  have key : ∀ u v : String, Adjacent graphAB u v →
      (u = "A" ∧ v = "B") ∨ (u = "B" ∧ v = "A") := by
    intro u v ⟨l, hl, hv⟩
    simp only [graphAB, edgeStore, Except.ok.injEq] at hl
    subst hl
    simp only [List.filterMap_cons, List.filterMap_nil] at hv
    by_cases h1 : "A" = u
    · simp [h1] at hv
      subst h1
      left; exact ⟨rfl, by simpa using hv⟩
    · by_cases h2 : "B" = u
      · subst h2
        simp at hv
        right; exact ⟨rfl, hv⟩
      · simp [h1, h2] at hv
  rcases h with h | h
  · exact key x y h
  · rcases key y x h with ⟨h1, h2⟩ | ⟨h1, h2⟩
    · exact Or.inr ⟨h2, h1⟩
    · exact Or.inl ⟨h2, h1⟩

theorem graphAB_no_route : ¬ Route graphAB "A" "C" := by
  have key : ∀ y, Route graphAB "A" y → y = "A" ∨ y = "B" := by
    intro y hy
    induction hy with
    | refl => exact Or.inl rfl
    | tail _ hl ih =>
      rcases graphAB_linked hl with ⟨_, h⟩ | ⟨_, h⟩
      · exact Or.inr h
      · exact Or.inl h
  intro h
  rcases key _ h with h | h <;> simp at h

theorem returnedBy_assembled (repo : GraphRepository) (g : Nat → Nat → Nat)
    (p : ConnectionPath) (h : ReturnedBy repo g p) : Assembled repo p := by
  rcases h with ⟨fromID, toID, maxDepth, h⟩ | ⟨fuel, fromID, toID, maxDepth, maxPaths, res, h, hp⟩
  · exact ((FindPath_spec repo g fromID toID maxDepth).2 p h).1
  · exact FindMultiplePaths_assembled repo g fuel fromID toID maxDepth maxPaths res h p hp

theorem returnedBy_pathAB : ReturnedBy graphABC gcGrowCap pathAB :=
  Or.inl ⟨"A", "C", 3, by with_unfolding_all decide⟩

theorem returnedBy_pathABC : ReturnedBy graphABC gcGrowCap pathABC :=
  Or.inr ⟨10, "A", "C", 2, 1, multiABC, by with_unfolding_all decide, by with_unfolding_all decide⟩

/-! ## Claims -/

/-- C1 (code defect).  On the graph with the single edge A–B, `FindPath("A", "B", 1)`
returns the path `["A"]`: the splice appends `reverse(backwardPath[1:])`, which drops
the target instead of keeping it, so the returned path starts at `from` but does not end
at `to`. -/
theorem FindPath_edge_omits_target :
    (FindPath graphAB gcGrowCap "A" "B" 1).path.map (fun p => p.Path) = some ["A"] ∧
    (FindPath graphAB gcGrowCap "A" "B" 1).path.map (fun p => p.Path.getLast?)
      = some (some "A") := by
  with_unfolding_all decide

/-- C2 (code defect).  On the scenario graph A–B (0.9), B–C (0.5), `FindPath("A", "C", 3)`
returns the path `["A", "B"]` with Degree 1, PathStrength 0.9 and Verified = true, after
the lookups `GetNeighbors(A)`, `GetNeighbors(C)`, `GetConnectionStrength(A, B)`; the
scenario expects `["A", "B", "C"]`, Degree 2, strength 0.45, Verified = false. -/
theorem FindPath_scenario_ABC :
    FindPath graphABC gcGrowCap "A" "C" 3
      = ⟨[Call.neighbors "A", Call.neighbors "C", Call.strength "A" "B"],
          some ⟨"A", "C", ["A", "B"], 1, 9 / 10, [], true⟩, none⟩ := by
  with_unfolding_all decide

/-- C3 (code defect).  On the symmetric graph with the single edge A–B the shortest
route from A to B has one edge (B is a neighbor of A, and A differs from B), yet
`FindPath("A", "B", 4)` returns a path of Degree 0. -/
theorem FindPath_degree_below_distance :
    (FindPath graphAB gcGrowCap "A" "B" 4).path.map (fun p => p.Degree) = some 0 ∧
    graphAB.GetNeighbors "A" = .ok ["B"] ∧ graphAB.GetNeighbors "B" = .ok ["A"] ∧
    "A" ≠ "B" :=
  ⟨by decide, rfl, rfl, by decide⟩

/-- C4 (code defect).  On the chain A–B–C–D–E, `FindPath("A", "E", 1)` returns the path
A, B, C, D of Degree 3, which is not at most `maxDepth = 1`: `maxDepth` bounds the rounds
of the loop, each of which extends both frontiers, and the length of the spliced path is
never compared with it. -/
theorem FindPath_degree_exceeds_maxDepth :
    ∃ p, (FindPath chainAE gcGrowCap "A" "E" 1).path = some p ∧ ¬ p.Degree ≤ 1 :=
  ⟨⟨"A", "E", ["A", "B", "C", "D"], 3, 1, [], true⟩, by with_unfolding_all decide,
    by with_unfolding_all decide⟩

/-- What the round structure does bound: for `maxDepth ≥ 0`, every path returned by
`FindPath` has Degree ≤ 2 · (maxDepth + 1), since the loop body runs for
`depth = 0, ..., maxDepth` and each run extends both frontiers by one edge. -/
theorem FindPath_degree_le (repo : GraphRepository) (growCap : Nat → Nat → Nat)
    (fromID toID : String) (maxDepth : Int) (h0 : 0 ≤ maxDepth) (p : ConnectionPath)
    (hp : (FindPath repo growCap fromID toID maxDepth).path = some p) :
    p.Degree ≤ 2 * (maxDepth + 1) := by
  obtain ⟨hass, hlen⟩ := (FindPath_spec repo growCap fromID toID maxDepth).2 p hp
  obtain ⟨_, hdeg, _⟩ := hass
  rcases hlen with heq | hlen
  · simp only [FindPath, heq, if_true, Option.some.injEq] at hp
    subst hp
    simp only
    omega
  · rw [hdeg]
    omega

/-- The bound of the round structure on the chain A–B–C–D–E with `maxDepth = 1`. -/
theorem FindPath_degree_le_witness :
    (0 : Int) ≤ 1 ∧
    (FindPath chainAE gcGrowCap "A" "E" 1).path
      = some ⟨"A", "E", ["A", "B", "C", "D"], 3, 1, [], true⟩ ∧
    (3 : Int) ≤ 2 * (1 + 1) :=
  ⟨by with_unfolding_all decide, by with_unfolding_all decide,
    FindPath_degree_le chainAE gcGrowCap "A" "E" 1 (by with_unfolding_all decide)
      ⟨"A", "E", ["A", "B", "C", "D"], 3, 1, [], true⟩ (by with_unfolding_all decide)⟩

/-- C5.  Every path returned by `FindPath` or by `FindMultiplePaths`, for any graph and
any arguments, has pairwise distinct node IDs (`hasCycle` is false) and a Degree equal to
`len(Path) - 1`. -/
theorem returned_path_invariant (repo : GraphRepository) (growCap : Nat → Nat → Nat)
    (p : ConnectionPath) (h : ReturnedBy repo growCap p) :
    hasCycle p.Path = false ∧ p.Path.Nodup ∧ p.Degree = (p.Path.length : Int) - 1 := by
  obtain ⟨hnd, hdeg, _⟩ := returnedBy_assembled repo growCap p h
  exact ⟨(hasCycle_eq_false _).2 hnd, hnd, hdeg⟩

/-- Witness for C5: the paths returned on the scenario graph by `FindPath` and by
`FindMultiplePaths`. -/
theorem returned_path_invariant_witness :
    (ReturnedBy graphABC gcGrowCap pathAB ∧ hasCycle pathAB.Path = false ∧
      pathAB.Path.Nodup ∧ pathAB.Degree = (pathAB.Path.length : Int) - 1) ∧
    (ReturnedBy graphABC gcGrowCap pathABC ∧ hasCycle pathABC.Path = false ∧
      pathABC.Path.Nodup ∧ pathABC.Degree = (pathABC.Path.length : Int) - 1) :=
  ⟨⟨returnedBy_pathAB, returned_path_invariant graphABC gcGrowCap pathAB returnedBy_pathAB⟩,
    ⟨returnedBy_pathABC,
      returned_path_invariant graphABC gcGrowCap pathABC returnedBy_pathABC⟩⟩

/-- C6.  For every path returned by `FindPath` or `FindMultiplePaths`, the strength
lookup of every consecutive node pair succeeded and PathStrength is the product of the
looked-up strengths over all consecutive pairs (also when multiplied from the left, starting
at 1, as the loop does); for a single-node path it is 1. -/
theorem returned_path_strength (repo : GraphRepository) (growCap : Nat → Nat → Nat)
    (p : ConnectionPath) (h : ReturnedBy repo growCap p) :
    (∀ e ∈ pairs p.Path, ∃ s, repo.GetConnectionStrength e.1 e.2 = .ok s) ∧
    p.PathStrength = ((pairs p.Path).map (strengthOf repo)).prod ∧
    p.PathStrength = ((pairs p.Path).map (strengthOf repo)).foldl (fun x y => x * y) 1 ∧
    (p.Path.length = 1 → p.PathStrength = 1) := by
  obtain ⟨_, _, hok, hprod, _⟩ := returnedBy_assembled repo growCap p h
  refine ⟨hok, hprod, ?_, ?_⟩
  · rw [hprod, List.prod_eq_foldl]
  intro h1
  rw [hprod]
  match hp : p.Path, h1 with
  | [x], _ => simp [pairs]

/-- Witness for C6: on the scenario graph the strength of `["A", "B", "C"]` is
0.9 · 0.5 = 9/20. -/
theorem returned_path_strength_witness :
    ReturnedBy graphABC gcGrowCap pathABC ∧
    pathABC.PathStrength = ((pairs pathABC.Path).map (strengthOf graphABC)).prod ∧
    pathABC.PathStrength = 9 / 20 :=
  ⟨returnedBy_pathABC,
    (returned_path_strength graphABC gcGrowCap pathABC returnedBy_pathABC).2.1, by with_unfolding_all decide⟩

/-- C7.  For every path with at least two nodes returned by `FindPath` or
`FindMultiplePaths`, Verified is true if and only if every consecutive edge of the path
has a looked-up strength strictly greater than 0.5.  (The store interface the finder reads
has no verified flag, so the edges' own flags cannot play a part.) -/
theorem returned_path_verified (repo : GraphRepository) (growCap : Nat → Nat → Nat)
    (p : ConnectionPath) (h : ReturnedBy repo growCap p) (_h2 : 2 ≤ p.Path.length) :
    p.Verified = true ↔
      ∀ e ∈ pairs p.Path, ∃ s, repo.GetConnectionStrength e.1 e.2 = .ok s ∧ 1 / 2 < s := by
  obtain ⟨_, _, hok, _, hver⟩ := returnedBy_assembled repo growCap p h
  rw [hver]
  constructor
  · intro hall e he
    obtain ⟨s, hs⟩ := hok e he
    refine ⟨s, hs, ?_⟩
    have := hall e he
    simpa [strengthOf, hs] using this
  · intro hall e he
    obtain ⟨s, hs, hlt⟩ := hall e he
    simpa [strengthOf, hs] using hlt

/-- Witness for C7: on the scenario graph `["A", "B", "C"]` is unverified, its edge B–C
having strength exactly 0.5. -/
theorem returned_path_verified_witness :
    ReturnedBy graphABC gcGrowCap pathABC ∧ 2 ≤ pathABC.Path.length ∧
    pathABC.Verified = false ∧ graphABC.GetConnectionStrength "B" "C" = .ok (1 / 2) ∧
    (pathABC.Verified = true ↔ ∀ e ∈ pairs pathABC.Path,
      ∃ s, graphABC.GetConnectionStrength e.1 e.2 = .ok s ∧ 1 / 2 < s) :=
  ⟨returnedBy_pathABC, by decide, rfl, rfl,
    returned_path_verified graphABC gcGrowCap pathABC returnedBy_pathABC (by with_unfolding_all decide)⟩

/-- C8.  For every node `X`, every `maxDepth` and every graph store, failing or not,
`FindPath(X, X, maxDepth)` returns without error the path `[X]` with Degree 0,
PathStrength 1 and Verified = true, and its lookup log is empty. -/
theorem FindPath_self (repo : GraphRepository) (growCap : Nat → Nat → Nat) (X : String)
    (maxDepth : Int) :
    FindPath repo growCap X X maxDepth = ⟨[], some ⟨X, X, [X], 0, 1, [], true⟩, none⟩ := by
  simp [FindPath]

/-- C9.  On a graph whose every neighbor lookup succeeds and in which no route, in
either edge direction, joins `from` and `to`, `FindPath(from, to, maxDepth)` returns an
absent path and a nil error, for every `maxDepth`. -/
theorem FindPath_no_route (repo : GraphRepository) (growCap : Nat → Nat → Nat)
    (fromID toID : String) (maxDepth : Int)
    (hall : ∀ x, ∃ l, repo.GetNeighbors x = .ok l) (hno : ¬ Route repo fromID toID) :
    (FindPath repo growCap fromID toID maxDepth).path = none ∧
    (FindPath repo growCap fromID toID maxDepth).err = none := by
  have hne : fromID ≠ toID := fun h => hno (h ▸ Relation.ReflTransGen.refl)
  simp only [FindPath, hne, if_false]
  apply searchRounds_noroute repo growCap fromID toID hall hno
  · intro s hs
    simp only [initialState, List.mem_singleton] at hs
    subst hs; exact Relation.ReflTransGen.refl
  · intro s hs
    simp only [initialState, List.mem_singleton] at hs
    subst hs; exact Relation.ReflTransGen.refl
  · intro e he
    simp only [initialState, List.mem_singleton] at he
    subst he; exact Relation.ReflTransGen.refl
  · intro e he
    simp only [initialState, List.mem_singleton] at he
    subst he; exact Relation.ReflTransGen.refl

/-- Witness for C9: on the graph with the single edge A–B no route joins A and C. -/
theorem FindPath_no_route_witness :
    (∀ x, ∃ l, graphAB.GetNeighbors x = .ok l) ∧ ¬ Route graphAB "A" "C" ∧
    (FindPath graphAB gcGrowCap "A" "C" 3).path = none ∧
    (FindPath graphAB gcGrowCap "A" "C" 3).err = none :=
  ⟨fun _ => ⟨_, rfl⟩, graphAB_no_route,
    FindPath_no_route graphAB gcGrowCap "A" "C" 3 (fun _ => ⟨_, rfl⟩) graphAB_no_route⟩

/-- C10.  For `from ≠ to`: if a lookup in the log of `FindPath` failed, it is the last
lookup issued, and `FindPath` returns an error and no path; `FindPath` never returns both
a path and an error; and for `maxDepth ≥ 0` a failing `GetNeighbors(from)` makes
`FindPath` return an error and no path. -/
theorem FindPath_error_propagation (repo : GraphRepository) (growCap : Nat → Nat → Nat)
    (fromID toID : String) (maxDepth : Int) (hne : fromID ≠ toID) :
    (∀ pre c post, (FindPath repo growCap fromID toID maxDepth).calls = pre ++ c :: post →
      repo.fails c = true →
      post = [] ∧ (FindPath repo growCap fromID toID maxDepth).err.isSome = true ∧
        (FindPath repo growCap fromID toID maxDepth).path = none) ∧
    ¬ ((FindPath repo growCap fromID toID maxDepth).path.isSome = true ∧
        (FindPath repo growCap fromID toID maxDepth).err.isSome = true) ∧
    (0 ≤ maxDepth → repo.fails (Call.neighbors fromID) = true →
      (FindPath repo growCap fromID toID maxDepth).err.isSome = true ∧
        (FindPath repo growCap fromID toID maxDepth).path = none) := by
  have hlog := (FindPath_spec repo growCap fromID toID maxDepth).1
  exact ⟨fun pre c post hcs hf => logOK_failing hlog pre c post hcs hf,
    logOK_not_both hlog,
    fun h0 hf => FindPath_first_lookup_fails repo growCap fromID toID maxDepth hne h0 hf⟩

/-- Witness for C10: on a store whose lookups all fail, `FindPath("A", "B", 2)` stops at
its first lookup with an error and no path. -/
theorem FindPath_error_propagation_witness :
    "A" ≠ "B" ∧ (FindPath failingStore gcGrowCap "A" "B" 2).calls = [Call.neighbors "A"] ∧
    (FindPath failingStore gcGrowCap "A" "B" 2).err.isSome = true ∧
    (FindPath failingStore gcGrowCap "A" "B" 2).path = none :=
  ⟨by with_unfolding_all decide, by with_unfolding_all decide,
    (FindPath_error_propagation failingStore gcGrowCap "A" "B" 2 (by with_unfolding_all decide)).2.2
      (by with_unfolding_all decide) (by with_unfolding_all decide)⟩

/-! ## Multi-path search: lemmas and claims -/

theorem multiLoop_bounded_distinct (repo : GraphRepository) (g : Nat → Nat → Nat)
    (fuel : Nat) (fromID toID : String) (maxDepth maxPaths : Int) (attempts : Nat) :
    ∀ (paths : List ConnectionPath) (found : List String) (calls : List Call)
      (res : MultiResult), (∀ p ∈ paths, pathKey p.Path ∈ found) →
      (paths.map (fun p => pathKey p.Path)).Nodup →
      multiLoop repo g fuel fromID toID maxDepth maxPaths attempts paths found calls
        = some res →
      res.paths.length ≤ paths.length + attempts ∧
        (res.paths.map (fun p => pathKey p.Path)).Nodup := by
  induction attempts with
  | zero =>
    intro paths found calls res _ hnd h
    simp only [multiLoop, Option.some.injEq] at h
    subst h
    exact ⟨le_refl _, hnd⟩
  | succ n ih =>
    intro paths found calls res hfound hnd h
    rw [multiLoop] at h
    split at h
    · cases hf : findPathWithExclusions repo g fuel fromID toID maxDepth found with
      | none => rw [hf] at h; cases h
      | some r =>
        rw [hf] at h
        simp only at h
        cases he : r.err with
        | some e =>
          rw [he] at h
          simp only [Option.some.injEq] at h
          subst h
          exact ⟨Nat.zero_le _, List.nodup_nil⟩
        | none =>
          rw [he] at h
          simp only at h
          cases hpath : r.path with
          | none =>
            rw [hpath] at h
            obtain ⟨h1, h2⟩ := ih _ _ _ _ hfound hnd h
            exact ⟨by omega, h2⟩
          | some path =>
            rw [hpath] at h
            simp only at h
            split at h
            · rename_i hnew
              have hfound1 : ∀ p ∈ paths ++ [path],
                  pathKey p.Path ∈ pathKey path.Path :: found := by
                intro p hp
                rcases List.mem_append.1 hp with hp | hp
                · exact List.mem_cons_of_mem _ (hfound p hp)
                · rw [List.mem_singleton.1 hp]; exact List.mem_cons_self _ _
              have hnd1 : ((paths ++ [path]).map (fun p => pathKey p.Path)).Nodup := by
                rw [List.map_append, List.nodup_append]
                refine ⟨hnd, by simp, ?_⟩
                intro k hk1 hk2
                simp only [List.map_cons, List.map_nil, List.mem_singleton] at hk2
                obtain ⟨p, hp, rfl⟩ := List.mem_map.1 hk1
                exact hnew.1 (hk2 ▸ hfound p hp)
              obtain ⟨h1, h2⟩ := ih _ _ _ _ hfound1 hnd1 h
              refine ⟨?_, h2⟩
              simp only [List.length_append, List.length_singleton] at h1
              omega
            · obtain ⟨h1, h2⟩ := ih _ _ _ _ hfound hnd h
              exact ⟨by omega, h2⟩
    · simp only [Option.some.injEq] at h
      subst h
      exact ⟨Nat.le_add_right _ _, hnd⟩

/-- C11.  Whatever the graph and the arguments, `FindMultiplePaths` returns at most
`max(maxPaths, 0)` paths, and the node sequences of the returned paths are pairwise
different (so are their path keys). -/
theorem FindMultiplePaths_bounded_distinct (repo : GraphRepository)
    (growCap : Nat → Nat → Nat) (fuel : Nat) (fromID toID : String)
    (maxDepth maxPaths : Int) (res : MultiResult)
    (h : FindMultiplePaths repo growCap fuel fromID toID maxDepth maxPaths = some res) :
    (res.paths.length : Int) ≤ max maxPaths 0 ∧ (res.paths.map (fun p => p.Path)).Nodup ∧
      (res.paths.map (fun p => pathKey p.Path)).Nodup := by
  obtain ⟨h1, h2⟩ := multiLoop_bounded_distinct repo growCap fuel fromID toID maxDepth
    maxPaths _ [] [] [] res (fun p hp => by cases hp) List.nodup_nil h
  refine ⟨?_, ?_, h2⟩
  · simp only [List.length_nil, Nat.zero_add] at h1
    omega
  · have h3 : ((res.paths.map (fun p => p.Path)).map pathKey).Nodup := by
      simpa [List.map_map, Function.comp] using h2
    exact List.Nodup.of_map _ h3

/-! ## Slices that hold a path -/

theorem read_of_holds {h : Heap} {s : Slice} {l : List String} (hh : Holds h s l) :
    h.read s = l := by
  obtain ⟨hlen, t, ht⟩ := hh
  unfold Heap.read
  rw [ht, hlen]
  apply List.ext_getElem
  · simp
  · intro i h1 h2
    simp only [List.length_map, List.length_range] at h1
    simp [List.getD_eq_getElem?_getD, List.getElem?_append_left h1, List.getElem?_eq_getElem h1]

theorem cap_of_holds {h : Heap} {s : Slice} {l : List String} (hh : Holds h s l) :
    s.len ≤ h.cap s := by
  obtain ⟨hlen, t, ht⟩ := hh
  simp [Heap.cap, ht, hlen]

theorem array_set_ne (h : Heap) (i j : Nat) (a : List String) (hij : j ≠ i) :
    Heap.array (h.set i a) j = h.array j := by
  simp [Heap.array, List.getD_eq_getElem?_getD, List.getElem?_set_ne hij.symm]

theorem array_set_eq (h : Heap) (i : Nat) (a : List String) (hi : i < h.length) :
    Heap.array (h.set i a) i = a := by
  simp [Heap.array, List.getD_eq_getElem?_getD, List.getElem?_set_self, hi]

theorem array_append_lt (h : Heap) (a : List String) (j : Nat) (hj : j < h.length) :
    Heap.array (h ++ [a]) j = h.array j := by
  simp [Heap.array, List.getD_eq_getElem?_getD, List.getElem?_append_left hj]

theorem array_append_eq (h : Heap) (a : List String) :
    Heap.array (h ++ [a]) h.length = a := by
  simp [Heap.array, List.getD_eq_getElem?_getD]

theorem array_ge (h : Heap) (j : Nat) (hj : h.length ≤ j) : h.array j = [] := by
  simp [Heap.array, List.getD_eq_getElem?_getD, List.getElem?_eq_none hj]

theorem holds_arr_lt {h : Heap} {s : Slice} {l : List String} (hh : Holds h s l)
    (hl : l ≠ []) : s.arr < h.length := by
  by_contra hge
  obtain ⟨_, t, ht⟩ := hh
  rw [array_ge h _ (not_lt.1 hge)] at ht
  cases l with
  | nil => exact hl rfl
  | cons a r => simp at ht

/-- After `append(s, xs...)` the result holds the old elements followed by `xs`. -/
theorem append_holds (g : Nat → Nat → Nat) {h : Heap} {s : Slice} {l : List String}
    (xs : List String) (hh : Holds h s l) :
    Holds (append g h s xs).1 (append g h s xs).2 (l ++ xs) := by
  have hread := read_of_holds hh
  obtain ⟨hlen, t, ht⟩ := hh
  unfold append
  split
  · rename_i hcap
    refine ⟨by simp [hlen], ?_⟩
    simp only
    by_cases hx : xs = []
    · subst hx
      have : writeAt (h.array s.arr) s.len [] = h.array s.arr := by
        simp [writeAt]
      rw [this]
      by_cases hi : s.arr < h.length
      · rw [array_set_eq h _ _ hi]; exact ⟨t, by simp [ht]⟩
      · rw [array_ge _ _ (by simp; omega)]
        rw [array_ge h _ (not_lt.1 hi)] at ht
        have hl : l = [] := by
          cases l with
          | nil => rfl
          | cons a b => simp at ht
        exact ⟨[], by simp [hl]⟩
    · have hi : s.arr < h.length := by
        by_contra hge
        have h0 : h.cap s = 0 := by simp [Heap.cap, array_ge h _ (not_lt.1 hge)]
        have : 0 < xs.length := List.length_pos.2 hx
        omega
      rw [array_set_eq h _ _ hi]
      refine ⟨(h.array s.arr).drop (s.len + xs.length), ?_⟩
      simp [writeAt, ht, hlen]
  · refine ⟨by simp [hlen], ?_⟩
    simp only
    rw [array_append_eq, hread]
    exact ⟨_, rfl⟩

/-- The call `append(s, xs...)` leaves the elements held by slices over other arrays alone. -/
theorem append_keeps (g : Nat → Nat → Nat) (h : Heap) (s : Slice) (xs : List String)
    {t : Slice} {l : List String} (hne : t.arr ≠ s.arr) (hh : Holds h t l) :
    Holds (append g h s xs).1 t l := by
  obtain ⟨hlen, r, hr⟩ := hh
  unfold append
  split
  · exact ⟨hlen, r, by simp only; rw [array_set_ne _ _ _ _ hne]; exact hr⟩
  · simp only
    by_cases hj : t.arr < h.length
    · exact ⟨hlen, r, by rw [array_append_lt _ _ _ hj]; exact hr⟩
    · rw [array_ge h _ (not_lt.1 hj)] at hr
      have hl : l = [] := by
        cases l with
        | nil => rfl
        | cons a b => simp at hr
      subst hl
      exact ⟨hlen, _, (List.nil_append _).symm⟩

/-- The call `append(s, xs...)` keeps the first `len(s)` elements of the array of `s` itself. -/
theorem append_self (g : Nat → Nat → Nat) {h : Heap} {s : Slice} {l : List String}
    (xs : List String) (hh : Holds h s l) : Holds (append g h s xs).1 s l := by
  have h1 := append_holds g xs hh
  have hlen := hh.1
  by_cases hl : l = []
  · subst hl
    exact ⟨hlen, _, (List.nil_append _).symm⟩
  · have hlt := holds_arr_lt hh hl
    unfold append at h1 ⊢
    split
    · rename_i hcap
      simp only [hcap, if_true] at h1
      obtain ⟨_, r, hr⟩ := h1
      exact ⟨hlen, xs ++ r, by simp only at hr ⊢; rw [hr]; simp⟩
    · obtain ⟨_, r, hr⟩ := hh
      exact ⟨hlen, r, by simp only; rw [array_append_lt _ _ _ hlt]; exact hr⟩

theorem append_length_le (g : Nat → Nat → Nat) (h : Heap) (s : Slice) (xs : List String) :
    h.length ≤ (append g h s xs).1.length := by
  unfold append
  split <;> simp

theorem append_alloc (g : Nat → Nat → Nat) (h : Heap) (s : Slice) (xs : List String)
    (hcap : ¬ s.len + xs.length ≤ h.cap s) :
    ∃ a, (append g h s xs).1 = h ++ [a] ∧ (append g h s xs).2.arr = h.length := by
  unfold append
  rw [if_neg hcap]
  exact ⟨_, rfl, rfl⟩

theorem holds_extend {h : Heap} {t : Slice} {l : List String} (a : List String)
    (hh : Holds h t l) (hlt : t.arr < h.length) : Holds (h ++ [a]) t l := by
  obtain ⟨hlen, r, hr⟩ := hh
  exact ⟨hlen, r, by rw [array_append_lt _ _ _ hlt]; exact hr⟩

theorem hasCycle_pair {a b : String} (hab : a ≠ b) : hasCycle [a, b] = false := by
  rw [hasCycle_eq_false]; simp [hab]

theorem hasCycle_triple {a b c : String} (hab : a ≠ b) (hac : a ≠ c) (hbc : b ≠ c) :
    hasCycle [a, b, c] = false := by
  rw [hasCycle_eq_false]; simp [hab, hac, hbc]

theorem routes_expand_source (repo : GraphRepository) (g : Nat → Nat → Nat)
    (X Y : String) (excl : List String) (ms1 : List String) :
    ∀ (h : Heap) (calls : List Call) (v : List String) (q : List PathState)
      (msq : List String),
      h.array 0 = [X] → 0 < h.length → X ∈ v → ms1.Nodup →
      (∀ m ∈ ms1, m ≠ X ∧ m ≠ Y ∧ m ∉ v) → RouteQueue h X q msq →
      ∃ h1 v1 q1, exclNeighbors repo g X Y excl ⟨X, ⟨0, 1⟩, [X]⟩ ms1 ⟨h, calls, v⟩ q
          = .next ⟨h1, calls, v1⟩ q1 ∧ X ∈ v1 ∧ RouteQueue h1 X q1 (msq ++ ms1) := by
  induction ms1 with
  | nil =>
    intro h calls v q msq _ _ hv _ _ hq
    exact ⟨h, v, q, by simp [exclNeighbors], hv, by simpa using hq⟩
  | cons m rest ih =>
    intro h calls v q msq h0 hpos hv hnd hms hq
    obtain ⟨hmX, hmY, hmv⟩ := hms m (List.mem_cons_self _ _)
    have hsrc : Holds h ⟨0, 1⟩ [X] := ⟨rfl, [], by simp [h0]⟩
    have hcap : ¬ ((⟨0, 1⟩ : Slice).len + [m].length ≤ h.cap ⟨0, 1⟩) := by
      simp [Heap.cap, h0]
    obtain ⟨a, hheap, harr⟩ := append_alloc g h ⟨0, 1⟩ [m] hcap
    have hnew : Holds (append g h ⟨0, 1⟩ [m]).1 (append g h ⟨0, 1⟩ [m]).2 [X, m] :=
      append_holds g [m] hsrc
    have hcyc :
        hasCycle ((append g h ⟨0, 1⟩ [m]).1.read (append g h ⟨0, 1⟩ [m]).2) = false := by
      rw [read_of_holds hnew]; exact hasCycle_pair (Ne.symm hmX)
    have h0n : (append g h ⟨0, 1⟩ [m]).1.array 0 = [X] := by
      rw [hheap, array_append_lt _ _ _ hpos]; exact h0
    have hposn : 0 < (append g h ⟨0, 1⟩ [m]).1.length := by
      rw [hheap]; simp
    obtain ⟨hq1, hq2, hq3⟩ := hq
    have hqn : RouteQueue (append g h ⟨0, 1⟩ [m]).1 X
        (q ++ [⟨m, (append g h ⟨0, 1⟩ [m]).2, m :: [X]⟩]) (msq ++ [m]) := by
      refine ⟨?_, ?_, ?_⟩
      · apply List.rel_append
        · refine List.Forall₂.imp ?_ (List.forall₂_iff_zip.2 ⟨hq1.length_eq, ?_⟩)
            (R := fun st m0 => st ∈ q ∧ st.FamilyID = m0 ∧ Holds h st.Path [X, m0])
          · rintro st m0 ⟨hst, hf, hh⟩
            refine ⟨hf, ?_⟩
            rw [hheap]
            exact holds_extend a hh (hq3 st hst).2
          · intro st m0 hz
            have := (List.forall₂_iff_zip.1 hq1).2 hz
            exact ⟨(List.of_mem_zip hz).1, this⟩
        · exact List.Forall₂.cons ⟨rfl, hnew⟩ List.Forall₂.nil
      · rw [List.map_append, List.nodup_append]
        refine ⟨hq2, by simp, ?_⟩
        intro x hx1 hx2
        simp only [List.map_cons, List.map_nil, List.mem_singleton] at hx2
        obtain ⟨st, hst, rfl⟩ := List.mem_map.1 hx1
        have := (hq3 st hst).2
        rw [hx2, harr] at this
        exact lt_irrefl _ this
      · intro st hst
        rcases List.mem_append.1 hst with hst | hst
        · have := hq3 st hst
          rw [hheap]
          simp only [List.length_append, List.length_singleton]
          exact ⟨this.1, Nat.lt_succ_of_lt this.2⟩
        · rw [List.mem_singleton.1 hst, hheap]
          simp only [List.length_append, List.length_singleton]
          rw [harr]
          exact ⟨hpos, Nat.lt_succ_self _⟩
    obtain ⟨h1, v1, q1, hE, hv1, hr⟩ := ih (append g h ⟨0, 1⟩ [m]).1 calls (m :: v)
      (q ++ [⟨m, (append g h ⟨0, 1⟩ [m]).2, m :: [X]⟩]) (msq ++ [m]) h0n hposn
      (List.mem_cons_of_mem _ hv) (List.nodup_cons.1 hnd).2
      (by
        intro m1 hm1
        obtain ⟨a1, a2, a3⟩ := hms m1 (List.mem_cons_of_mem _ hm1)
        refine ⟨a1, a2, ?_⟩
        intro hbad
        rcases List.mem_cons.1 hbad with hbad | hbad
        · subst hbad
          exact (List.nodup_cons.1 hnd).1 hm1
        · exact a3 hbad) hqn
    refine ⟨h1, v1, q1, ?_, hv1, by simpa using hr⟩
    rw [exclNeighbors]
    simp only [hmY, if_false]
    have hvis : m ∉ [X] ∧ m ∉ v := ⟨by simpa using hmX, hmv⟩
    simp only [hvis, not_false_eq_true, and_self, if_true, hcyc, Bool.false_eq_true, if_false]
    exact hE

/-! ## Two-hop routes -/

theorem routes_expand_middle (repo : GraphRepository) (g : Nat → Nat → Nat)
    (X Y : String) (excl : List String) (state : PathState) (m : String)
    (hXY : X ≠ Y) (hmX : m ≠ X) (hmY : m ≠ Y) (l : List String) :
    ∀ (h : Heap) (calls : List Call) (v : List String) (q : List PathState),
      Holds h state.Path [X, m] → X ∈ v → (∀ z ∈ l, z = X ∨ z = Y) →
      ((pathKey [X, m, Y] ∈ excl ∨ Y ∉ l) →
        ∃ h1, exclNeighbors repo g X Y excl state l ⟨h, calls, v⟩ q
            = .next ⟨h1, calls, v⟩ q ∧ h.length ≤ h1.length ∧
          ∀ (t : Slice) (lt : List String), t.arr ≠ state.Path.arr → Holds h t lt →
            Holds h1 t lt) ∧
      (¬ (pathKey [X, m, Y] ∈ excl ∨ Y ∉ l) →
        exclNeighbors repo g X Y excl state l ⟨h, calls, v⟩ q
          = .ret (connect repo X Y calls [X, m, Y])) := by
  induction l with
  | nil =>
    intro h calls v q _ _ _
    constructor
    · intro _
      exact ⟨h, by simp [exclNeighbors], le_refl _, fun _ _ _ hh => hh⟩
    · intro hc
      exact absurd (Or.inr (List.not_mem_nil _)) hc
  | cons z rest ih =>
    intro h calls v q hh hv hl
    have hrest : ∀ z ∈ rest, z = X ∨ z = Y := fun z hz => hl z (List.mem_cons_of_mem _ hz)
    rcases hl z (List.mem_cons_self _ _) with hz | hz
    · subst hz
      have hstep : exclNeighbors repo g z Y excl state (z :: rest) ⟨h, calls, v⟩ q
          = exclNeighbors repo g z Y excl state rest ⟨h, calls, v⟩ q := by
        rw [exclNeighbors]
        simp [hXY, hv]
      rw [hstep]
      have hiff : (pathKey [z, m, Y] ∈ excl ∨ Y ∉ z :: rest) ↔
          (pathKey [z, m, Y] ∈ excl ∨ Y ∉ rest) := by
        simp [List.mem_cons, Ne.symm hXY]
      rw [hiff]
      exact ih h calls v q hh hv hrest
    · subst hz
      have hfull := append_holds g [z] hh
      have hread : (append g h state.Path [z]).1.read (append g h state.Path [z]).2
          = [X, m, z] := read_of_holds hfull
      have hcyc : hasCycle [X, m, z] = false := hasCycle_triple (Ne.symm hmX) hXY hmY
      by_cases hex : pathKey [X, m, z] ∈ excl
      · have hstep : exclNeighbors repo g X z excl state (z :: rest) ⟨h, calls, v⟩ q
            = exclNeighbors repo g X z excl state rest
                ⟨(append g h state.Path [z]).1, calls, v⟩ q := by
          rw [exclNeighbors]
          simp only [if_true, hread, hcyc, Bool.false_eq_true, if_false, hex]
        rw [hstep]
        obtain ⟨ih1, _⟩ := ih (append g h state.Path [z]).1 calls v q
          (append_self g [z] hh) hv hrest
        constructor
        · intro _
          obtain ⟨h1, hE, hlen, hkeep⟩ := ih1 (Or.inl hex)
          refine ⟨h1, hE, le_trans (append_length_le g h state.Path [z]) hlen, ?_⟩
          intro t lt hne ht
          exact hkeep t lt hne (append_keeps g h state.Path [z] hne ht)
        · intro hc
          exact absurd (Or.inl hex) hc
      · constructor
        · intro hc
          rcases hc with hc | hc
          · exact absurd hc hex
          · exact absurd (List.mem_cons_self _ _) hc
        · intro _
          rw [exclNeighbors]
          simp only [if_true, hread, hcyc, Bool.false_eq_true, if_false, hex]

theorem connect_route (repo : GraphRepository) (X Y m : String) (calls : List Call)
    (h1 : ∃ s, repo.GetConnectionStrength X m = .ok s)
    (h2 : ∃ s, repo.GetConnectionStrength m Y = .ok s) :
    (connect repo X Y calls [X, m, Y]).err = none ∧
      (connect repo X Y calls [X, m, Y]).path.map (fun p => p.Path) = some [X, m, Y] := by
  obtain ⟨s1, hs1⟩ := h1
  obtain ⟨s2, hs2⟩ := h2
  simp [connect, calculatePathStrength, strengthLoop, hs1, hs2]

theorem routes_queue_loop (repo : GraphRepository) (g : Nat → Nat → Nat)
    (X Y : String) (maxDepth : Int) (excl : List String) (hXY : X ≠ Y)
    (hdepth : 2 ≤ maxDepth) (msq : List String) :
    ∀ (q : List PathState) (fuel : Nat) (h : Heap) (calls : List Call) (v : List String),
      q.length ≤ fuel → RouteQueue h X q msq → X ∈ v →
      (∀ m ∈ msq, m ≠ X ∧ m ≠ Y ∧
        (∃ l, repo.GetNeighbors m = .ok l ∧ Y ∈ l ∧ ∀ z ∈ l, z = X ∨ z = Y) ∧
        (∃ s, repo.GetConnectionStrength X m = .ok s) ∧
        ∃ s, repo.GetConnectionStrength m Y = .ok s) →
      ∃ r, exclusionLoop repo g X Y maxDepth excl fuel q ⟨h, calls, v⟩ = some r ∧
        r.err = none ∧
        r.path.map (fun p => p.Path)
          = (msq.find? (fun m => decide (pathKey [X, m, Y] ∉ excl))).map
              (fun m => [X, m, Y]) := by
  induction msq with
  | nil =>
    intro q fuel h calls v _ hq _ _
    have hq0 : q = [] := by
      have := hq.1.length_eq
      simpa using this
    subst hq0
    exact ⟨⟨calls, none, none⟩, by simp [exclusionLoop], rfl, rfl⟩
  | cons m rest ih =>
    intro q fuel h calls v hfuel hq hv hms
    obtain ⟨hq1, hq2, hq3⟩ := hq
    cases q with
    | nil => simpa using hq1.length_eq
    | cons st q1 =>
      obtain ⟨⟨hfam, hhold⟩, hrest⟩ := List.forall₂_cons.1 hq1
      obtain ⟨hmX, hmY, ⟨l, hl, hYl, hlz⟩, hs1, hs2⟩ := hms m (List.mem_cons_self _ _)
      obtain ⟨f, rfl⟩ : ∃ f, fuel = f + 1 := by
        cases fuel with
        | zero => simp at hfuel
        | succ f => exact ⟨f, rfl⟩
      have hlen : ((st.Path.len : Int) ≤ maxDepth) := by
        rw [hhold.1]; simpa using hdepth
      rw [exclusionLoop]
      simp only [hlen, if_true, hfam, hl]
      obtain ⟨hnext, hret⟩ := routes_expand_middle repo g X Y excl st m hXY hmX hmY l h
        (calls ++ [Call.neighbors m]) v q1 hhold hv hlz
      by_cases hex : pathKey [X, m, Y] ∈ excl
      · obtain ⟨h1, hE, hlen1, hkeep⟩ := hnext (Or.inl hex)
        rw [hE]
        simp only
        have hq' : RouteQueue h1 X q1 rest := by
          refine ⟨?_, (List.nodup_cons.1 hq2).2, ?_⟩
          · refine List.Forall₂.imp ?_ (List.forall₂_iff_zip.2 ⟨hrest.length_eq, ?_⟩)
              (R := fun t m0 => t ∈ q1 ∧ t.FamilyID = m0 ∧ Holds h t.Path [X, m0])
            · rintro t m0 ⟨ht, hf, hh⟩
              refine ⟨hf, hkeep _ _ ?_ hh⟩
              intro hbad
              have hmem := List.mem_map_of_mem (fun st => st.Path.arr) ht
              simp only [hbad] at hmem
              exact (List.nodup_cons.1 hq2).1 hmem
            · intro t m0 hz
              exact ⟨(List.of_mem_zip hz).1, (List.forall₂_iff_zip.1 hrest).2 hz⟩
          · intro t ht
            have := hq3 t (List.mem_cons_of_mem _ ht)
            exact ⟨this.1, lt_of_lt_of_le this.2 hlen1⟩
        obtain ⟨r, hr, he, hp⟩ := ih q1 f h1 (calls ++ [Call.neighbors m]) v
          (by simpa using hfuel) hq' hv
          (fun m0 hm0 => hms m0 (List.mem_cons_of_mem _ hm0))
        refine ⟨r, hr, he, ?_⟩
        rw [hp, List.find?_cons]
        simp [hex]
      · have hE := hret (by
          intro hc
          rcases hc with hc | hc
          · exact hex hc
          · exact hc hYl)
        rw [hE]
        simp only
        obtain ⟨c1, c2⟩ := connect_route repo X Y m (calls ++ [Call.neighbors m]) hs1 hs2
        refine ⟨_, rfl, c1, ?_⟩
        rw [c2, List.find?_cons]
        simp [hex]

theorem routes_single_search (repo : GraphRepository) (g : Nat → Nat → Nat)
    (X Y : String) (ms : List String) (maxDepth : Int) (excl : List String) (fuel : Nat)
    (hroutes : TwoHopRoutes repo X Y ms) (hdepth : 2 ≤ maxDepth)
    (hfuel : ms.length + 1 ≤ fuel) :
    ∃ r, findPathWithExclusions repo g fuel X Y maxDepth excl = some r ∧ r.err = none ∧
      r.path.map (fun p => p.Path)
        = (ms.find? (fun m => decide (pathKey [X, m, Y] ∉ excl))).map
            (fun m => [X, m, Y]) := by
  obtain ⟨hXY, hnd, hXms, hYms, hnX, hnM, hsM⟩ := hroutes
  obtain ⟨f, rfl⟩ : ∃ f, fuel = f + 1 := by
    cases fuel with
    | zero => simp at hfuel
    | succ f => exact ⟨f, rfl⟩
  have h1 : ((1 : Nat) : Int) ≤ maxDepth := by omega
  obtain ⟨hp, v1, q1, hE, hv1, hq⟩ := routes_expand_source repo g X Y excl ms [[X]]
    ([] ++ [Call.neighbors X]) [X] [] [] rfl (by simp) (List.mem_singleton_self _) hnd
    (by
      intro m hm
      refine ⟨?_, ?_, ?_⟩
      · rintro rfl; exact hXms hm
      · rintro rfl; exact hYms hm
      · simp only [List.mem_singleton]
        rintro rfl; exact hXms hm)
    ⟨List.Forall₂.nil, List.nodup_nil, fun st hst => by cases hst⟩
  simp only [List.nil_append] at hq hE
  have hlenq : q1.length = ms.length := hq.1.length_eq
  obtain ⟨r, hr, he, hpath⟩ := routes_queue_loop repo g X Y maxDepth excl hXY hdepth ms q1 f
    hp [Call.neighbors X] v1 (by omega) hq hv1
    (by
      intro m hm
      refine ⟨?_, ?_, hnM m hm, (hsM m hm).1, (hsM m hm).2⟩
      · rintro rfl; exact hXms hm
      · rintro rfl; exact hYms hm)
  refine ⟨r, ?_, he, hpath⟩
  unfold findPathWithExclusions
  simp only [hXY, if_false, alloc, List.nil_append, List.length_nil]
  rw [exclusionLoop]
  simp only [h1, if_true, hnX, List.nil_append]
  rw [hE]
  exact hr

theorem pathKey_route_inj (X Y m m1 : String)
    (h : pathKey [X, m, Y] = pathKey [X, m1, Y]) : m = m1 := by
  simp only [pathKey, pathKeyFrom, reduceIte, Bool.false_eq_true] at h
  have hd := congrArg String.data h
  simp only [String.data_append, List.append_assoc] at hd
  have h1 := List.append_cancel_left (List.append_cancel_left (List.append_cancel_left hd))
  have h2 : m.data = m1.data := by
    have hlen := congrArg List.length h1
    simp only [List.length_append] at hlen
    exact List.append_inj_left h1 (by omega)
  exact String.ext h2

theorem routes_multiLoop (repo : GraphRepository) (g : Nat → Nat → Nat)
    (X Y : String) (ms : List String) (maxDepth maxPaths : Int) (fuel : Nat)
    (hroutes : TwoHopRoutes repo X Y ms) (hdepth : 2 ≤ maxDepth)
    (hfuel : ms.length + 1 ≤ fuel) (attempts : Nat) :
    ∀ (done rest : List String) (paths : List ConnectionPath) (found : List String)
      (calls : List Call),
      ms = done ++ rest → (∀ m ∈ ms, pathKey [X, m, Y] ∈ found ↔ m ∈ done) →
      paths.map (fun p => p.Path) = done.map (fun m => [X, m, Y]) →
      rest.length ≤ attempts → ((paths.length + rest.length : Nat) : Int) ≤ maxPaths →
      ∃ res, multiLoop repo g fuel X Y maxDepth maxPaths attempts paths found calls
          = some res ∧ res.err = none ∧
        res.paths.map (fun p => p.Path) = ms.map (fun m => [X, m, Y]) := by
  induction attempts with
  | zero =>
    intro done rest paths found calls hms _ hpaths hatt _
    have hrest : rest = [] := List.length_eq_zero.1 (Nat.le_zero.1 hatt)
    subst hrest
    refine ⟨⟨calls, paths, none⟩, by simp [multiLoop], rfl, ?_⟩
    simp only [hpaths, hms, List.append_nil]
  | succ n ih =>
    intro done rest paths found calls hms hfound hpaths hatt hmax
    rw [multiLoop]
    obtain ⟨r, hr, he, hp⟩ := routes_single_search repo g X Y ms maxDepth found fuel hroutes
      hdepth hfuel
    have hfind : ms.find? (fun m => decide (pathKey [X, m, Y] ∉ found)) = rest.head? := by
      rw [hms, List.find?_append]
      have hnone : done.find? (fun m => decide (pathKey [X, m, Y] ∉ found)) = none := by
        rw [List.find?_eq_none]
        intro m hm
        have : pathKey [X, m, Y] ∈ found :=
          (hfound m (by rw [hms]; exact List.mem_append_left _ hm)).2 hm
        simpa using this
      rw [hnone]
      cases rest with
      | nil => rfl
      | cons m rest1 =>
        have hm : m ∉ done := by
          intro hbad
          have hnd := hroutes.2.1
          rw [hms] at hnd
          exact (List.nodup_append.1 hnd).2.2 hbad (List.mem_cons_self _ _)
        have : pathKey [X, m, Y] ∉ found := by
          intro hbad
          exact hm ((hfound m (by rw [hms]; simp)).1 hbad)
        simp [List.find?_cons, this]
    rw [hfind] at hp
    cases rest with
    | nil =>
      simp only [List.head?_nil, Option.map_none', Option.map_eq_none'] at hp
      split
      · rw [hr]
        simp only [he, hp]
        exact ih done [] paths found (calls ++ r.calls) hms hfound hpaths (Nat.zero_le _) hmax
      · refine ⟨⟨calls, paths, none⟩, rfl, rfl, ?_⟩
        simp only [hpaths, hms, List.append_nil]
    | cons m rest1 =>
      simp only [List.head?_cons, Option.map_some'] at hp
      obtain ⟨path, hpath, hpp⟩ : ∃ path, r.path = some path ∧ path.Path = [X, m, Y] := by
        cases hrp : r.path with
        | none => rw [hrp] at hp; simp at hp
        | some path =>
          rw [hrp] at hp
          exact ⟨path, rfl, by simpa using hp⟩
      have hlt : ((paths.length : Nat) : Int) < maxPaths := by
        simp only [List.length_cons] at hmax
        omega
      have hmms : m ∈ ms := by rw [hms]; simp
      have hmdone : m ∉ done := by
        intro hbad
        have hnd := hroutes.2.1
        rw [hms] at hnd
        exact (List.nodup_append.1 hnd).2.2 hbad (List.mem_cons_self _ _)
      have hnew : pathKey path.Path ∉ found := by
        rw [hpp]
        intro hbad
        exact hmdone ((hfound m hmms).1 hbad)
      have hcyc : hasCycle path.Path = false := by
        rw [hpp]
        obtain ⟨hXY, _, hXms, hYms, _⟩ := hroutes
        exact hasCycle_triple (fun h => hXms (h ▸ hmms)) hXY (fun h => hYms (h ▸ hmms))
      simp only [hlt, if_true, hr, he, hpath, hnew, hcyc, not_false_eq_true, and_self]
      apply ih (done ++ [m]) rest1 (paths ++ [path]) (pathKey path.Path :: found)
        (calls ++ r.calls)
      · rw [hms]; simp
      · intro m0 hm0
        rw [hpp, List.mem_cons, List.mem_append, List.mem_singleton]
        constructor
        · rintro (h | h)
          · exact Or.inr (pathKey_route_inj X Y m0 m h)
          · exact Or.inl ((hfound m0 hm0).1 h)
        · rintro (h | h)
          · exact Or.inr ((hfound m0 hm0).2 h)
          · exact Or.inl (by rw [h])
      · simp [hpaths, hpp]
      · simpa using hatt
      · have hl : (paths ++ [path]).length + rest1.length
            = paths.length + (m :: rest1).length := by
          simp only [List.length_append, List.length_cons, List.length_nil]
          omega
        rw [hl]
        exact hmax

/-- C12.  On a graph that joins `X` and `Y` by exactly the 2-hop routes through the
pairwise different nodes `ms` (any number `k` of them), `FindMultiplePaths(X, Y, maxDepth,
maxPaths)` with `maxDepth ≥ 2` and `maxPaths ≥ k` returns, without error, exactly the `k`
paths `[X, m, Y]`, each once, in the order of the neighbors of `X`; `k + 1` iterations of
the queue loop suffice for every single search. -/
theorem FindMultiplePaths_two_hop_routes (repo : GraphRepository)
    (growCap : Nat → Nat → Nat) (X Y : String) (ms : List String)
    (maxDepth maxPaths : Int) (fuel : Nat) (hroutes : TwoHopRoutes repo X Y ms)
    (hdepth : 2 ≤ maxDepth) (hpaths : (ms.length : Int) ≤ maxPaths)
    (hfuel : ms.length + 1 ≤ fuel) :
    ∃ res, FindMultiplePaths repo growCap fuel X Y maxDepth maxPaths = some res ∧
      res.err = none ∧ res.paths.map (fun p => p.Path) = ms.map (fun m => [X, m, Y]) ∧
      (res.paths.map (fun p => p.Path)).Nodup ∧ res.paths.length = ms.length := by
  obtain ⟨res, hres, herr, hp⟩ := routes_multiLoop repo growCap X Y ms maxDepth maxPaths
    fuel hroutes hdepth hfuel maxPaths.toNat [] ms [] [] [] rfl
    (by intro m _; simp) rfl (by omega) (by simpa using hpaths)
  refine ⟨res, hres, herr, hp, ?_, ?_⟩
  · rw [hp]
    refine List.Nodup.map ?_ hroutes.2.1
    intro a b hab
    simpa using hab
  · have := congrArg List.length hp
    simpa using this

theorem diamond_two_hop : TwoHopRoutes diamond "X" "Y" ["M1", "M2"] := by
  refine ⟨by decide, by decide, by decide, by decide, rfl, ?_, ?_⟩
  · intro m hm
    simp only [List.mem_cons, List.mem_singleton, List.not_mem_nil, or_false] at hm
    rcases hm with rfl | rfl
    · exact ⟨["X", "Y"], rfl, by decide, by decide⟩
    · exact ⟨["X", "Y"], rfl, by decide, by decide⟩
  · intro m hm
    simp only [List.mem_cons, List.mem_singleton, List.not_mem_nil, or_false] at hm
    rcases hm with rfl | rfl
    · exact ⟨⟨_, rfl⟩, ⟨_, rfl⟩⟩
    · exact ⟨⟨_, rfl⟩, ⟨_, rfl⟩⟩

/-- Witness for C12: `k = 2` routes X–M1–Y and X–M2–Y, `maxDepth = 4`, `maxPaths = 5`. -/
theorem FindMultiplePaths_two_hop_routes_witness :
    TwoHopRoutes diamond "X" "Y" ["M1", "M2"] ∧
    ∃ res, FindMultiplePaths diamond gcGrowCap 3 "X" "Y" 4 5 = some res ∧
      res.err = none ∧
      res.paths.map (fun p => p.Path) = [["X", "M1", "Y"], ["X", "M2", "Y"]] ∧
      (res.paths.map (fun p => p.Path)).Nodup ∧ res.paths.length = 2 :=
  ⟨diamond_two_hop,
    FindMultiplePaths_two_hop_routes diamond gcGrowCap "X" "Y" ["M1", "M2"] 4 5 3
      diamond_two_hop (by decide) (by decide) (by decide)⟩

theorem multiDiamond_eq :
    FindMultiplePaths diamond gcGrowCap 3 "X" "Y" 4 2 = some multiDiamond := by
  with_unfolding_all decide

/-- Witness for C11: the two paths returned on the graph with the routes X–M1–Y and
X–M2–Y, for `maxPaths = 2`. -/
theorem FindMultiplePaths_bounded_distinct_witness :
    FindMultiplePaths diamond gcGrowCap 3 "X" "Y" 4 2 = some multiDiamond ∧
    (multiDiamond.paths.length : Int) ≤ max 2 0 ∧
    (multiDiamond.paths.map (fun p => p.Path)).Nodup ∧
    (multiDiamond.paths.map (fun p => pathKey p.Path)).Nodup :=
  ⟨multiDiamond_eq,
    FindMultiplePaths_bounded_distinct diamond gcGrowCap 3 "X" "Y" 4 2 multiDiamond
      multiDiamond_eq⟩

/-- C13 (code defect).  The key of a path is its IDs joined by `->`, so the different
node sequences `["a->b"]` and `["a", "b"]` have the same key; and on a graph with the two
routes X–`a->b`–Y and X–a–b–Y, `FindMultiplePaths("X", "Y", 4, 5)` returns the first route
only, the second being taken for the one already found. -/
theorem pathKey_collision :
    pathKey ["a->b"] = pathKey ["a", "b"] ∧ ["a->b"] ≠ ["a", "b"] ∧
    pathKey ["X", "a->b", "Y"] = pathKey ["X", "a", "b", "Y"] ∧
    (FindMultiplePaths graphArrow gcGrowCap 10 "X" "Y" 4 5).map
        (fun r => (r.paths.map (fun p => p.Path), r.err))
      = some ([["X", "a->b", "Y"]], none) := by
  with_unfolding_all decide

/-! ## Path cache -/

theorem lookup_mapSet_self {β : Type} (m : List (String × β)) (k : String) (v : β) :
    (mapSet m k v).lookup k = some v := by
  simp [mapSet, List.lookup]

theorem lookup_filter_ne {β : Type} (m : List (String × β)) (k k1 : String) (hne : k1 ≠ k) :
    (m.filter (fun e => e.1 ≠ k)).lookup k1 = m.lookup k1 := by
  induction m with
  | nil => rfl
  | cons e t ih =>
    obtain ⟨a, b⟩ := e
    by_cases hak : a = k
    · subst hak
      have h1 : (k1 == a) = false := by simpa using hne
      rw [List.filter_cons_of_neg (by simp), ih]
      simp [List.lookup, h1]
    · by_cases hk1 : k1 = a
      · subst hk1
        rw [List.filter_cons_of_pos (by simpa using hak)]
        simp [List.lookup]
      · have h1 : (k1 == a) = false := by simpa using hk1
        rw [List.filter_cons_of_pos (by simpa using hak)]
        simp only [List.lookup, h1]
        exact ih

theorem lookup_mapSet_ne {β : Type} (m : List (String × β)) (k k1 : String) (v : β)
    (hne : k1 ≠ k) : (mapSet m k v).lookup k1 = m.lookup k1 := by
  have h1 : (k1 == k) = false := by simpa using hne
  simp only [mapSet, List.lookup, h1]
  exact lookup_filter_ne m k k1 hne

/-- C14.  Cache round trip: after `Set(from, to, p)` executed at time `t0`, a
`Get(from, to)` executed at a time `t` with `t0 ≤ t ≤ t0 + ttl` returns exactly `p` with
`found = true` (and leaves the cache as it is). -/
theorem PathCache_round_trip (pc : PathCache) (fromID toID : String)
    (p : Option ConnectionPath) (t0 t : Int) (_h0 : t0 ≤ t) (h1 : t ≤ t0 + pc.ttl) :
    (pc.Set t0 fromID toID p).Get t fromID toID = (pc.Set t0 fromID toID p, p, true) := by
  unfold PathCache.Get
  have hl : (pc.Set t0 fromID toID p).cache.lookup (cacheKey fromID toID)
      = some ⟨p, t0, t0 + pc.ttl⟩ := by
    simp only [PathCache.Set]
    exact lookup_mapSet_self _ _ _
  rw [hl]
  simp only
  rw [if_neg (not_lt.2 h1)]

/-- Witness for C14: a cache with TTL 10, set at time 100 and read at time 110. -/
theorem PathCache_round_trip_witness :
    (100 : Int) ≤ 110 ∧ (110 : Int) ≤ 100 + (NewPathCache 10).ttl ∧
    (((NewPathCache 10).Set 100 "A" "C" (some pathAB)).Get 110 "A" "C").2
      = (some pathAB, true) :=
  ⟨by decide, by decide,
    congrArg Prod.snd
      (PathCache_round_trip (NewPathCache 10) "A" "C" (some pathAB) 100 110 (by decide)
        (by decide))⟩

theorem PathCache_Get_absent (pc : PathCache) (now : Int) (fromID toID : String)
    (hl : pc.cache.lookup (cacheKey fromID toID) = none) :
    pc.Get now fromID toID = (pc, none, false) := by
  unfold PathCache.Get
  rw [hl]

theorem PathCache_Get_expired (pc : PathCache) (now : Int) (fromID toID : String)
    (e : CachedPath) (hl : pc.cache.lookup (cacheKey fromID toID) = some e)
    (hexp : e.ExpiresAt < now) : pc.Get now fromID toID = (pc, none, false) := by
  unfold PathCache.Get
  rw [hl]
  exact if_pos hexp

theorem PathCache_Get_live (pc : PathCache) (now : Int) (fromID toID : String)
    (e : CachedPath) (hl : pc.cache.lookup (cacheKey fromID toID) = some e)
    (hexp : now ≤ e.ExpiresAt) : pc.Get now fromID toID = (pc, e.Path, true) := by
  unfold PathCache.Get
  rw [hl]
  exact if_neg (not_lt.2 hexp)

/-- C15.  `Get(from, to)` executed at time `now` returns `found = true` exactly when the
map has an entry for the key and `now ≤ expiresAt`, and then returns the path of that
entry; otherwise it returns `(nil, false)`; in every case the cache is left as it was, so
an expired entry is still in the map after the miss. -/
theorem PathCache_Get_spec (pc : PathCache) (now : Int) (fromID toID : String) :
    ((pc.Get now fromID toID).2.2 = true ↔
      ∃ e, pc.cache.lookup (cacheKey fromID toID) = some e ∧ now ≤ e.ExpiresAt) ∧
    (∀ e, pc.cache.lookup (cacheKey fromID toID) = some e → now ≤ e.ExpiresAt →
      (pc.Get now fromID toID).2 = (e.Path, true)) ∧
    ((pc.Get now fromID toID).2.2 = false → (pc.Get now fromID toID).2.1 = none) ∧
    (pc.Get now fromID toID).1 = pc ∧
    (∀ e, pc.cache.lookup (cacheKey fromID toID) = some e → e.ExpiresAt < now →
      (pc.Get now fromID toID).2 = (none, false) ∧
      (pc.Get now fromID toID).1.cache.lookup (cacheKey fromID toID) = some e) := by
  cases hl : pc.cache.lookup (cacheKey fromID toID) with
  | none =>
    rw [PathCache_Get_absent pc now fromID toID hl]
    simp
  | some e =>
    by_cases hexp : e.ExpiresAt < now
    · rw [PathCache_Get_expired pc now fromID toID e hl hexp]
      refine ⟨⟨?_, ?_⟩, ?_, ?_, rfl, ?_⟩
      · intro h; cases h
      · rintro ⟨e1, he1, hle⟩
        rw [← Option.some.inj he1] at hle
        omega
      · intro e1 he1 hle
        rw [← Option.some.inj he1] at hle
        omega
      · intro _; rfl
      · intro e1 he1 _
        exact ⟨rfl, hl.trans he1⟩
    · rw [PathCache_Get_live pc now fromID toID e hl (not_lt.1 hexp)]
      refine ⟨⟨?_, ?_⟩, ?_, ?_, rfl, ?_⟩
      · intro _; exact ⟨e, rfl, not_lt.1 hexp⟩
      · intro _; rfl
      · intro e1 he1 _
        rw [← Option.some.inj he1]
      · intro h; cases h
      · intro e1 he1 hlt
        rw [← Option.some.inj he1] at hlt
        omega

/-- Witness for C15: an entry stored at time 100 with TTL 10 is missed at time 111 and is
still in the map afterwards. -/
theorem PathCache_Get_spec_witness :
    (((NewPathCache 10).Set 100 "A" "C" (some pathAB)).Get 111 "A" "C").2 = (none, false) ∧
    (((NewPathCache 10).Set 100 "A" "C" (some pathAB)).Get 111 "A" "C").1.cache.lookup
        (cacheKey "A" "C") = some ⟨some pathAB, 100, 110⟩ :=
  (PathCache_Get_spec ((NewPathCache 10).Set 100 "A" "C" (some pathAB)) 111 "A" "C").2.2.2.2
    ⟨some pathAB, 100, 110⟩ (by with_unfolding_all decide) (by decide)

/-- C16 (code defect).  The map key is the string `from + "->" + to`, so different ID
pairs can share an entry: `Set("x->y", "z", p)` turns the miss of `Get("x", "y->z")` into
a hit that returns `p`; the pairs `("", "->")` and `("->", "")`, which are `(A, B)` and
`(B, A)` with `A ≠ B`, share their key as well. -/
theorem PathCache_key_collision :
    ("x->y", "z") ≠ ("x", "y->z") ∧
    ((NewPathCache 10).Get 5 "x" "y->z").2 = (none, false) ∧
    (((NewPathCache 10).Set 0 "x->y" "z" (some pathAB)).Get 5 "x" "y->z").2
      = (some pathAB, true) ∧
    ("", "->") ≠ ("->", "") ∧ cacheKey "" "->" = cacheKey "->" "" := by
  with_unfolding_all decide

theorem PathCache_Get_fst (pc : PathCache) (now : Int) (fromID toID : String) :
    (pc.Get now fromID toID).1 = pc := by
  unfold PathCache.Get
  split
  · rfl
  · split <;> rfl

/-- C17.  `CachedPathFinder.FindPath` caches positively only.  On a cache miss: if the
wrapped finder returns an error, the error is returned with no path and the cache is
unchanged; if it returns neither a path nor an error, that outcome is returned and the
cache is unchanged; if it returns a path `p`, then `p` is returned and a `Get(from, to)`
that follows at once, which is to say at a clock reading no later than `ttl` after that of
the store, finds `p`. -/
theorem CachedPathFinder_positive_only (cpf : CachedPathFinder) (tGet tSet : Int)
    (fromID toID : String) (maxDepth : Int)
    (hmiss : (cpf.cache.Get tGet fromID toID).2.2 = false) :
    (∀ path e, cpf.pathFinder.FindPath fromID toID maxDepth = (path, some e) →
      cpf.FindPath tGet tSet fromID toID maxDepth = (cpf, none, some e)) ∧
    (cpf.pathFinder.FindPath fromID toID maxDepth = (none, none) →
      cpf.FindPath tGet tSet fromID toID maxDepth = (cpf, none, none)) ∧
    (∀ p, cpf.pathFinder.FindPath fromID toID maxDepth = (some p, none) →
      (cpf.FindPath tGet tSet fromID toID maxDepth).2 = (some p, none) ∧
      ∀ t, t ≤ tSet + cpf.cache.ttl →
        ((cpf.FindPath tGet tSet fromID toID maxDepth).1.cache.Get t fromID toID).2
          = (some p, true)) := by
  have h1 := PathCache_Get_fst cpf.cache tGet fromID toID
  have hget : cpf.cache.Get tGet fromID toID
      = (cpf.cache, (cpf.cache.Get tGet fromID toID).2.1, false) :=
    Prod.ext h1 (Prod.ext rfl hmiss)
  refine ⟨?_, ?_, ?_⟩
  · intro path e hf
    unfold CachedPathFinder.FindPath
    rw [hget, hf]
    cases path <;> rfl
  · intro hf
    unfold CachedPathFinder.FindPath
    rw [hget, hf]
  · intro p hf
    unfold CachedPathFinder.FindPath
    rw [hget, hf]
    refine ⟨rfl, ?_⟩
    intro t ht
    simp only
    unfold PathCache.Get
    have hl : (cpf.cache.Set tSet fromID toID (some p)).cache.lookup (cacheKey fromID toID)
        = some ⟨some p, tSet, tSet + cpf.cache.ttl⟩ := by
      simp only [PathCache.Set]
      exact lookup_mapSet_self _ _ _
    rw [hl]
    simp only
    rw [if_neg (not_lt.2 ht)]

/-- Witness for C17: the cache of the service, with a TTL of five minutes, over the finder
of the scenario graph; the path stored at the clock reading 1 is found at the reading 2,
and still at the reading 1 plus five minutes. -/
theorem CachedPathFinder_positive_only_witness :
    ((NewCachedPathFinder (bfsFinder graphABC gcGrowCap 10) 300000000000).cache.Get 0
        "A" "C").2.2 = false ∧
    ((NewCachedPathFinder (bfsFinder graphABC gcGrowCap 10) 300000000000).FindPath 0 1
        "A" "C" 3).2 = (some pathAB, none) ∧
    (((NewCachedPathFinder (bfsFinder graphABC gcGrowCap 10) 300000000000).FindPath 0 1
        "A" "C" 3).1.cache.Get 2 "A" "C").2 = (some pathAB, true) ∧
    (((NewCachedPathFinder (bfsFinder graphABC gcGrowCap 10) 300000000000).FindPath 0 1
        "A" "C" 3).1.cache.Get 300000000001 "A" "C").2 = (some pathAB, true) :=
  ⟨rfl,
    ((CachedPathFinder_positive_only
      (NewCachedPathFinder (bfsFinder graphABC gcGrowCap 10) 300000000000) 0 1 "A" "C" 3
      rfl).2.2 pathAB (by with_unfolding_all decide)).1,
    ((CachedPathFinder_positive_only
      (NewCachedPathFinder (bfsFinder graphABC gcGrowCap 10) 300000000000) 0 1 "A" "C" 3
      rfl).2.2 pathAB (by with_unfolding_all decide)).2 2 (by decide),
    ((CachedPathFinder_positive_only
      (NewCachedPathFinder (bfsFinder graphABC gcGrowCap 10) 300000000000) 0 1 "A" "C" 3
      rfl).2.2 pathAB (by with_unfolding_all decide)).2 300000000001 (by decide)⟩

/-! ## Batch resolution -/

theorem parInv_init (pf : PathFinder) (queries : List PathQuery) :
    ParInv pf queries (parInit queries) := by
  refine ⟨by simp [parInit], by simp [parInit], ?_⟩
  intro i hi
  simp only [parInit, List.get?_eq_getElem?, List.getElem?_map] at hi
  cases hq : queries[i]? with
  | none => simp [hq] at hi
  | some q => simp [hq] at hi

theorem parInv_step (pf : PathFinder) (mw : Int) (queries : List PathQuery)
    (st : ParState) (index : Nat) (h : ParInv pf queries st) :
    ParInv pf queries (parStep pf mw queries st index) := by
  obtain ⟨h1, h2, h3⟩ := h
  unfold parStep
  split
  · split
    · refine ⟨by simpa using h1, h2, ?_⟩
      intro i hi
      simp only [List.get?_eq_getElem?] at hi ⊢
      by_cases hii : index = i
      · subst hii
        have hlt : index < st.phases.length := by
          by_contra hge
          simp [List.getElem?_set, hge] at hi
        simp [List.getElem?_set_self hlt] at hi
      · rw [List.getElem?_set_ne hii] at hi
        have := h3 i (by simpa using hi)
        simpa using this
    · exact ⟨h1, h2, h3⟩
  · rename_i q hph hq
    refine ⟨by simpa using h1, by simpa using h2, ?_⟩
    intro i hi
    simp only [List.get?_eq_getElem?] at hi hq ⊢
    by_cases hii : index = i
    · subst hii
      have hlt : index < st.results.length := by
        rw [h2]
        by_contra hge
        rw [List.getElem?_eq_none (not_lt.1 hge)] at hq
        cases hq
      rw [List.getElem?_set_self hlt]
      simp [parExpected, List.getElem?_map, hq]
    · rw [List.getElem?_set_ne hii] at hi ⊢
      have := h3 i (by simpa using hi)
      simpa using this
  · exact ⟨h1, h2, h3⟩

theorem parInv_run (pf : PathFinder) (mw : Int) (queries : List PathQuery)
    (schedule : List Nat) :
    ∀ st, ParInv pf queries st → ParInv pf queries (parRun pf mw queries st schedule) := by
  induction schedule with
  | nil => intro st h; exact h
  | cons i rest ih =>
    intro st h
    exact ih _ (parInv_step pf mw queries st i h)

theorem parInv_done (pf : PathFinder) (queries : List PathQuery) (st : ParState)
    (h : ParInv pf queries st) (hdone : st.phases.all (fun p => p = Phase.done) = true) :
    st.results = parExpected pf queries := by
  obtain ⟨h1, h2, h3⟩ := h
  apply List.ext_get?
  intro i
  by_cases hi : i < st.phases.length
  · apply h3
    rw [List.get?_eq_getElem?, List.getElem?_eq_getElem hi]
    have := List.all_eq_true.1 hdone _ (List.getElem_mem hi)
    simpa using this
  · have hi2 : st.results.length ≤ i := by omega
    have hi3 : (parExpected pf queries).length ≤ i := by
      simp only [parExpected, List.length_map]; omega
    simp [List.get?_eq_getElem?, List.getElem?_eq_none, hi2, hi3]

theorem parWork_set (phases : List Phase) (i : Nat) (p : Phase) (hi : i < phases.length) :
    parWork (phases.set i p) + parWork [phases[i]] = parWork phases + parWork [p] := by
  induction phases generalizing i with
  | nil => simp at hi
  | cons a t ih =>
    cases i with
    | zero =>
      simp only [List.set_cons_zero, List.getElem_cons_zero, parWork, List.map_cons,
        List.sum_cons, List.map_nil, List.sum_nil]
      omega
    | succ j =>
      have hj : j < t.length := by simpa using hi
      have := ih j hj
      simp only [List.set_cons_succ, List.getElem_cons_succ, parWork, List.map_cons,
        List.sum_cons, List.map_nil, List.sum_nil] at this ⊢
      omega

theorem parStep_progress (pf : PathFinder) (mw : Int) (hw : 1 ≤ mw)
    (queries : List PathQuery) (st : ParState) (hlen : st.phases.length = queries.length)
    (hnot : st.phases.all (fun p => p = Phase.done) = false) :
    ∃ i, parWork (parStep pf mw queries st i).phases < parWork st.phases := by
  by_cases hrun : Phase.running ∈ st.phases
  · obtain ⟨i, hi, hget⟩ := List.getElem_of_mem hrun
    have hq : i < queries.length := hlen ▸ hi
    refine ⟨i, ?_⟩
    have hstep : (parStep pf mw queries st i).phases = st.phases.set i Phase.done := by
      unfold parStep
      simp [List.get?_eq_getElem?, List.getElem?_eq_getElem hi, hget,
        List.getElem?_eq_getElem hq]
    rw [hstep]
    have := parWork_set st.phases i Phase.done hi
    rw [hget] at this
    simp only [parWork, List.map_cons, List.map_nil, List.sum_cons, List.sum_nil] at this ⊢
    omega
  · have hex : ∃ p ∈ st.phases, p ≠ Phase.done := by
      by_contra hall
      have : st.phases.all (fun p => p = Phase.done) = true := by
        rw [List.all_eq_true]
        intro p hp
        by_contra hpd
        exact hall ⟨p, hp, by simpa using hpd⟩
      rw [this] at hnot
      cases hnot
    obtain ⟨p, hp, hpd⟩ := hex
    have hwait : p = Phase.waiting := by
      cases p with
      | waiting => rfl
      | running => exact absurd hp hrun
      | done => exact absurd rfl hpd
    subst hwait
    obtain ⟨i, hi, hget⟩ := List.getElem_of_mem hp
    have hq : i < queries.length := hlen ▸ hi
    have hheld : st.held = 0 := by
      simp only [ParState.held]
      exact List.count_eq_zero.2 hrun
    refine ⟨i, ?_⟩
    have hstep : (parStep pf mw queries st i).phases = st.phases.set i Phase.running := by
      unfold parStep
      have hlt : ((st.held : Nat) : Int) < mw := by rw [hheld]; simpa using hw
      simp [List.get?_eq_getElem?, List.getElem?_eq_getElem hi, hget,
        List.getElem?_eq_getElem hq, hlt]
    rw [hstep]
    have := parWork_set st.phases i Phase.running hi
    rw [hget] at this
    simp only [parWork, List.map_cons, List.map_nil, List.sum_cons, List.sum_nil] at this ⊢
    omega

theorem parRun_completes (pf : PathFinder) (mw : Int) (hw : 1 ≤ mw)
    (queries : List PathQuery) (n : Nat) :
    ∀ st, parWork st.phases ≤ n → ParInv pf queries st →
      ∃ more, (parRun pf mw queries st more).phases.all (fun p => p = Phase.done) = true := by
  induction n with
  | zero =>
    intro st hwork hinv
    by_cases hall : st.phases.all (fun p => p = Phase.done) = true
    · exact ⟨[], hall⟩
    · obtain ⟨i, hi⟩ := parStep_progress pf mw hw queries st hinv.1 (by simpa using hall)
      omega
  | succ k ih =>
    intro st hwork hinv
    by_cases hall : st.phases.all (fun p => p = Phase.done) = true
    · exact ⟨[], hall⟩
    · obtain ⟨i, hi⟩ := parStep_progress pf mw hw queries st hinv.1 (by simpa using hall)
      obtain ⟨more, hmore⟩ := ih (parStep pf mw queries st i) (by omega)
        (parInv_step pf mw queries st i hinv)
      exact ⟨i :: more, hmore⟩

/-- C18.  For every list of queries (over a finder whose `FindPath` is a function of
the query): whenever the batch call returns, under any interleaving of its goroutines, the
overall error is nil and the result list is, position by position, the query together
with the outcome of its own `FindPath`, so it is as long as the input and the outcome of
one query, failed or not, has no effect on another; and for `maxWorkers ≥ 1` every
interleaving can be continued to one in which the call returns. -/
theorem FindMultiplePathsParallel_spec (pathFinder : PathFinder) (maxWorkers : Int)
    (queries : List PathQuery) (hw : 1 ≤ maxWorkers) :
    (∀ schedule r,
      FindMultiplePathsParallel pathFinder maxWorkers queries schedule = some r →
      r = (parExpected pathFinder queries, none) ∧ r.1.length = queries.length ∧
      ∀ i q, queries.get? i = some q →
        r.1.get? i = some (some ⟨q, (pathFinder.FindPath q.FromID q.ToID q.MaxDepth).1,
          (pathFinder.FindPath q.FromID q.ToID q.MaxDepth).2⟩)) ∧
    (∀ schedule, ∃ more,
      FindMultiplePathsParallel pathFinder maxWorkers queries (schedule ++ more)
        = some (parExpected pathFinder queries, none)) := by
  have hsafe : ∀ schedule r,
      FindMultiplePathsParallel pathFinder maxWorkers queries schedule = some r →
      r = (parExpected pathFinder queries, none) := by
    intro schedule r h
    unfold FindMultiplePathsParallel at h
    split at h
    · rename_i h0
      have hq : queries = [] := List.length_eq_zero.1 h0
      simp only [Option.some.injEq] at h
      rw [← h, hq]
      rfl
    · split at h
      · rename_i hdone
        simp only [Option.some.injEq] at h
        rw [← h]
        have hinv := parInv_run pathFinder maxWorkers queries schedule _
          (parInv_init pathFinder queries)
        rw [← parInv_done pathFinder queries _ hinv hdone]
        rfl
      · cases h
  constructor
  · intro schedule r h
    have hr := hsafe schedule r h
    subst hr
    refine ⟨rfl, by simp [parExpected], ?_⟩
    intro i q hq
    simp only [List.get?_eq_getElem?] at hq
    simp [parExpected, List.get?_eq_getElem?, List.getElem?_map, hq]
  · intro schedule
    have hinv := parInv_run pathFinder maxWorkers queries schedule _
      (parInv_init pathFinder queries)
    obtain ⟨more, hmore⟩ := parRun_completes pathFinder maxWorkers hw queries _ _
      (le_refl _) hinv
    refine ⟨more, ?_⟩
    have hrun : (schedule ++ more).foldl (parStep pathFinder maxWorkers queries)
        (parInit queries)
        = parRun pathFinder maxWorkers queries
            (parRun pathFinder maxWorkers queries (parInit queries) schedule) more := by
      simp [parRun, List.foldl_append]
    have hval : FindMultiplePathsParallel pathFinder maxWorkers queries (schedule ++ more)
        = some ((parRun pathFinder maxWorkers queries
            (parRun pathFinder maxWorkers queries (parInit queries) schedule) more).results,
            none) ∨
        FindMultiplePathsParallel pathFinder maxWorkers queries (schedule ++ more)
          = some ([], none) := by
      unfold FindMultiplePathsParallel
      split
      · exact Or.inr rfl
      · rw [hrun, if_pos hmore]
        exact Or.inl rfl
    rcases hval with hval | hval
    · rw [hval, hsafe _ _ hval]
    · rw [hval, hsafe _ _ hval]

/-- Witness for C18: two queries over the finder of the scenario graph, one worker. -/
theorem FindMultiplePathsParallel_spec_witness :
    (1 : Int) ≤ 1 ∧
    FindMultiplePathsParallel (bfsFinder graphABC gcGrowCap 10) 1
        [⟨"A", "C", 3⟩, ⟨"A", "A", 3⟩] [0, 1, 1, 0, 1, 1]
      = some (parExpected (bfsFinder graphABC gcGrowCap 10)
          [⟨"A", "C", 3⟩, ⟨"A", "A", 3⟩], none) ∧
    FindMultiplePathsParallel (bfsFinder graphABC gcGrowCap 10) 1
        [⟨"A", "C", 3⟩, ⟨"A", "A", 3⟩] [0, 1, 1] = none :=
  ⟨by decide,
    congrArg some
      (((FindMultiplePathsParallel_spec (bfsFinder graphABC gcGrowCap 10) 1
          [⟨"A", "C", 3⟩, ⟨"A", "A", 3⟩] (by decide)).1 [0, 1, 1, 0, 1, 1]
        _ rfl).1),
    by with_unfolding_all decide⟩

/-! ## Connection strength analysis -/

theorem weakInv_step (seen : List ℚ) (w : ℚ) (idx : Nat) (x : ℚ) (hx : x ≤ 1)
    (h : WeakInv seen w idx) :
    WeakInv (seen ++ [x]) (if x < w then x else w) (if x < w then seen.length else idx) := by
  refine ⟨fun hnil => absurd hnil (by simp), fun _ => ?_⟩
  by_cases hlt : x < w
  · simp only [hlt, if_true]
    refine ⟨by simp [List.get?_eq_getElem?], ?_, ?_⟩
    · intro s hs
      rcases List.mem_append.1 hs with hs | hs
      · have hne : seen ≠ [] := List.ne_nil_of_mem hs
        exact le_of_lt (lt_of_lt_of_le hlt ((h.2 hne).2.1 s hs))
      · rw [List.mem_singleton.1 hs]
    · intro j hj s hs
      rw [List.get?_eq_getElem?, List.getElem?_append_left hj] at hs
      have hmem : s ∈ seen := List.getElem?_mem hs
      exact lt_of_lt_of_le hlt ((h.2 (List.ne_nil_of_mem hmem)).2.1 s hmem)
  · simp only [hlt, if_false]
    by_cases hnil : seen = []
    · subst hnil
      obtain ⟨hw, hi⟩ := h.1 rfl
      subst hw hi
      have hx1 : x = 1 := le_antisymm hx (not_lt.1 hlt)
      subst hx1
      refine ⟨by simp, by simp, ?_⟩
      intro j hj
      exact absurd hj (Nat.not_lt_zero _)
    · obtain ⟨h1, h2, h3⟩ := h.2 hnil
      have hidx : idx < seen.length := by
        by_contra hge
        rw [List.get?_eq_getElem?, List.getElem?_eq_none (not_lt.1 hge)] at h1
        cases h1
      refine ⟨?_, ?_, ?_⟩
      · rw [List.get?_eq_getElem?, List.getElem?_append_left hidx, ← List.get?_eq_getElem?]
        exact h1
      · intro s hs
        rcases List.mem_append.1 hs with hs | hs
        · exact h2 s hs
        · rw [List.mem_singleton.1 hs]; exact not_lt.1 hlt
      · intro j hj s hs
        rw [List.get?_eq_getElem?, List.getElem?_append_left (lt_trans hj hidx),
          ← List.get?_eq_getElem?] at hs
        exact h3 j hj s hs

theorem strongInv_step (seen : List ℚ) (w : ℚ) (idx : Nat) (x : ℚ) (hx : 0 ≤ x)
    (h : StrongInv seen w idx) :
    StrongInv (seen ++ [x]) (if x > w then x else w)
      (if x > w then seen.length else idx) := by
  refine ⟨fun hnil => absurd hnil (by simp), fun _ => ?_⟩
  by_cases hlt : x > w
  · simp only [hlt, if_true]
    refine ⟨by simp [List.get?_eq_getElem?], ?_, ?_⟩
    · intro s hs
      rcases List.mem_append.1 hs with hs | hs
      · have hne : seen ≠ [] := List.ne_nil_of_mem hs
        exact le_of_lt (lt_of_le_of_lt ((h.2 hne).2.1 s hs) hlt)
      · rw [List.mem_singleton.1 hs]
    · intro j hj s hs
      rw [List.get?_eq_getElem?, List.getElem?_append_left hj] at hs
      have hmem : s ∈ seen := List.getElem?_mem hs
      exact lt_of_le_of_lt ((h.2 (List.ne_nil_of_mem hmem)).2.1 s hmem) hlt
  · simp only [hlt, if_false]
    by_cases hnil : seen = []
    · subst hnil
      obtain ⟨hw, hi⟩ := h.1 rfl
      subst hw hi
      have hx1 : x = 0 := le_antisymm (not_lt.1 hlt) hx
      subst hx1
      refine ⟨by simp, by simp, ?_⟩
      intro j hj
      exact absurd hj (Nat.not_lt_zero _)
    · obtain ⟨h1, h2, h3⟩ := h.2 hnil
      have hidx : idx < seen.length := by
        by_contra hge
        rw [List.get?_eq_getElem?, List.getElem?_eq_none (not_lt.1 hge)] at h1
        cases h1
      refine ⟨?_, ?_, ?_⟩
      · rw [List.get?_eq_getElem?, List.getElem?_append_left hidx, ← List.get?_eq_getElem?]
        exact h1
      · intro s hs
        rcases List.mem_append.1 hs with hs | hs
        · exact h2 s hs
        · rw [List.mem_singleton.1 hs]; exact not_lt.1 hlt
      · intro j hj s hs
        rw [List.get?_eq_getElem?, List.getElem?_append_left (lt_trans hj hidx),
          ← List.get?_eq_getElem?] at hs
        exact h3 j hj s hs

theorem pairs_length (path : List String) : (pairs path).length = path.length - 1 := by
  cases path with
  | nil => rfl
  | cons a t => simp [pairs]

theorem analyzeLoop_result (repo : GraphRepository) (path : List String) :
    ∀ (i : Nat) (a : ConnectionAnalysis) (total : ℚ) (cs : List ℚ) (calls : List Call),
      (∀ e, (analyzeLoop repo path i a total cs calls).2 = .error e →
        ∃ cause, e = AnalysisErr.strengthLookup cause) ∧
      (∀ a1 total1 cs1, (analyzeLoop repo path i a total cs calls).2 = .ok (a1, total1, cs1) →
        cs1 = cs ++ (pairs path).map (strengthOf repo) ∧
        total1 = total + ((pairs path).map (strengthOf repo)).sum ∧
        a1.Path = a.Path ∧ a1.TotalConnections = a.TotalConnections ∧
        (analyzeLoop repo path i a total cs calls).1
          = calls ++ (pairs path).map (fun e => Call.strength e.1 e.2) ∧
        ∀ e ∈ pairs path, ∃ s, repo.GetConnectionStrength e.1 e.2 = .ok s) := by
  induction path with
  | nil =>
    intro i a total cs calls
    simp [analyzeLoop, pairs]
  | cons x t ih =>
    cases t with
    | nil =>
      intro i a total cs calls
      simp [analyzeLoop, pairs]
    | cons y rest =>
      intro i a total cs calls
      rw [analyzeLoop]
      cases hxy : repo.GetConnectionStrength x y with
      | error e =>
        simp only
        exact ⟨fun e1 h1 => ⟨e, by simpa using h1.symm⟩, fun _ _ _ h => by cases h⟩
      | ok s =>
        simp only
        have hs : strengthOf repo (x, y) = s := by simp [strengthOf, hxy]
        obtain ⟨ih1, ih2⟩ := ih (i + 1)
          (if s > (if s < a.WeakestLink then
                { a with WeakestLink := s, WeakestLinkIndex := i } else a).StrongestLink then
            { (if s < a.WeakestLink then
                { a with WeakestLink := s, WeakestLinkIndex := i } else a) with
              StrongestLink := s, StrongestLinkIndex := i }
          else (if s < a.WeakestLink then
                { a with WeakestLink := s, WeakestLinkIndex := i } else a))
          (total + s) (cs ++ [s]) (calls ++ [Call.strength x y])
        refine ⟨ih1, ?_⟩
        intro a1 total1 cs1 h
        obtain ⟨k1, k2, k3, k4, k5, k6⟩ := ih2 a1 total1 cs1 h
        rw [pairs_cons_cons]
        refine ⟨?_, ?_, ?_, ?_, ?_, ?_⟩
        · rw [k1]; simp [hs]
        · rw [k2]; simp [hs, add_assoc]
        · rw [k3]; split <;> split <;> rfl
        · rw [k4]; split <;> split <;> rfl
        · rw [k5]; simp
        · intro e he
          rcases List.mem_cons.1 he with rfl | he
          · exact ⟨s, hxy⟩
          · exact k6 e he

theorem analyzeLoop_links (repo : GraphRepository) (path : List String) :
    ∀ (i : Nat) (a : ConnectionAnalysis) (total : ℚ) (cs : List ℚ) (calls : List Call),
      i = cs.length →
      (∀ e ∈ pairs path, ∃ s, repo.GetConnectionStrength e.1 e.2 = .ok s ∧ 0 ≤ s ∧ s ≤ 1) →
      WeakInv cs a.WeakestLink a.WeakestLinkIndex →
      StrongInv cs a.StrongestLink a.StrongestLinkIndex →
      ∃ a1 total1 cs1, (analyzeLoop repo path i a total cs calls).2 = .ok (a1, total1, cs1) ∧
        WeakInv cs1 a1.WeakestLink a1.WeakestLinkIndex ∧
        StrongInv cs1 a1.StrongestLink a1.StrongestLinkIndex := by
  induction path with
  | nil =>
    intro i a total cs calls _ _ hw hs
    exact ⟨a, total, cs, by simp [analyzeLoop], hw, hs⟩
  | cons x t ih =>
    cases t with
    | nil =>
      intro i a total cs calls _ _ hw hs
      exact ⟨a, total, cs, by simp [analyzeLoop], hw, hs⟩
    | cons y rest =>
      intro i a total cs calls hi hall hw hst
      obtain ⟨s, hxy, h0, h1⟩ := hall (x, y) (by rw [pairs_cons_cons]; exact List.mem_cons_self _ _)
      rw [analyzeLoop, hxy]
      simp only
      apply ih
      · simp [hi]
      · intro e he
        exact hall e (by rw [pairs_cons_cons]; exact List.mem_cons_of_mem _ he)
      · have := weakInv_step cs a.WeakestLink a.WeakestLinkIndex s h1 hw
        rw [← hi] at this
        by_cases hlt : s < a.WeakestLink
        · simp only [hlt, if_true] at this ⊢
          split <;> exact this
        · simp only [hlt, if_false] at this ⊢
          split <;> exact this
      · have := strongInv_step cs a.StrongestLink a.StrongestLinkIndex s h0 hst
        rw [← hi] at this
        by_cases hlt : s < a.WeakestLink
        · simp only [hlt, if_true]
          by_cases hgt : s > a.StrongestLink
          · simp only [hgt, if_true] at this ⊢
            exact this
          · simp only [hgt, if_false] at this ⊢
            exact this
        · simp only [hlt, if_false]
          by_cases hgt : s > a.StrongestLink
          · simp only [hgt, if_true] at this ⊢
            exact this
          · simp only [hgt, if_false] at this ⊢
            exact this

/-- C19.  `AnalyzeConnectionStrength` returns the validation error exactly when the path
is nil or has fewer than 2 nodes, and then it has issued no strength lookup and returns no
analysis; whenever an analysis is returned, the average was computed over
`len(Path) − 1 ≥ 1` strengths. -/
theorem AnalyzeConnectionStrength_validation (repo : GraphRepository)
    (path : Option ConnectionPath) :
    ((AnalyzeConnectionStrength repo path).err = some AnalysisErr.invalidPath ↔
      (path = none ∨ ∃ p, path = some p ∧ p.Path.length < 2)) ∧
    ((AnalyzeConnectionStrength repo path).err = some AnalysisErr.invalidPath →
      (AnalyzeConnectionStrength repo path).calls = [] ∧
      (AnalyzeConnectionStrength repo path).analysis = none) ∧
    (∀ a, (AnalyzeConnectionStrength repo path).analysis = some a →
      1 ≤ a.ConnectionStrengths.length ∧
      a.ConnectionStrengths.length + 1 = a.Path.Path.length ∧
      a.AverageStrength = a.ConnectionStrengths.sum / (a.ConnectionStrengths.length : ℚ)) := by
  cases path with
  | none => simp [AnalyzeConnectionStrength]
  | some p =>
    by_cases hlen : p.Path.length < 2
    · simp [AnalyzeConnectionStrength, hlen]
    · obtain ⟨h1, h2⟩ := analyzeLoop_result repo p.Path 0
        { Path := p, ConnectionStrengths := [], WeakestLink := 1, WeakestLinkIndex := 0,
          StrongestLink := 0, StrongestLinkIndex := 0, AverageStrength := 0,
          TotalConnections := (p.Path.length : Int) - 1, PathClassification := "" } 0 [] []
      unfold AnalyzeConnectionStrength
      simp only [hlen, if_false]
      cases hloop : analyzeLoop repo p.Path 0
        { Path := p, ConnectionStrengths := [], WeakestLink := 1, WeakestLinkIndex := 0,
          StrongestLink := 0, StrongestLinkIndex := 0, AverageStrength := 0,
          TotalConnections := (p.Path.length : Int) - 1, PathClassification := "" } 0 [] []
        with
      | mk calls res =>
        rw [hloop] at h1 h2
        cases res with
        | error e =>
          obtain ⟨cause, hc⟩ := h1 e rfl
          subst hc
          simp [hlen]
        | ok v =>
          obtain ⟨a1, total1, cs1⟩ := v
          obtain ⟨k1, k2, k3, _, _, _⟩ := h2 a1 total1 cs1 rfl
          simp only [reduceCtorEq, false_iff, false_implies, true_and, Option.some.injEq,
            not_or, not_exists, not_and]
          refine ⟨⟨by simp, fun q hq => by rw [← hq]; exact hlen⟩, ?_⟩
          intro a ha
          subst ha
          simp only [List.nil_append] at k1
          simp only [zero_add] at k2
          have hl : cs1.length = p.Path.length - 1 := by
            rw [k1, List.length_map, pairs_length]
          refine ⟨by simp only; omega, by simp only [k3]; omega, ?_⟩
          simp only
          rw [k2, k1]

/-- Witness for C19: a one-node path is rejected without a lookup, also on a store whose
lookups all fail. -/
theorem AnalyzeConnectionStrength_validation_witness :
    AnalyzeConnectionStrength failingStore (some ⟨"A", "A", ["A"], 0, 1, [], true⟩)
      = ⟨[], none, some AnalysisErr.invalidPath⟩ ∧
    (AnalyzeConnectionStrength failingStore (some ⟨"A", "A", ["A"], 0, 1, [], true⟩)).calls
      = [] :=
  ⟨by with_unfolding_all decide,
    ((AnalyzeConnectionStrength_validation failingStore
      (some ⟨"A", "A", ["A"], 0, 1, [], true⟩)).2.1 (by with_unfolding_all decide)).1⟩

/-- C20.  For a path with `n ≥ 2` nodes whose `n − 1` consecutive edge strengths are
looked up successfully and lie in [0, 1], `AnalyzeConnectionStrength` returns an analysis
with `ConnectionStrengths` the list of these strengths, `TotalConnections = n − 1`,
`AverageStrength` their sum divided by `n − 1`, `WeakestLink` their minimum at the first
index that attains it and `StrongestLink` their maximum at the first index that attains
it. -/
theorem AnalyzeConnectionStrength_links (repo : GraphRepository) (p : ConnectionPath)
    (hn : 2 ≤ p.Path.length)
    (hs : ∀ e ∈ pairs p.Path,
      ∃ s, repo.GetConnectionStrength e.1 e.2 = .ok s ∧ 0 ≤ s ∧ s ≤ 1) :
    ∃ a, (AnalyzeConnectionStrength repo (some p)).analysis = some a ∧
      (AnalyzeConnectionStrength repo (some p)).err = none ∧
      a.ConnectionStrengths = (pairs p.Path).map (strengthOf repo) ∧
      a.TotalConnections = (p.Path.length : Int) - 1 ∧
      a.AverageStrength = a.ConnectionStrengths.sum / ((p.Path.length : ℚ) - 1) ∧
      IsFirstMin a.ConnectionStrengths a.WeakestLink a.WeakestLinkIndex ∧
      IsFirstMax a.ConnectionStrengths a.StrongestLink a.StrongestLinkIndex := by
  have hlen : ¬ p.Path.length < 2 := not_lt.2 hn
  obtain ⟨a1, total1, cs1, hok, hw, hst⟩ := analyzeLoop_links repo p.Path 0
    { Path := p, ConnectionStrengths := [], WeakestLink := 1, WeakestLinkIndex := 0,
      StrongestLink := 0, StrongestLinkIndex := 0, AverageStrength := 0,
      TotalConnections := (p.Path.length : Int) - 1, PathClassification := "" } 0 [] []
    rfl hs ⟨fun _ => ⟨rfl, rfl⟩, fun h => absurd rfl h⟩
    ⟨fun _ => ⟨rfl, rfl⟩, fun h => absurd rfl h⟩
  obtain ⟨k1, k2, _, k4, _, _⟩ := (analyzeLoop_result repo p.Path 0 _ 0 [] []).2 a1 total1 cs1
    hok
  simp only [List.nil_append] at k1
  simp only [zero_add] at k2
  have hl : cs1.length = p.Path.length - 1 := by
    rw [k1, List.length_map, pairs_length]
  have hne : cs1 ≠ [] := by
    intro h
    rw [h] at hl
    simp only [List.length_nil] at hl
    omega
  have hcast : ((cs1.length : Nat) : ℚ) = (p.Path.length : ℚ) - 1 := by
    rw [hl, Nat.cast_sub (by omega)]
    simp
  cases hloop : analyzeLoop repo p.Path 0
    { Path := p, ConnectionStrengths := [], WeakestLink := 1, WeakestLinkIndex := 0,
      StrongestLink := 0, StrongestLinkIndex := 0, AverageStrength := 0,
      TotalConnections := (p.Path.length : Int) - 1, PathClassification := "" } 0 [] []
    with
  | mk calls res =>
    rw [hloop] at hok
    simp only at hok
    subst hok
    refine ⟨{ a1 with
        AverageStrength := total1 / (cs1.length : ℚ),
        ConnectionStrengths := cs1,
        PathClassification := classify (total1 / (cs1.length : ℚ)) }, ?_, ?_, ?_, ?_, ?_,
      hw.2 hne, hst.2 hne⟩
    · simp [AnalyzeConnectionStrength, hlen, hloop]
    · simp [AnalyzeConnectionStrength, hlen, hloop]
    · exact k1
    · exact k4
    · simp only
      rw [hcast, k2, k1]

/-- Witness for C20: the strengths [0.9, 0.3, 0.7] give the weakest link 0.3 at index 1,
the strongest link 0.9 at index 0 and the average 19/30. -/
theorem AnalyzeConnectionStrength_links_witness :
    2 ≤ weakPath.Path.length ∧
    AnalyzeConnectionStrength chainWeak (some weakPath)
      = ⟨[Call.strength "A" "B", Call.strength "B" "C", Call.strength "C" "D"],
          some ⟨weakPath, [9 / 10, 3 / 10, 7 / 10], 3 / 10, 1, 9 / 10, 0, 19 / 30, 3,
            "Moderate"⟩, none⟩ ∧
    ∃ a, (AnalyzeConnectionStrength chainWeak (some weakPath)).analysis = some a ∧
      IsFirstMin a.ConnectionStrengths a.WeakestLink a.WeakestLinkIndex := by
  refine ⟨by decide, by with_unfolding_all decide, ?_⟩
  obtain ⟨a, h1, _, _, _, _, h6, _⟩ := AnalyzeConnectionStrength_links chainWeak weakPath
    (by decide)
    (by
      intro e he
      have hp : pairs weakPath.Path = [("A", "B"), ("B", "C"), ("C", "D")] := rfl
      rw [hp] at he
      simp only [List.mem_cons, List.mem_singleton, List.not_mem_nil, or_false] at he
      rcases he with rfl | rfl | rfl
      · exact ⟨9 / 10, rfl, by norm_num, by norm_num⟩
      · exact ⟨3 / 10, rfl, by norm_num, by norm_num⟩
      · exact ⟨7 / 10, rfl, by norm_num, by norm_num⟩)
  exact ⟨a, h1, h6⟩


/-! ## Classification of the average strength -/

theorem classify_cases (m : ℚ) :
    (classify m = "Strong" ↔ m ≥ 8 / 10) ∧
    (classify m = "Moderate" ↔ 6 / 10 ≤ m ∧ m < 8 / 10) ∧
    (classify m = "Weak" ↔ 4 / 10 ≤ m ∧ m < 6 / 10) ∧
    (classify m = "Very Weak" ↔ m < 4 / 10) := by
  unfold classify
  by_cases h8 : m ≥ 8 / 10
  · simp only [h8, if_true, true_iff, reduceCtorEq]
    refine ⟨trivial, ?_, ?_, ?_⟩
    · constructor
      · intro h; exact absurd h (by decide)
      · intro h; exact absurd h8 (not_le.2 h.2)
    · constructor
      · intro h; exact absurd h (by decide)
      · intro h; exact absurd (le_trans (by norm_num) h8) (not_le.2 h.2)
    · constructor
      · intro h; exact absurd h (by decide)
      · intro h; exact absurd (le_trans (by norm_num) h8) (not_le.2 h)
  · rw [if_neg h8]
    by_cases h6 : m ≥ 6 / 10
    · rw [if_pos h6]
      refine ⟨?_, ?_, ?_, ?_⟩
      · constructor
        · intro h; exact absurd h (by decide)
        · intro h; exact absurd h h8
      · exact ⟨fun _ => ⟨h6, not_le.1 h8⟩, fun _ => rfl⟩
      · constructor
        · intro h; exact absurd h (by decide)
        · intro h; exact absurd h6 (not_le.2 h.2)
      · constructor
        · intro h; exact absurd h (by decide)
        · intro h; exact absurd (le_trans (by norm_num) h6) (not_le.2 h)
    · rw [if_neg h6]
      by_cases h4 : m ≥ 4 / 10
      · rw [if_pos h4]
        refine ⟨?_, ?_, ?_, ?_⟩
        · constructor
          · intro h; exact absurd h (by decide)
          · intro h; exact absurd h h8
        · constructor
          · intro h; exact absurd h (by decide)
          · intro h; exact absurd h.1 h6
        · exact ⟨fun _ => ⟨h4, not_le.1 h6⟩, fun _ => rfl⟩
        · constructor
          · intro h; exact absurd h (by decide)
          · intro h; exact absurd h4 (not_le.2 h)
      · rw [if_neg h4]
        refine ⟨?_, ?_, ?_, ?_⟩
        · constructor
          · intro h; exact absurd h (by decide)
          · intro h; exact absurd h h8
        · constructor
          · intro h; exact absurd h (by decide)
          · intro h; exact absurd h.1 h6
        · constructor
          · intro h; exact absurd h (by decide)
          · intro h; exact absurd h.1 h4
        · exact ⟨fun _ => not_le.1 h4, fun _ => rfl⟩

theorem analysis_classified (repo : GraphRepository) (path : Option ConnectionPath)
    (a : ConnectionAnalysis) (h : (AnalyzeConnectionStrength repo path).analysis = some a) :
    a.PathClassification = classify a.AverageStrength := by
  unfold AnalyzeConnectionStrength at h
  cases path with
  | none => simp at h
  | some p =>
    simp only at h
    split at h
    · simp at h
    · split at h
      · simp at h
      · simp only [Option.some.injEq] at h
        subst h
        rfl

/-- C21.  For every successfully analysed path, `AnalyzeConnectionStrength` sets
`PathClassification` from the average strength `m` by the documented thresholds: it is
"Strong" iff `m ≥ 0.8`, "Moderate" iff `0.6 ≤ m < 0.8`, "Weak" iff `0.4 ≤ m < 0.6` and
"Very Weak" iff `m < 0.4`; the 4-node path with strengths [0.9, 0.3, 0.7] has average
19/30 and is classified "Moderate". -/
theorem AnalyzeConnectionStrength_classification :
    (∀ (repo : GraphRepository) (path : Option ConnectionPath) (a : ConnectionAnalysis),
      (AnalyzeConnectionStrength repo path).analysis = some a →
        (a.PathClassification = "Strong" ↔ a.AverageStrength ≥ 8 / 10) ∧
        (a.PathClassification = "Moderate" ↔
          6 / 10 ≤ a.AverageStrength ∧ a.AverageStrength < 8 / 10) ∧
        (a.PathClassification = "Weak" ↔
          4 / 10 ≤ a.AverageStrength ∧ a.AverageStrength < 6 / 10) ∧
        (a.PathClassification = "Very Weak" ↔ a.AverageStrength < 4 / 10)) ∧
    (∃ a, (AnalyzeConnectionStrength chainWeak (some weakPath)).analysis = some a ∧
      a.ConnectionStrengths = [9 / 10, 3 / 10, 7 / 10] ∧ a.AverageStrength = 19 / 30 ∧
      a.PathClassification = "Moderate") := by
  refine ⟨?_, ?_⟩
  · intro repo path a h
    rw [analysis_classified repo path a h]
    exact classify_cases a.AverageStrength
  · exact ⟨⟨weakPath, [9 / 10, 3 / 10, 7 / 10], 3 / 10, 1, 9 / 10, 0, 19 / 30, 3,
      "Moderate"⟩, by with_unfolding_all decide, rfl, rfl, rfl⟩

/-- Witness for C21: on the chain with strengths [0.9, 0.3, 0.7] the analysis succeeds
and its classification is "Moderate", with the average at least 0.6 and below 0.8. -/
theorem AnalyzeConnectionStrength_classification_witness :
    (AnalyzeConnectionStrength chainWeak (some weakPath)).analysis
      = some ⟨weakPath, [9 / 10, 3 / 10, 7 / 10], 3 / 10, 1, 9 / 10, 0, 19 / 30, 3,
          "Moderate"⟩ ∧
    ((6 : ℚ) / 10 ≤ 19 / 30 ∧ (19 : ℚ) / 30 < 8 / 10) :=
  ⟨by with_unfolding_all decide,
    ((AnalyzeConnectionStrength_classification.1 chainWeak (some weakPath)
      ⟨weakPath, [9 / 10, 3 / 10, 7 / 10], 3 / 10, 1, 9 / 10, 0, 19 / 30, 3, "Moderate"⟩
      (by with_unfolding_all decide)).2.1).1 rfl⟩


/-! ## Compatibility score -/

theorem wrapInt_eq (x : Int) (h1 : -2 ^ 63 ≤ x) (h2 : x < 2 ^ 63) : wrapInt x = x := by
  unfold wrapInt
  omega

/-- Without overflow `abs` of the `int` difference is the absolute difference. -/
theorem abs_eq (x : Int) (h : |x| < 2 ^ 63) : abs (wrapInt x) = |x| := by
  obtain ⟨h1, h2⟩ := abs_lt.1 h
  rw [wrapInt_eq x (le_of_lt h1) h2]
  unfold abs
  by_cases hx : x < 0
  · rw [if_pos hx, abs_of_neg hx, wrapInt_eq (-x) (by omega) (by omega)]
  · rw [if_neg hx, abs_of_nonneg (not_lt.1 hx)]

theorem level_unknown (e : String) (h : e ∉ educationScale) :
    educationLevels.lookup e = none := by
  rw [List.lookup_eq_none_iff]
  intro p hp
  have hpe : p.1 ∈ educationScale := by
    revert p
    decide
  simp only [bne_iff_ne, ne_eq]
  intro heq
  exact h (heq ▸ hpe)

theorem adjacent_known (e1 e2 : String) (h : AdjacentLevels e1 e2) :
    e1 ∈ educationScale ∧ e2 ∈ educationScale := by
  obtain ⟨i, j, h1, h2, _⟩ := h
  exact ⟨List.get?_mem h1, List.get?_mem h2⟩

theorem isCompatibleEducation_iff (e1 e2 : String) :
    isCompatibleEducation e1 e2 = true ↔ AdjacentLevels e1 e2 := by
  by_cases h1 : e1 ∈ educationScale
  · by_cases h2 : e2 ∈ educationScale
    · revert e2
      revert e1
      decide
    · have hf : isCompatibleEducation e1 e2 = false := by
        unfold isCompatibleEducation
        rw [level_unknown e2 h2]
        cases educationLevels.lookup e1 <;> rfl
      rw [hf]
      exact ⟨fun h => Bool.noConfusion h, fun h => absurd (adjacent_known e1 e2 h).2 h2⟩
  · have hf : isCompatibleEducation e1 e2 = false := by
      unfold isCompatibleEducation
      rw [level_unknown e1 h1]
    rw [hf]
    exact ⟨fun h => Bool.noConfusion h, fun h => absurd (adjacent_known e1 e2 h).1 h1⟩

theorem isCompatibleProfession_iff (p1 p2 : String) :
    isCompatibleProfession p1 p2 = true ↔ InCompatibleGroup p1 p2 := by
  unfold isCompatibleProfession InCompatibleGroup
  constructor
  · intro h
    cases hl : compatibleGroups.lookup p1 with
    | none => rw [hl] at h; cases h
    | some g =>
      rw [hl] at h
      simp only [List.any_eq_true, decide_eq_true_eq] at h
      obtain ⟨x, hx, rfl⟩ := h
      exact ⟨g, mem_of_lookup p1 g compatibleGroups hl, hx⟩
  · rintro ⟨g, hg, hp⟩
    have hl : ∀ e ∈ compatibleGroups, compatibleGroups.lookup e.1 = some e.2 := by decide
    rw [hl (p1, g) hg]
    simp only [List.any_eq_true, decide_eq_true_eq]
    exact ⟨p2, hp, rfl⟩

/-- The age block, whatever the ages: it adds 20 to `maxScore`, between 0 and 20 points to
`score`, and at most its own reason to the reasons. -/
theorem scoreAge_frame (em : EligibleMatch) (seeker : Person) (s : Scoring) :
    (scoreAge em seeker s).maxScore = s.maxScore + 20 ∧
    s.score ≤ (scoreAge em seeker s).score ∧ (scoreAge em seeker s).score ≤ s.score + 20 ∧
    (scoreAge em seeker s).score - s.score = (scoreAge em seeker ⟨0, 0, []⟩).score ∧
    (scoreAge em seeker s).reasons = s.reasons ++ (scoreAge em seeker ⟨0, 0, []⟩).reasons := by
  unfold scoreAge
  simp only
  split_ifs <;> refine ⟨rfl, ?_, ?_, ?_, ?_⟩ <;> simp <;> norm_num

/-- The age block for ages whose difference does not overflow. -/
theorem scoreAge_eq (em : EligibleMatch) (seeker : Person) (s : Scoring)
    (hage : |em.Person.Age - seeker.Age| < 2 ^ 63) :
    (scoreAge em seeker s).score = s.score + agePoints em.Person.Age seeker.Age ∧
    (scoreAge em seeker s).reasons = s.reasons ++ ageReasons em.Person.Age seeker.Age := by
  unfold scoreAge agePoints ageReasons
  simp only [abs_eq _ hage]
  by_cases h2 : |em.Person.Age - seeker.Age| ≤ 2
  · simp only [h2, if_true, true_and]
  · simp only [h2, if_false]
    by_cases h5 : |em.Person.Age - seeker.Age| ≤ 5
    · simp only [h5, if_true, and_true]
      norm_num
    · simp only [h5, if_false]
      by_cases h10 : |em.Person.Age - seeker.Age| ≤ 10
      · simp only [h10, if_true, List.append_nil, and_true]
        norm_num
      · simp only [h10, if_false, List.append_nil, and_self, add_zero]

theorem scoreEducation_eq (em : EligibleMatch) (seeker : Person) (s : Scoring) :
    (scoreEducation em seeker s).score = s.score +
      educationPoints em.Person.Education.HighestDegree seeker.Education.HighestDegree ∧
    (scoreEducation em seeker s).maxScore = s.maxScore + 25 ∧
    (scoreEducation em seeker s).reasons = s.reasons ++
      educationReasons em.Person.Education.HighestDegree
        seeker.Education.HighestDegree := by
  unfold scoreEducation educationPoints educationReasons
  by_cases h1 : em.Person.Education.HighestDegree = seeker.Education.HighestDegree
  · simp only [h1, if_true, true_and]
  · simp only [h1, if_false]
    by_cases h2 : AdjacentLevels em.Person.Education.HighestDegree
        seeker.Education.HighestDegree
    · rw [if_pos ((isCompatibleEducation_iff _ _).2 h2)]
      simp only [h2, if_true, true_and]
      norm_num
    · rw [if_neg (fun h => h2 ((isCompatibleEducation_iff _ _).1 h))]
      simp only [h2, if_false, List.append_nil, and_self, add_zero]

theorem scoreProfession_eq (em : EligibleMatch) (seeker : Person) (s : Scoring) :
    (scoreProfession em seeker s).score = s.score +
      professionPoints em.Person.Profession.Industry seeker.Profession.Industry ∧
    (scoreProfession em seeker s).maxScore = s.maxScore + 20 ∧
    (scoreProfession em seeker s).reasons = s.reasons ++
      professionReasons em.Person.Profession.Industry seeker.Profession.Industry := by
  unfold scoreProfession professionPoints professionReasons
  by_cases h1 : em.Person.Profession.Industry = seeker.Profession.Industry
  · simp only [h1, if_true, true_and]
  · simp only [h1, if_false]
    by_cases h2 : InCompatibleGroup em.Person.Profession.Industry
        seeker.Profession.Industry
    · rw [if_pos ((isCompatibleProfession_iff _ _).2 h2)]
      simp only [h2, if_true, true_and]
      norm_num
    · rw [if_neg (fun h => h2 ((isCompatibleProfession_iff _ _).1 h))]
      simp only [h2, if_false, List.append_nil, and_self, add_zero]

theorem scoreTrust_eq (em : EligibleMatch) (s : Scoring) :
    (scoreTrust em s).score = s.score + trustPoints em.Family.TrustScore ∧
    (scoreTrust em s).maxScore = s.maxScore + 15 ∧
    (scoreTrust em s).reasons = s.reasons ++ trustReasons em.Family.TrustScore := by
  unfold scoreTrust trustPoints trustReasons
  by_cases h : em.Family.TrustScore ≥ 8
  · simp only [h, if_true, and_self, and_true]
    ring
  · simp only [h, if_false, List.append_nil, and_self, and_true]
    ring

theorem scorePath_eq (em : EligibleMatch) (s : Scoring) :
    (scorePath em s).score = s.score + pathPoints em.ConnectionPath ∧
    (scorePath em s).maxScore = s.maxScore + 20 ∧
    (scorePath em s).reasons = s.reasons ++ pathReasons em.ConnectionPath := by
  unfold scorePath pathPoints pathReasons
  cases em.ConnectionPath with
  | none => simp
  | some p =>
    by_cases h : p.Degree ≤ 2
    · simp only [h, if_true, and_self, and_true]
      ring
    · simp only [h, if_false, and_self, and_true]
      ring

/-- The score before the division, whatever the ages: the points of the age block plus
the points of the other four factors; the divisor is 100. -/
theorem scoring_frame (em : EligibleMatch) (seeker : Person) :
    (scoring em seeker).score =
      (scoreAge em seeker ⟨0, 0, em.MatchReasons⟩).score +
      educationPoints em.Person.Education.HighestDegree seeker.Education.HighestDegree +
      professionPoints em.Person.Profession.Industry seeker.Profession.Industry +
      trustPoints em.Family.TrustScore + pathPoints em.ConnectionPath ∧
    (scoring em seeker).maxScore = 100 := by
  unfold scoring
  rw [(scorePath_eq _ _).1, (scorePath_eq _ _).2.1, (scoreTrust_eq _ _).1,
    (scoreTrust_eq _ _).2.1, (scoreProfession_eq _ _ _).1, (scoreProfession_eq _ _ _).2.1,
    (scoreEducation_eq _ _ _).1, (scoreEducation_eq _ _ _).2.1, (scoreAge_frame _ _ _).1]
  constructor
  · rfl
  · norm_num

theorem scoring_eq (em : EligibleMatch) (seeker : Person)
    (hage : |em.Person.Age - seeker.Age| < 2 ^ 63) :
    (scoring em seeker).score =
      agePoints em.Person.Age seeker.Age +
      educationPoints em.Person.Education.HighestDegree seeker.Education.HighestDegree +
      professionPoints em.Person.Profession.Industry seeker.Profession.Industry +
      trustPoints em.Family.TrustScore + pathPoints em.ConnectionPath := by
  rw [(scoring_frame em seeker).1, (scoreAge_eq em seeker _ hage).1]
  simp only [zero_add]

/-- C25, counterexample.  For a candidate whose `Age` is the least `int` and a seeker of
`Age` 0 the subtraction and `abs` give the least `int` again, a negative number, so the
age block awards the full 20 points and the score is 20; the absolute age difference is
`2^63`, for which the formula of the claim has `A = 0` and, the other four terms being 0
as well, the score 0. -/
theorem CalculateCompatibilityScore_age_overflow :
    abs (wrapInt (matchLeastAge.Person.Age - seekerZero.Age)) = -2 ^ 63 ∧
    (CalculateCompatibilityScore matchLeastAge seekerZero).CompatibilityScore = 20 ∧
    |matchLeastAge.Person.Age - seekerZero.Age| = 2 ^ 63 ∧
    (agePoints matchLeastAge.Person.Age seekerZero.Age +
      educationPoints matchLeastAge.Person.Education.HighestDegree
        seekerZero.Education.HighestDegree +
      professionPoints matchLeastAge.Person.Profession.Industry
        seekerZero.Profession.Industry +
      trustPoints matchLeastAge.Family.TrustScore +
      pathPoints matchLeastAge.ConnectionPath) / 100 * 100 = 0 := by
  refine ⟨?_, ?_, ?_, ?_⟩ <;> with_unfolding_all decide

/-- C25, amended.  For every seeker and every match whose ages differ by less than `2^63`
(no overflow in the `int` subtraction and in `abs`), `CalculateCompatibilityScore` sets
`CompatibilityScore = (A + E + P + T + S) / 100 × 100` with `A` the age points (20, 14, 6
or 0 by the absolute age difference), `E` the education points (25 for equal degrees, 20
for known levels at most one step apart, else 0), `P` the profession points (20 for equal
industries, 12 when the seeker's industry is in the compatible group of the candidate's,
else 0), `T = 15 × TrustScore / 10` and `S = 20 × PathStrength` for a present path and 0
otherwise; the divisor `maxScore` is 100 for every match, with or without a path. -/
theorem CalculateCompatibilityScore_formula (em : EligibleMatch) (seeker : Person)
    (hage : |em.Person.Age - seeker.Age| < 2 ^ 63) :
    (CalculateCompatibilityScore em seeker).CompatibilityScore =
      (agePoints em.Person.Age seeker.Age +
        educationPoints em.Person.Education.HighestDegree seeker.Education.HighestDegree +
        professionPoints em.Person.Profession.Industry seeker.Profession.Industry +
        trustPoints em.Family.TrustScore + pathPoints em.ConnectionPath) / 100 * 100 ∧
    (scoring em seeker).maxScore = 100 := by
  refine ⟨?_, (scoring_frame em seeker).2⟩
  unfold CalculateCompatibilityScore
  simp only
  rw [scoring_eq em seeker hage, (scoring_frame em seeker).2]

/-- Witness for C25: a candidate aged 38 and a seeker aged 30, of different education and
industry, trust 0 and no path: the 6 points of the third age tier, score 6. -/
theorem CalculateCompatibilityScore_formula_witness :
    |matchOlder.Person.Age - seeker30.Age| < 2 ^ 63 ∧
    (CalculateCompatibilityScore matchOlder seeker30).CompatibilityScore
      = (6 + 0 + 0 + 0 + 0) / 100 * 100 ∧
    (CalculateCompatibilityScore matchOlder seeker30).CompatibilityScore =
      (agePoints matchOlder.Person.Age seeker30.Age +
        educationPoints matchOlder.Person.Education.HighestDegree
          seeker30.Education.HighestDegree +
        professionPoints matchOlder.Person.Profession.Industry
          seeker30.Profession.Industry +
        trustPoints matchOlder.Family.TrustScore +
        pathPoints matchOlder.ConnectionPath) / 100 * 100 :=
  ⟨by decide, by with_unfolding_all decide,
    (CalculateCompatibilityScore_formula matchOlder seeker30 (by decide)).1⟩

theorem educationPoints_bounds (a b : String) :
    0 ≤ educationPoints a b ∧ educationPoints a b ≤ 25 := by
  unfold educationPoints
  split_ifs <;> norm_num

theorem professionPoints_bounds (a b : String) :
    0 ≤ professionPoints a b ∧ professionPoints a b ≤ 20 := by
  unfold professionPoints
  split_ifs <;> norm_num

/-- C26.  For every seeker and every match whose family `TrustScore` lies in [0, 10] and
whose connection path is absent or has `PathStrength` in [0, 1], the `CompatibilityScore`
computed by `CalculateCompatibilityScore` lies in [0, 100]. -/
theorem CalculateCompatibilityScore_range (em : EligibleMatch) (seeker : Person)
    (ht : 0 ≤ em.Family.TrustScore ∧ em.Family.TrustScore ≤ 10)
    (hp : ∀ p, em.ConnectionPath = some p → 0 ≤ p.PathStrength ∧ p.PathStrength ≤ 1) :
    0 ≤ (CalculateCompatibilityScore em seeker).CompatibilityScore ∧
    (CalculateCompatibilityScore em seeker).CompatibilityScore ≤ 100 := by
  have hs : (CalculateCompatibilityScore em seeker).CompatibilityScore
      = (scoring em seeker).score / (scoring em seeker).maxScore * 100 := rfl
  rw [hs, (scoring_frame em seeker).1, (scoring_frame em seeker).2]
  have hA := scoreAge_frame em seeker ⟨0, 0, em.MatchReasons⟩
  have hA1 : 0 ≤ (scoreAge em seeker ⟨0, 0, em.MatchReasons⟩).score := hA.2.1
  have hA2 : (scoreAge em seeker ⟨0, 0, em.MatchReasons⟩).score ≤ 20 := by
    have := hA.2.2.1
    simpa using this
  have hE := educationPoints_bounds em.Person.Education.HighestDegree
    seeker.Education.HighestDegree
  have hP := professionPoints_bounds em.Person.Profession.Industry
    seeker.Profession.Industry
  have hT : 0 ≤ trustPoints em.Family.TrustScore ∧
      trustPoints em.Family.TrustScore ≤ 15 := by
    unfold trustPoints
    constructor <;> linarith [ht.1, ht.2]
  have hS : 0 ≤ pathPoints em.ConnectionPath ∧ pathPoints em.ConnectionPath ≤ 20 := by
    unfold pathPoints
    cases hc : em.ConnectionPath with
    | none => norm_num
    | some p =>
      have := hp p hc
      constructor <;> simp only <;> linarith [this.1, this.2]
  constructor
  · linarith [hA1, hE.1, hP.1, hT.1, hS.1]
  · linarith [hA2, hE.2, hP.2, hT.2, hS.2]

/-- Witness for C26: the best match of `seeker30` meets the bounds on trust and path
strength, and its score is 100. -/
theorem CalculateCompatibilityScore_range_witness :
    (0 ≤ matchBest.Family.TrustScore ∧ matchBest.Family.TrustScore ≤ 10) ∧
    (CalculateCompatibilityScore matchBest seeker30).CompatibilityScore = 100 ∧
    (0 ≤ (CalculateCompatibilityScore matchBest seeker30).CompatibilityScore ∧
      (CalculateCompatibilityScore matchBest seeker30).CompatibilityScore ≤ 100) :=
  ⟨by with_unfolding_all decide, by with_unfolding_all decide,
    CalculateCompatibilityScore_range matchBest seeker30 (by with_unfolding_all decide)
      (by
        intro p hp
        have h : p = ⟨"F1", "F5", ["F1", "F5"], 1, 1, [], true⟩ :=
          (Option.some.inj hp).symm
        subst h
        exact ⟨by norm_num, by norm_num⟩)⟩

theorem scoring_reasons (em : EligibleMatch) (seeker : Person)
    (hage : |em.Person.Age - seeker.Age| < 2 ^ 63) :
    (scoring em seeker).reasons = em.MatchReasons ++
      ageReasons em.Person.Age seeker.Age ++
      educationReasons em.Person.Education.HighestDegree seeker.Education.HighestDegree ++
      professionReasons em.Person.Profession.Industry seeker.Profession.Industry ++
      trustReasons em.Family.TrustScore ++ pathReasons em.ConnectionPath := by
  unfold scoring
  rw [(scorePath_eq _ _).2.2, (scoreTrust_eq _ _).2.2, (scoreProfession_eq _ _ _).2.2,
    (scoreEducation_eq _ _ _).2.2, (scoreAge_eq _ _ _ hage).2]

/-- C27, counterexample.  A candidate eight years older than the seeker earns the 6 age
points and no other points, and gets no reason; a candidate whose only points are the 7.5
of a family trust score 5 gets no reason; a candidate whose connection path has strength 0
earns no points at all and gets the reason "Close family connection". -/
theorem CalculateCompatibilityScore_reasons_mismatch :
    (agePoints matchOlder.Person.Age seeker30.Age = 6 ∧
      (CalculateCompatibilityScore matchOlder seeker30).CompatibilityScore = 6 ∧
      (CalculateCompatibilityScore matchOlder seeker30).MatchReasons = []) ∧
    (trustPoints matchTrusted.Family.TrustScore = 15 / 2 ∧
      (CalculateCompatibilityScore matchTrusted seeker30).CompatibilityScore = 15 / 2 ∧
      (CalculateCompatibilityScore matchTrusted seeker30).MatchReasons = []) ∧
    (pathPoints matchPath0.ConnectionPath = 0 ∧
      (CalculateCompatibilityScore matchPath0 seeker30).CompatibilityScore = 0 ∧
      (CalculateCompatibilityScore matchPath0 seeker30).MatchReasons
        = ["Close family connection"]) := by
  refine ⟨⟨?_, ?_, ?_⟩, ⟨?_, ?_, ?_⟩, ⟨?_, ?_, ?_⟩⟩ <;> with_unfolding_all decide

/-- C27, amended.  For a seeker and a match whose ages differ by less than `2^63` (no
overflow in the `int` subtraction and in `abs`), `CalculateCompatibilityScore` appends to
`MatchReasons` the reasons of the five factors in the order age, education, profession,
family trust, connection path, each factor at most one: the age factor appends one
exactly when the age difference is at most 5, the education factor exactly when it
contributes points, the profession factor exactly when it contributes points, the family
trust factor exactly when the trust score is at least 8, and the connection path factor
exactly when a path is present. -/
theorem CalculateCompatibilityScore_reasons (em : EligibleMatch) (seeker : Person)
    (hage : |em.Person.Age - seeker.Age| < 2 ^ 63) :
    (CalculateCompatibilityScore em seeker).MatchReasons = em.MatchReasons ++
      ageReasons em.Person.Age seeker.Age ++
      educationReasons em.Person.Education.HighestDegree seeker.Education.HighestDegree ++
      professionReasons em.Person.Profession.Industry seeker.Profession.Industry ++
      trustReasons em.Family.TrustScore ++ pathReasons em.ConnectionPath ∧
    (ageReasons em.Person.Age seeker.Age).length
      = (if |em.Person.Age - seeker.Age| ≤ 5 then 1 else 0) ∧
    (educationReasons em.Person.Education.HighestDegree
        seeker.Education.HighestDegree).length
      = (if 0 < educationPoints em.Person.Education.HighestDegree
          seeker.Education.HighestDegree then 1 else 0) ∧
    (professionReasons em.Person.Profession.Industry seeker.Profession.Industry).length
      = (if 0 < professionPoints em.Person.Profession.Industry
          seeker.Profession.Industry then 1 else 0) ∧
    (trustReasons em.Family.TrustScore).length
      = (if em.Family.TrustScore ≥ 8 then 1 else 0) ∧
    (pathReasons em.ConnectionPath).length
      = (if em.ConnectionPath.isSome then 1 else 0) := by
  refine ⟨scoring_reasons em seeker hage, ?_, ?_, ?_, ?_, ?_⟩
  · unfold ageReasons
    by_cases h2 : |em.Person.Age - seeker.Age| ≤ 2
    · have h5 : |em.Person.Age - seeker.Age| ≤ 5 := le_trans h2 (by norm_num)
      simp [h2, h5]
    · by_cases h5 : |em.Person.Age - seeker.Age| ≤ 5 <;> simp [h2, h5]
  · unfold educationReasons educationPoints
    split_ifs <;> first | rfl | (exfalso; linarith)
  · unfold professionReasons professionPoints
    split_ifs <;> first | rfl | (exfalso; linarith)
  · unfold trustReasons
    split_ifs <;> rfl
  · unfold pathReasons
    cases em.ConnectionPath with
    | none => rfl
    | some p => simp only [Option.isSome_some, if_true]; split_ifs <;> rfl

/-- Witness for C27: for the candidate aged 38 and the seeker aged 30 none of the five
factors appends a reason. -/
theorem CalculateCompatibilityScore_reasons_witness :
    |matchOlder.Person.Age - seeker30.Age| < 2 ^ 63 ∧
    (CalculateCompatibilityScore matchOlder seeker30).MatchReasons =
      matchOlder.MatchReasons ++ ageReasons 38 30 ++
      educationReasons "Doctorate" "High School" ++
      professionReasons "Medicine" "Technology" ++ trustReasons 0 ++ pathReasons none :=
  ⟨by decide, (CalculateCompatibilityScore_reasons matchOlder seeker30 (by decide)).1⟩

/-! ## Sorting of common connections -/

theorem bubblePass_perm (k : Nat) (l : List CommonConnection) :
    (bubblePass k l).Perm l := by
  induction k generalizing l with
  | zero => unfold bubblePass; exact List.Perm.refl _
  | succ k ih =>
    match l with
    | [] => unfold bubblePass; exact List.Perm.refl _
    | [a] => unfold bubblePass; exact List.Perm.refl _
    | a :: b :: rest =>
      unfold bubblePass
      by_cases h : a.TotalDegree > b.TotalDegree
      · rw [if_pos h]
        exact ((ih (a :: rest)).cons b).trans (List.Perm.swap a b rest)
      · rw [if_neg h]
        exact (ih (b :: rest)).cons a

theorem bubblePass_filter (d : Int) (k : Nat) (l : List CommonConnection) :
    (bubblePass k l).filter (fun c => decide (c.TotalDegree = d))
      = l.filter (fun c => decide (c.TotalDegree = d)) := by
  induction k generalizing l with
  | zero => unfold bubblePass; rfl
  | succ k ih =>
    match l with
    | [] => unfold bubblePass; rfl
    | [a] => unfold bubblePass; rfl
    | a :: b :: rest =>
      unfold bubblePass
      by_cases h : a.TotalDegree > b.TotalDegree
      · rw [if_pos h, List.filter_cons, ih (a :: rest)]
        by_cases ha : a.TotalDegree = d
        · have hb : ¬ b.TotalDegree = d := by omega
          simp [List.filter_cons, ha, hb]
        · simp [List.filter_cons, ha]
      · rw [if_neg h]
        simp only [List.filter_cons, ih (b :: rest)]

theorem bubblePass_length (k : Nat) (l : List CommonConnection) :
    (bubblePass k l).length = l.length :=
  (bubblePass_perm k l).length_eq

/-- A pass of `k` comparisons leaves the entries after the first `k + 1` in place. -/
theorem bubblePass_append (k : Nat) (p s : List CommonConnection) (h : p.length = k + 1) :
    bubblePass k (p ++ s) = bubblePass k p ++ s := by
  induction k generalizing p with
  | zero =>
    match p, h with
    | [a], _ => unfold bubblePass; rfl
  | succ k ih =>
    match p, h with
    | a :: b :: rest, h =>
      have hl : (b :: rest).length = k + 1 := by simpa using h
      have hl2 : (a :: rest).length = k + 1 := by simpa using h
      simp only [List.cons_append]
      unfold bubblePass
      by_cases hgt : a.TotalDegree > b.TotalDegree
      · rw [if_pos hgt, if_pos hgt]
        have := ih (a :: rest) hl2
        simp only [List.cons_append] at this
        rw [this]
        rfl
      · rw [if_neg hgt, if_neg hgt]
        have := ih (b :: rest) hl
        simp only [List.cons_append] at this
        rw [this]
        rfl

/-- A pass of `k` comparisons over `k + 1` entries moves a greatest entry to the end. -/
theorem bubblePass_max (k : Nat) (p : List CommonConnection) (h : p.length = k + 1) :
    ∃ q m, bubblePass k p = q ++ [m] ∧ q.length = k ∧
      ∀ x ∈ q, x.TotalDegree ≤ m.TotalDegree := by
  induction k generalizing p with
  | zero =>
    match p, h with
    | [a], _ =>
      refine ⟨[], a, ?_, rfl, ?_⟩
      · unfold bubblePass; rfl
      · intro x hx; cases hx
  | succ k ih =>
    match p, h with
    | a :: b :: rest, h =>
      have hl : (b :: rest).length = k + 1 := by simpa using h
      have hl2 : (a :: rest).length = k + 1 := by simpa using h
      unfold bubblePass
      by_cases hgt : a.TotalDegree > b.TotalDegree
      · rw [if_pos hgt]
        obtain ⟨q, m, hq, hlen, hmax⟩ := ih (a :: rest) hl2
        refine ⟨b :: q, m, by rw [hq]; rfl, by simp [hlen], ?_⟩
        intro x hx
        rcases List.mem_cons.1 hx with rfl | hx
        · have ham : a.TotalDegree ≤ m.TotalDegree := by
            have hmem : a ∈ q ++ [m] := by
              rw [← hq]
              exact (bubblePass_perm k (a :: rest)).mem_iff.2 (List.mem_cons_self _ _)
            rcases List.mem_append.1 hmem with h1 | h1
            · exact hmax a h1
            · rw [List.mem_singleton.1 h1]
          omega
        · exact hmax x hx
      · rw [if_neg hgt]
        obtain ⟨q, m, hq, hlen, hmax⟩ := ih (b :: rest) hl
        refine ⟨a :: q, m, by rw [hq]; rfl, by simp [hlen], ?_⟩
        intro x hx
        rcases List.mem_cons.1 hx with rfl | hx
        · have hbm : b.TotalDegree ≤ m.TotalDegree := by
            have hmem : b ∈ q ++ [m] := by
              rw [← hq]
              exact (bubblePass_perm k (b :: rest)).mem_iff.2 (List.mem_cons_self _ _)
            rcases List.mem_append.1 hmem with h1 | h1
            · exact hmax b h1
            · rw [List.mem_singleton.1 h1]
          omega
        · exact hmax x hx

theorem bubbleLoop_perm (k : Nat) (l : List CommonConnection) :
    (bubbleLoop k l).Perm l := by
  induction k generalizing l with
  | zero => unfold bubbleLoop; exact List.Perm.refl _
  | succ k ih =>
    unfold bubbleLoop
    exact (ih _).trans (bubblePass_perm _ _)

theorem bubbleLoop_filter (d : Int) (k : Nat) (l : List CommonConnection) :
    (bubbleLoop k l).filter (fun c => decide (c.TotalDegree = d))
      = l.filter (fun c => decide (c.TotalDegree = d)) := by
  induction k generalizing l with
  | zero => unfold bubbleLoop; rfl
  | succ k ih =>
    unfold bubbleLoop
    rw [ih, bubblePass_filter]

/-- The loop invariant of the outer loop: behind the first `k + 1` entries the slice is
sorted and holds no entry smaller than one of the first `k + 1`. -/
theorem bubbleLoop_sorted (k : Nat) (p s : List CommonConnection) (h : p.length = k + 1)
    (hs : s.Pairwise (fun a b => a.TotalDegree ≤ b.TotalDegree))
    (hps : ∀ x ∈ p, ∀ y ∈ s, x.TotalDegree ≤ y.TotalDegree) :
    (bubbleLoop k (p ++ s)).Pairwise (fun a b => a.TotalDegree ≤ b.TotalDegree) := by
  induction k generalizing p s with
  | zero =>
    match p, h with
    | [a], _ =>
      unfold bubbleLoop
      exact List.pairwise_cons.2 ⟨fun y hy => hps a (List.mem_singleton.2 rfl) y hy, hs⟩
  | succ k ih =>
    unfold bubbleLoop
    rw [bubblePass_append (k + 1) p s h]
    obtain ⟨q, m, hq, hlen, hmax⟩ := bubblePass_max (k + 1) p h
    rw [hq, List.append_assoc]
    have hmem : ∀ x, x ∈ q ++ [m] → x ∈ p := by
      intro x hx
      rw [← hq] at hx
      exact (bubblePass_perm (k + 1) p).mem_iff.1 hx
    refine ih q ([m] ++ s) hlen ?_ ?_
    · exact List.pairwise_cons.2
        ⟨fun y hy => hps m (hmem m (List.mem_append_right _ (List.mem_singleton.2 rfl))) y hy,
          hs⟩
    · intro x hx y hy
      rcases List.mem_cons.1 hy with rfl | hy
      · exact hmax x hx
      · exact hps x (hmem x (List.mem_append_left _ hx)) y hy

/-- C22.  For every list of common connections, `sortCommonConnectionsByDegree` produces
the stable ascending sort of its input by `TotalDegree`: the result is a permutation of
the input, `TotalDegree` is non-decreasing along it, and the entries of each `TotalDegree`
keep their relative input order. -/
theorem sortCommonConnectionsByDegree_stable_sort (connections : List CommonConnection) :
    (sortCommonConnectionsByDegree connections).Perm connections ∧
    (sortCommonConnectionsByDegree connections).Pairwise
      (fun a b => a.TotalDegree ≤ b.TotalDegree) ∧
    ∀ d : Int,
      (sortCommonConnectionsByDegree connections).filter
          (fun c => decide (c.TotalDegree = d))
        = connections.filter (fun c => decide (c.TotalDegree = d)) := by
  unfold sortCommonConnectionsByDegree
  refine ⟨bubbleLoop_perm _ _, ?_, fun d => bubbleLoop_filter d _ _⟩
  cases connections with
  | nil => unfold bubbleLoop; exact List.Pairwise.nil
  | cons a rest =>
    have h := bubbleLoop_sorted ((a :: rest).length - 1) (a :: rest) [] (by simp)
      List.Pairwise.nil (fun _ _ y hy => by cases hy)
    rw [List.append_nil] at h
    exact h


/-! ## Aggregate calls of the connection service -/

theorem commonLoop_calls {σ : Type} (s : ConnectionService σ) (f1 f2 : String) (d : Int)
    (ids : List String) (finder : σ) (calls : List ServiceCall)
    (acc : List CommonConnection)
    (h : ∀ c ∈ calls, c.degree? = none ∨ c.degree? = some d) :
    ∀ c ∈ (commonLoop s f1 f2 d ids finder calls acc).2.1,
      c.degree? = none ∨ c.degree? = some d := by
  induction ids generalizing finder calls acc with
  | nil => exact h
  | cons id rest ih =>
    have h1 : ∀ c ∈ calls ++ [ServiceCall.familyByID id],
        c.degree? = none ∨ c.degree? = some d := by
      intro c hc
      rcases List.mem_append.1 hc with hc | hc
      · exact h c hc
      · rw [List.mem_singleton.1 hc]; exact Or.inl rfl
    have h2 : ∀ c ∈ calls ++ [ServiceCall.familyByID id] ++ [ServiceCall.findPath f1 id d],
        c.degree? = none ∨ c.degree? = some d := by
      intro c hc
      rcases List.mem_append.1 hc with hc | hc
      · exact h1 c hc
      · rw [List.mem_singleton.1 hc]; exact Or.inr rfl
    have h3 : ∀ c ∈ calls ++ [ServiceCall.familyByID id] ++ [ServiceCall.findPath f1 id d]
        ++ [ServiceCall.findPath f2 id d], c.degree? = none ∨ c.degree? = some d := by
      intro c hc
      rcases List.mem_append.1 hc with hc | hc
      · exact h2 c hc
      · rw [List.mem_singleton.1 hc]; exact Or.inr rfl
    unfold commonLoop
    simp only
    repeat' split
    all_goals first | exact ih _ _ _ h1 | exact ih _ _ _ h2 | exact ih _ _ _ h3

theorem commonLoop_log {σ : Type} (s : ConnectionService σ) (f1 f2 : String) (d : Int)
    (ids : List String) (finder : σ) (calls : List ServiceCall)
    (acc : List CommonConnection) :
    ∃ extra, (commonLoop s f1 f2 d ids finder calls acc).2.1 = calls ++ extra := by
  induction ids generalizing finder calls acc with
  | nil => exact ⟨[], (List.append_nil _).symm⟩
  | cons id rest ih =>
    have step : ∀ (st : σ) (more : List ServiceCall) (acc1 : List CommonConnection),
        ∃ extra, (commonLoop s f1 f2 d rest st (calls ++ more) acc1).2.1
          = calls ++ extra := by
      intro st more acc1
      obtain ⟨extra, he⟩ := ih st (calls ++ more) acc1
      exact ⟨more ++ extra, by rw [he, List.append_assoc]⟩
    unfold commonLoop
    simp only [List.append_assoc]
    repeat' split
    all_goals exact step _ _ _

theorem FindCommonConnections_calls {σ : Type} (s : ConnectionService σ) (finder : σ)
    (f1 f2 : String) (maxDegree : Int) :
    (FindCommonConnections s finder f1 f2 maxDegree).calls.head?
      = some (ServiceCall.familyConnections f1
          (if maxDegree ≤ 0 ∨ maxDegree > 3 then 2 else maxDegree)) ∧
    ∀ c ∈ (FindCommonConnections s finder f1 f2 maxDegree).calls,
      c.degree? = none ∨
      c.degree? = some (if maxDegree ≤ 0 ∨ maxDegree > 3 then 2 else maxDegree) := by
  unfold FindCommonConnections
  simp only
  generalize (if maxDegree ≤ 0 ∨ maxDegree > 3 then 2 else maxDegree) = d
  have h1 : ∀ c ∈ [ServiceCall.familyConnections f1 d],
      c.degree? = none ∨ c.degree? = some d := by
    intro c hc
    rw [List.mem_singleton.1 hc]; exact Or.inr rfl
  have h2 : ∀ c ∈ [ServiceCall.familyConnections f1 d] ++
      [ServiceCall.familyConnections f2 d], c.degree? = none ∨ c.degree? = some d := by
    intro c hc
    rcases List.mem_append.1 hc with hc | hc
    · exact h1 c hc
    · rw [List.mem_singleton.1 hc]; exact Or.inr rfl
  cases s.GetFamilyConnections f1 d with
  | error e => exact ⟨rfl, h1⟩
  | ok c1 =>
    simp only
    cases s.GetFamilyConnections f2 d with
    | error e => exact ⟨rfl, h2⟩
    | ok c2 =>
      simp only
      have hl := commonLoop_calls s f1 f2 d (findIntersection c1 c2) finder _ [] h2
      refine ⟨?_, hl⟩
      obtain ⟨extra, he⟩ := commonLoop_log s f1 f2 d (findIntersection c1 c2) finder
        ([ServiceCall.familyConnections f1 d] ++ [ServiceCall.familyConnections f2 d]) []
      rw [he]
      rfl

/-- C23 (code defect).  The handler accepts `max_degree = 4` and passes it on, but in
`ConnectionService.FindCommonConnections` the value 4 is replaced by the default: for every
service the call with `maxDegree = 4` issues the same lookups and returns the same result
as the call with `maxDegree = 2`; its first lookup is `GetFamilyConnections(family1, 2)`
and every neighbor-set or path lookup it issues has the degree 2. -/
theorem FindCommonConnections_degree_four {σ : Type} (s : ConnectionService σ) (finder : σ)
    (family1ID family2ID : String) :
    handlerMaxDegree (some 4) = 4 ∧
    FindCommonConnections s finder family1ID family2ID 4
      = FindCommonConnections s finder family1ID family2ID 2 ∧
    (FindCommonConnections s finder family1ID family2ID 4).calls.head?
      = some (ServiceCall.familyConnections family1ID 2) ∧
    ∀ c ∈ (FindCommonConnections s finder family1ID family2ID 4).calls,
      c.degree? = none ∨ c.degree? = some 2 := by
  refine ⟨by decide, rfl, ?_, ?_⟩
  · exact (FindCommonConnections_calls s finder family1ID family2ID 4).1
  · exact (FindCommonConnections_calls s finder family1ID family2ID 4).2


theorem bucketGet_set_self (m : List (Int × List Family)) (k : Int) (v : List Family) :
    bucketGet (bucketSet m k v) k = v := by
  simp [bucketGet, bucketSet, List.lookup]

theorem bucket_filter_ne (m : List (Int × List Family)) (k k1 : Int) (hne : k1 ≠ k) :
    (m.filter (fun e => e.1 ≠ k)).lookup k1 = m.lookup k1 := by
  induction m with
  | nil => rfl
  | cons e t ih =>
    obtain ⟨a, b⟩ := e
    by_cases hak : a = k
    · subst hak
      have h1 : (k1 == a) = false := by simpa using hne
      rw [List.filter_cons_of_neg (by simp), ih]
      simp [List.lookup, h1]
    · by_cases hk1 : k1 = a
      · subst hk1
        rw [List.filter_cons_of_pos (by simpa using hak)]
        simp [List.lookup]
      · have h1 : (k1 == a) = false := by simpa using hk1
        rw [List.filter_cons_of_pos (by simpa using hak)]
        simp only [List.lookup, h1]
        exact ih

theorem bucketGet_set_ne (m : List (Int × List Family)) (k k1 : Int) (v : List Family)
    (hne : k1 ≠ k) : bucketGet (bucketSet m k v) k1 = bucketGet m k1 := by
  have h1 : (k1 == k) = false := by simpa using hne
  unfold bucketGet bucketSet
  simp only [List.lookup, h1]
  rw [bucket_filter_ne m k k1 hne]

theorem networkLoop_buckets {σ : Type} (s : ConnectionService σ) (anchor : String) (d : Int)
    (candidates : List Family) (finder : σ) (calls : List ServiceCall)
    (buckets : List (Int × List Family)) (k : Int) :
    bucketGet (networkLoop s anchor d candidates finder calls buckets).2.2 k
      = bucketGet buckets k ++
        ((pathLookups s anchor d candidates finder).filter
          (fun o => decide (bucketOf d o = some k))).map (fun o => o.1) := by
  induction candidates generalizing finder calls buckets with
  | nil => simp [networkLoop, pathLookups]
  | cons f rest ih =>
    unfold networkLoop pathLookups
    generalize s.FindPath finder anchor f.ID d = r
    obtain ⟨st1, path, err⟩ := r
    simp only
    cases err with
    | some e =>
      rw [ih]
      have hb : bucketOf d (f, path, some e) ≠ some k := by
        cases path <;> simp [bucketOf]
      rw [List.filter_cons_of_neg (by simpa using hb)]
    | none =>
      cases path with
      | none =>
        simp only
        rw [ih]
        have hb : bucketOf d (f, none, none) ≠ some k := by simp [bucketOf]
        rw [List.filter_cons_of_neg (by simpa using hb)]
      | some p =>
        simp only
        by_cases hle : p.Degree ≤ d
        · rw [if_pos hle, ih]
          by_cases hk : p.Degree = k
          · subst hk
            have hb : bucketOf d (f, some p, none) = some p.Degree := by
              simp [bucketOf, hle]
            rw [List.filter_cons_of_pos (by simpa using hb)]
            rw [bucketGet_set_self]
            simp
          · have hb : bucketOf d (f, some p, none) ≠ some k := by simp [bucketOf, hle, hk]
            rw [List.filter_cons_of_neg (by simpa using hb)]
            rw [bucketGet_set_ne _ _ _ _ (fun h => hk h.symm)]
        · rw [if_neg hle, ih]
          have hb : bucketOf d (f, some p, none) ≠ some k := by simp [bucketOf, hle]
          rw [List.filter_cons_of_neg (by simpa using hb)]

theorem pathLookups_fst {σ : Type} (s : ConnectionService σ) (anchor : String) (d : Int)
    (candidates : List Family) (finder : σ) :
    (pathLookups s anchor d candidates finder).map (fun o => o.1) = candidates := by
  induction candidates generalizing finder with
  | nil => rfl
  | cons f rest ih =>
    unfold pathLookups
    rw [List.map_cons, ih]

theorem normalisedDegree_eq (degree : Int) :
    (if degree ≤ 0 ∨ degree > 4 then 2 else degree) = normalisedDegree degree := by
  unfold normalisedDegree
  by_cases h : degree ≤ 0 ∨ degree > 4
  · rw [if_pos h, if_neg (by omega)]
  · rw [if_neg h, if_pos (by omega)]

theorem bucketOf_some (d : Int) (o : Family × Option ConnectionPath × Option Err)
    (k : Int) :
    bucketOf d o = some k ↔ ∃ p, o.2.1 = some p ∧ o.2.2 = none ∧ p.Degree = k ∧ k ≤ d := by
  obtain ⟨f, path, err⟩ := o
  cases path with
  | none => simp [bucketOf]
  | some p =>
    cases err with
    | some e => simp [bucketOf]
    | none =>
      have hdef : bucketOf d (f, some p, none)
          = if p.Degree ≤ d then some p.Degree else none := rfl
      rw [hdef]
      by_cases hle : p.Degree ≤ d
      · rw [if_pos hle]
        constructor
        · intro h
          have hk : p.Degree = k := Option.some.inj h
          exact ⟨p, rfl, rfl, hk, hk ▸ hle⟩
        · rintro ⟨q, hq, _, hk, _⟩
          have : p = q := Option.some.inj hq
          rw [this, hk]
      · rw [if_neg hle]
        constructor
        · intro h; cases h
        · rintro ⟨q, hq, _, hk, hkd⟩
          have : p = q := Option.some.inj hq
          subst this
          exact absurd (hk ▸ hkd) hle

/-- C24.  With `d` the normalised degree, when the bulk query and the two family lookups
succeed, `GetFamilyNetwork` succeeds whatever the path lookups of the candidates give:
bucket `k` holds, in input order, exactly the candidates whose lookup
`FindPath(anchor, f, d)` succeeded with a path of `Degree` `k` and `k ≤ d`; so a candidate
is in bucket `k` if and only if its lookup gave such a path, a candidate whose lookup
erred, found no path or found a degree above `d` is in no bucket, and, the candidates
being distinct, no candidate is in two buckets. -/
theorem GetFamilyNetwork_buckets {σ : Type} (s : ConnectionService σ) (finder : σ)
    (familyID : String) (degree : Int) (ids : List String) (central : Family)
    (candidates : List Family)
    (h1 : s.GetFamilyConnections familyID (normalisedDegree degree) = .ok ids)
    (h2 : s.GetFamilyByID familyID = .ok central)
    (h3 : s.GetFamiliesByIDs ids = .ok candidates) :
    ∃ network, (GetFamilyNetwork s finder familyID degree).value = some network ∧
      (GetFamilyNetwork s finder familyID degree).err = none ∧
      network.MaxDegree = normalisedDegree degree ∧
      (∀ k, bucketGet network.ConnectedFamilies k
        = ((pathLookups s familyID (normalisedDegree degree) candidates finder).filter
            (fun o => decide (bucketOf (normalisedDegree degree) o = some k))).map
              (fun o => o.1)) ∧
      (∀ f k, f ∈ bucketGet network.ConnectedFamilies k ↔
        ∃ p err, (f, p, err) ∈
            pathLookups s familyID (normalisedDegree degree) candidates finder ∧
          ∃ q, p = some q ∧ err = none ∧ q.Degree = k ∧ k ≤ normalisedDegree degree) ∧
      (candidates.Nodup → ∀ f k1 k2, f ∈ bucketGet network.ConnectedFamilies k1 →
        f ∈ bucketGet network.ConnectedFamilies k2 → k1 = k2) := by
  have hb : ∀ k, bucketGet (networkLoop s familyID (normalisedDegree degree) candidates
      finder ([ServiceCall.familyConnections familyID (normalisedDegree degree)] ++
        [ServiceCall.familyByID familyID] ++ [ServiceCall.familiesByIDs ids]) []).2.2 k
      = ((pathLookups s familyID (normalisedDegree degree) candidates finder).filter
          (fun o => decide (bucketOf (normalisedDegree degree) o = some k))).map
            (fun o => o.1) := by
    intro k
    rw [networkLoop_buckets]
    rfl
  have hmem : ∀ f k, f ∈ bucketGet (networkLoop s familyID (normalisedDegree degree)
      candidates finder ([ServiceCall.familyConnections familyID (normalisedDegree degree)]
        ++ [ServiceCall.familyByID familyID] ++ [ServiceCall.familiesByIDs ids]) []).2.2 k ↔
      ∃ p err, (f, p, err) ∈
          pathLookups s familyID (normalisedDegree degree) candidates finder ∧
        ∃ q, p = some q ∧ err = none ∧ q.Degree = k ∧ k ≤ normalisedDegree degree := by
    intro f k
    rw [hb k, List.mem_map]
    constructor
    · rintro ⟨o, ho, rfl⟩
      obtain ⟨hin, hdec⟩ := List.mem_filter.1 ho
      obtain ⟨q, hq1, hq2, hq3, hq4⟩ :=
        (bucketOf_some _ o k).1 (of_decide_eq_true hdec)
      exact ⟨o.2.1, o.2.2, hin, q, hq1, hq2, hq3, hq4⟩
    · rintro ⟨p, err, hin, q, hq1, hq2, hq3, hq4⟩
      refine ⟨(f, p, err), List.mem_filter.2 ⟨hin, decide_eq_true ?_⟩, rfl⟩
      exact (bucketOf_some _ _ k).2 ⟨q, hq1, hq2, hq3, hq4⟩
  unfold GetFamilyNetwork
  simp only [normalisedDegree_eq, h1, h2, h3]
  refine ⟨_, rfl, trivial, rfl, hb, hmem, ?_⟩
  intro hnd f k1 k2 hf1 hf2
  obtain ⟨p1, e1, hin1, q1, hq1, _, hd1, _⟩ := (hmem f k1).1 hf1
  obtain ⟨p2, e2, hin2, q2, hq2, _, hd2, _⟩ := (hmem f k2).1 hf2
  have hnd2 : ((pathLookups s familyID (normalisedDegree degree) candidates finder).map
      (fun o => o.1)).Nodup := by
    rw [pathLookups_fst]
    exact hnd
  have heq : (f, p1, e1) = (f, p2, e2) :=
    List.inj_on_of_nodup_map hnd2 hin1 hin2 rfl
  have hp : p1 = p2 := (Prod.mk.inj (Prod.mk.inj heq).2).1
  rw [hq1, hq2] at hp
  have hq : q1 = q2 := Option.some.inj hp
  rw [← hd1, ← hd2, hq]

/-- Witness for C24: on the chain A–B–C–D–E with the candidates B to E and `degree = 2`,
the call succeeds; the searches return the degrees 0, 1, 2 and 3, so B, C and D are placed
and E, whose path has a degree above 2, is dropped. -/
theorem GetFamilyNetwork_buckets_witness :
    (GetFamilyNetwork (serviceOver familiesAE ["B", "C", "D", "E"]) finderAE "A" 2).value
      = some ⟨⟨"A", "A", 5⟩,
          [(2, [⟨"D", "D", 5⟩]), (1, [⟨"C", "C", 5⟩]), (0, [⟨"B", "B", 5⟩])], 4, 2⟩ ∧
    ∃ network,
      (GetFamilyNetwork (serviceOver familiesAE ["B", "C", "D", "E"]) finderAE "A" 2).value
        = some network ∧
      (GetFamilyNetwork (serviceOver familiesAE ["B", "C", "D", "E"]) finderAE "A" 2).err
        = none ∧
      network.MaxDegree = normalisedDegree 2 := by
  refine ⟨by with_unfolding_all decide, ?_⟩
  obtain ⟨network, hv, he, hm, _⟩ := GetFamilyNetwork_buckets
    (serviceOver familiesAE ["B", "C", "D", "E"]) finderAE "A" 2 ["B", "C", "D", "E"]
    ⟨"A", "A", 5⟩ [⟨"B", "B", 5⟩, ⟨"C", "C", 5⟩, ⟨"D", "D", 5⟩, ⟨"E", "E", 5⟩] rfl rfl
    rfl
  exact ⟨network, hv, he, hm⟩


/-! ## Paths over shared backing arrays -/

/-- C28 (code defect).  Sibling paths share a backing array, so a returned path can cross
a pair of nodes that no edge joins.  On the tree with the chain A–B–C–D1–E–F–G–H and the
leaf D2 at C, `FindPath("A", "H", 6)` returns the path A, B, C, D2, E, F, G although D2
and E are not neighbors; on the tree with the chain X–A–B–C1–Y and the leaf C2 at B,
`FindMultiplePaths("X", "Y", 4, 1)` returns the path X, A, B, C2, Y although Y is not a
neighbor of C2. -/
theorem returned_path_crosses_non_edge :
    ((FindPath treeAH gcGrowCap "A" "H" 6).path.map (fun p => p.Path)
        = some ["A", "B", "C", "D2", "E", "F", "G"] ∧
      (FindPath treeAH gcGrowCap "A" "H" 6).err = none ∧
      treeAH.GetNeighbors "D2" = .ok ["C"] ∧ treeAH.GetNeighbors "E" = .ok ["D1", "F"] ∧
      ¬ Linked treeAH "D2" "E") ∧
    ((FindMultiplePaths forkXY gcGrowCap 20 "X" "Y" 4 1).map
        (fun r => (r.paths.map (fun p => p.Path), r.err))
        = some ([["X", "A", "B", "C2", "Y"]], none) ∧
      forkXY.GetNeighbors "C2" = .ok ["B"] ∧ ¬ Adjacent forkXY "C2" "Y") := by
  refine ⟨⟨by with_unfolding_all decide, by with_unfolding_all decide, rfl, rfl, ?_⟩,
    ⟨by with_unfolding_all decide, rfl, ?_⟩⟩
  · rintro (⟨l, hl, hm⟩ | ⟨l, hl, hm⟩)
    · have h : treeAH.GetNeighbors "D2" = .ok ["C"] := rfl
      rw [h] at hl
      cases hl
      revert hm
      decide
    · have h : treeAH.GetNeighbors "E" = .ok ["D1", "F"] := rfl
      rw [h] at hl
      cases hl
      revert hm
      decide
  · rintro ⟨l, hl, hm⟩
    have h : forkXY.GetNeighbors "C2" = .ok ["B"] := rfl
    rw [h] at hl
    cases hl
    revert hm
    decide


/-! ## Transparency of the cache -/

theorem FindPath_pathFinder (cpf : CachedPathFinder) (tGet tSet : Int)
    (fromID toID : String) (maxDepth : Int) :
    (cpf.FindPath tGet tSet fromID toID maxDepth).1.pathFinder = cpf.pathFinder := by
  unfold CachedPathFinder.FindPath
  split
  · rfl
  · split <;> rfl

/-- What `CachedPathFinder.FindPath` returns, by the state of the cache. -/
theorem CachedPathFinder_FindPath_cases (cpf : CachedPathFinder) (tGet tSet : Int)
    (fromID toID : String) (maxDepth : Int) :
    (∃ cached, cpf.cache.cache.lookup (cacheKey fromID toID) = some cached ∧
      cpf.FindPath tGet tSet fromID toID maxDepth = (cpf, cached.Path, none)) ∨
    (∃ e, (cpf.pathFinder.FindPath fromID toID maxDepth).2 = some e ∧
      cpf.FindPath tGet tSet fromID toID maxDepth = (cpf, none, some e)) ∨
    (∃ p, cpf.pathFinder.FindPath fromID toID maxDepth = (some p, none) ∧
      cpf.FindPath tGet tSet fromID toID maxDepth
        = ({ cpf with cache := cpf.cache.Set tSet fromID toID (some p) }, some p, none)) ∨
    (cpf.pathFinder.FindPath fromID toID maxDepth = (none, none) ∧
      cpf.FindPath tGet tSet fromID toID maxDepth = (cpf, none, none)) := by
  have hmiss : cpf.cache.Get tGet fromID toID = (cpf.cache, none, false) →
      (∃ e, (cpf.pathFinder.FindPath fromID toID maxDepth).2 = some e ∧
        cpf.FindPath tGet tSet fromID toID maxDepth = (cpf, none, some e)) ∨
      (∃ p, cpf.pathFinder.FindPath fromID toID maxDepth = (some p, none) ∧
        cpf.FindPath tGet tSet fromID toID maxDepth
          = ({ cpf with cache := cpf.cache.Set tSet fromID toID (some p) }, some p, none)) ∨
      (cpf.pathFinder.FindPath fromID toID maxDepth = (none, none) ∧
        cpf.FindPath tGet tSet fromID toID maxDepth = (cpf, none, none)) := by
    intro hg
    unfold CachedPathFinder.FindPath
    rw [hg]
    simp only
    cases hr : cpf.pathFinder.FindPath fromID toID maxDepth with
    | mk path err =>
      cases err with
      | some e => cases path <;> exact Or.inl ⟨e, rfl, rfl⟩
      | none =>
        cases path with
        | some p => exact Or.inr (Or.inl ⟨p, rfl, rfl⟩)
        | none => exact Or.inr (Or.inr ⟨rfl, rfl⟩)
  cases hl : cpf.cache.cache.lookup (cacheKey fromID toID) with
  | none => exact Or.inr (hmiss (PathCache_Get_absent _ _ _ _ hl))
  | some cached =>
    by_cases hexp : cached.ExpiresAt < tGet
    · exact Or.inr (hmiss (PathCache_Get_expired _ _ _ _ cached hl hexp))
    · left
      refine ⟨cached, rfl, ?_⟩
      unfold CachedPathFinder.FindPath
      rw [PathCache_Get_live _ _ _ _ cached hl (not_lt.1 hexp)]

theorem cacheInv_mono (pf : PathFinder) (calls : List FindPathCall) (c : FindPathCall)
    (cpf : CachedPathFinder) (h : CacheInv pf calls cpf) :
    CacheInv pf (calls ++ [c]) cpf := by
  refine ⟨h.1, ?_⟩
  intro key cached hl
  obtain ⟨c1, hc1, hk, hp⟩ := h.2 key cached hl
  exact ⟨c1, List.mem_append_left _ hc1, hk, hp⟩

theorem cacheInv_step (pf : PathFinder) (calls : List FindPathCall) (c : FindPathCall)
    (cpf : CachedPathFinder) (h : CacheInv pf calls cpf) :
    CacheInv pf (calls ++ [c])
      (cpf.FindPath c.tGet c.tSet c.fromID c.toID c.maxDepth).1 := by
  rcases CachedPathFinder_FindPath_cases cpf c.tGet c.tSet c.fromID c.toID c.maxDepth with
    ⟨_, _, hr⟩ | ⟨_, _, hr⟩ | ⟨p, hp, hr⟩ | ⟨_, hr⟩
  · rw [hr]; exact cacheInv_mono pf calls c cpf h
  · rw [hr]; exact cacheInv_mono pf calls c cpf h
  · rw [hr]
    refine ⟨h.1, ?_⟩
    intro key cached hl
    simp only [PathCache.Set] at hl
    by_cases hk : key = cacheKey c.fromID c.toID
    · subst hk
      rw [lookup_mapSet_self] at hl
      have hc : cached = CachedPath.mk (some p) c.tSet (c.tSet + cpf.cache.ttl) :=
        (Option.some.inj hl).symm
      subst hc
      refine ⟨c, List.mem_append_right _ (List.mem_singleton.2 rfl), rfl, ?_⟩
      rw [← h.1]
      exact hp
    · rw [lookup_mapSet_ne _ _ _ _ hk] at hl
      obtain ⟨c1, hc1, hk1, hp1⟩ := h.2 key cached hl
      exact ⟨c1, List.mem_append_left _ hc1, hk1, hp1⟩
  · rw [hr]; exact cacheInv_mono pf calls c cpf h

theorem cacheInv_run (pf : PathFinder) (calls0 calls : List FindPathCall)
    (cpf : CachedPathFinder) (h : CacheInv pf calls0 cpf) :
    CacheInv pf (calls0 ++ calls) (runCalls cpf calls) := by
  induction calls generalizing calls0 cpf with
  | nil =>
    rw [List.append_nil]
    exact h
  | cons c rest ih =>
    unfold runCalls
    have := ih (calls0 ++ [c]) _ (cacheInv_step pf calls0 c cpf h)
    rw [List.append_assoc] at this
    exact this

/-- C30, counterexample.  On the chain A–B–C–D–E a first call `FindPath("A", "E", 4)` stores
its path; a second call `FindPath("A", "E", 0)` one time unit later, well within the TTL of
five minutes, returns that path, while the wrapped finder's `FindPath("A", "E", 0)`
returns no path. -/
theorem CachedPathFinder_depth_not_transparent :
    ((finderAE.FindPath 0 0 "A" "E" 4).1.FindPath 1 1 "A" "E" 0).2
      = (some ⟨"A", "E", ["A", "B", "C", "D"], 3, 1, [], true⟩, none) ∧
    (bfsFinder chainAE gcGrowCap 10).FindPath "A" "E" 0 = (none, none) := by
  constructor <;> with_unfolding_all decide

/-- C30, amended.  On a fixed graph, so with the wrapped finder a function of its
arguments, after every sequence of earlier `CachedPathFinder.FindPath` calls on a new
finder in which each call with the cache key of `(from, to)` was made with the same three
arguments `(from, to, maxDepth)`, the call `CachedPathFinder.FindPath(from, to, maxDepth)`
returns what the wrapped finder returns for these arguments: the same error if that one
fails (and then no path), and otherwise the same path or the same absence of a path.
This holds within the TTL and after it. -/
theorem CachedPathFinder_transparent (pf : PathFinder) (ttl : Int)
    (calls : List FindPathCall) (tGet tSet : Int) (fromID toID : String) (maxDepth : Int)
    (hsame : ∀ c ∈ calls, cacheKey c.fromID c.toID = cacheKey fromID toID →
      c.fromID = fromID ∧ c.toID = toID ∧ c.maxDepth = maxDepth) :
    ((runCalls (NewCachedPathFinder pf ttl) calls).FindPath tGet tSet fromID toID
        maxDepth).2.2 = (pf.FindPath fromID toID maxDepth).2 ∧
    ((pf.FindPath fromID toID maxDepth).2 = none →
      ((runCalls (NewCachedPathFinder pf ttl) calls).FindPath tGet tSet fromID toID
        maxDepth).2.1 = (pf.FindPath fromID toID maxDepth).1) ∧
    ((pf.FindPath fromID toID maxDepth).2 ≠ none →
      ((runCalls (NewCachedPathFinder pf ttl) calls).FindPath tGet tSet fromID toID
        maxDepth).2.1 = none) := by
  have hinv : CacheInv pf ([] ++ calls) (runCalls (NewCachedPathFinder pf ttl) calls) :=
    cacheInv_run pf [] calls _ ⟨rfl, fun key cached hl => by cases hl⟩
  rw [List.nil_append] at hinv
  generalize runCalls (NewCachedPathFinder pf ttl) calls = cpf at hinv
  obtain ⟨hpf, hent⟩ := hinv
  rcases CachedPathFinder_FindPath_cases cpf tGet tSet fromID toID maxDepth with
    ⟨cached, hl, hr⟩ | ⟨e, he, hr⟩ | ⟨p, hp, hr⟩ | ⟨hp, hr⟩
  · obtain ⟨c, hc, hk, hres⟩ := hent _ cached hl
    obtain ⟨h1, h2, h3⟩ := hsame c hc hk
    rw [h1, h2, h3] at hres
    rw [hr, hres]
    exact ⟨rfl, fun _ => rfl, fun h => absurd rfl h⟩
  · rw [hpf] at he
    rw [hr, he]
    exact ⟨rfl, (fun h => nomatch h), fun _ => rfl⟩
  · rw [hpf] at hp
    rw [hr, hp]
    exact ⟨rfl, fun _ => rfl, fun h => absurd rfl h⟩
  · rw [hpf] at hp
    rw [hr, hp]
    exact ⟨rfl, fun _ => rfl, fun h => absurd rfl h⟩

/-- Witness for C30: after the call `FindPath("A", "E", 4)` on the chain A–B–C–D–E, a
second call with the same arguments returns the path of the wrapped finder. -/
theorem CachedPathFinder_transparent_witness :
    ((runCalls (NewCachedPathFinder (bfsFinder chainAE gcGrowCap 10) 300000000000)
        [⟨0, 0, "A", "E", 4⟩]).FindPath 1 1 "A" "E" 4).2.2
      = ((bfsFinder chainAE gcGrowCap 10).FindPath "A" "E" 4).2 ∧
    ((bfsFinder chainAE gcGrowCap 10).FindPath "A" "E" 4)
      = (some ⟨"A", "E", ["A", "B", "C", "D"], 3, 1, [], true⟩, none) :=
  ⟨(CachedPathFinder_transparent (bfsFinder chainAE gcGrowCap 10) 300000000000
      [⟨0, 0, "A", "E", 4⟩] 1 1 "A" "E" 4
      (by
        intro c hc _
        rw [List.mem_singleton.1 hc]
        exact ⟨rfl, rfl, rfl⟩)).1,
    by with_unfolding_all decide⟩


/-! ## Completeness of the bounded search -/

/-- An `append` of one element leaves a slice as it is or replaces one of its elements by
the new one. -/
theorem append_one_holds (g : Nat → Nat → Nat) (h : Heap) (s : Slice) (n : String)
    {t : Slice} {l : List String} (hlt : t.arr < h.length) (hh : Holds h t l) :
    Holds (append g h s [n]).1 t l ∨ Holds (append g h s [n]).1 t (l.set s.len n) := by
  by_cases hne : t.arr = s.arr
  · by_cases hcap : s.len + [n].length ≤ h.cap s
    · obtain ⟨hlen, r, hr⟩ := hh
      have harr : (append g h s [n]).1.array t.arr
          = writeAt (h.array s.arr) s.len [n] := by
        unfold append
        rw [if_pos hcap, hne]
        exact array_set_eq h _ _ (hne ▸ hlt)
      have hcap2 : s.len < (h.array s.arr).length := by
        simp only [List.length_singleton, Heap.cap] at hcap
        omega
      by_cases hsl : s.len < l.length
      · right
        refine ⟨by simp [hlen], r, ?_⟩
        rw [harr, ← hne, hr]
        unfold writeAt
        simp only [List.length_singleton]
        rw [List.take_append_of_le_length (le_of_lt hsl),
          List.drop_append_of_le_length (by omega)]
        rw [List.set_eq_take_append_cons_drop]
        simp [hsl, List.append_assoc]
      · left
        refine ⟨hlen, ?_⟩
        rw [harr, ← hne, hr]
        unfold writeAt
        rw [List.take_append_eq_append_take]
        rw [List.take_of_length_le (not_lt.1 hsl)]
        exact ⟨_, by rw [List.append_assoc, List.append_assoc]⟩
    · left
      obtain ⟨a, ha, _⟩ := append_alloc g h s [n] hcap
      rw [ha]
      exact holds_extend a hh hlt
  · exact Or.inl (append_keeps g h s [n] hne hh)

theorem append_arr (g : Nat → Nat → Nat) (h : Heap) (s : Slice) (xs : List String) :
    (append g h s xs).2.arr = s.arr ∨ (append g h s xs).2.arr = h.length := by
  unfold append
  split
  · exact Or.inl rfl
  · exact Or.inr rfl

theorem append_arr_lt (g : Nat → Nat → Nat) (h : Heap) (s : Slice) (xs : List String)
    (hs : s.arr < h.length) : (append g h s xs).2.arr < (append g h s xs).1.length := by
  unfold append
  split
  · simpa using hs
  · simp

/-- The invariant of a slice after an `append` of a new node by its own frontier. -/
theorem sliceInv_append_own (g : Nat → Nat → Nat) (h : Heap) (s : Slice) (n : String)
    (keys : List String) (hn : n ∉ keys) {t : Slice} (ht : SliceInv h keys t) :
    SliceInv (append g h s [n]).1 (n :: keys) t := by
  obtain ⟨hlt, l, hh, hnd, hsub⟩ := ht
  refine ⟨lt_of_lt_of_le hlt (append_length_le g h s [n]), ?_⟩
  rcases append_one_holds g h s n hlt hh with h1 | h1
  · exact ⟨l, h1, hnd, fun x hx => List.mem_cons_of_mem _ (hsub x hx)⟩
  · refine ⟨l.set s.len n, h1, hnd.set (fun hmem => hn (hsub n hmem)), ?_⟩
    intro x hx
    rcases List.mem_or_eq_of_mem_set hx with hx | hx
    · exact List.mem_cons_of_mem _ (hsub x hx)
    · rw [hx]; exact List.mem_cons_self _ _

/-- The invariant of a slice after an `append` into another array. -/
theorem sliceInv_append_other (g : Nat → Nat → Nat) (h : Heap) (s : Slice)
    (xs : List String) (keys : List String) {t : Slice} (hne : t.arr ≠ s.arr)
    (ht : SliceInv h keys t) : SliceInv (append g h s xs).1 keys t := by
  obtain ⟨hlt, l, hh, hnd, hsub⟩ := ht
  exact ⟨lt_of_lt_of_le hlt (append_length_le g h s xs), l, append_keeps g h s xs hne hh,
    hnd, hsub⟩

/-- The invariant of the slice that an `append` of a new node returns. -/
theorem sliceInv_append_new (g : Nat → Nat → Nat) (h : Heap) (s : Slice) (n : String)
    (keys : List String) (hn : n ∉ keys) (hs : SliceInv h keys s) :
    SliceInv (append g h s [n]).1 (n :: keys) (append g h s [n]).2 := by
  obtain ⟨hlt, l, hh, hnd, hsub⟩ := hs
  refine ⟨append_arr_lt g h s [n] hlt, l ++ [n], append_holds g [n] hh, ?_, ?_⟩
  · rw [List.nodup_append]
    refine ⟨hnd, List.nodup_singleton n, ?_⟩
    intro x hx hx2
    rw [List.mem_singleton.1 hx2] at hx
    exact hn (hsub n hx)
  · intro x hx
    rcases List.mem_append.1 hx with hx | hx
    · exact List.mem_cons_of_mem _ (hsub x hx)
    · rw [List.mem_singleton.1 hx]; exact List.mem_cons_self _ _

theorem lookup_none_not_mem (vis : List (String × Slice)) (n : String)
    (h : vis.lookup n = none) : n ∉ vis.map Prod.fst := by
  intro hmem
  obtain ⟨e, he, hfst⟩ := List.mem_map.1 hmem
  have := (List.lookup_eq_none_iff.1 h) e he
  simp [hfst] at this

theorem lookup_some_mem (vis : List (String × Slice)) (n : String) (p : Slice)
    (h : vis.lookup n = some p) : n ∈ vis.map Prod.fst ∧ (n, p) ∈ vis :=
  ⟨List.mem_map.2 ⟨(n, p), mem_of_lookup n p vis h, rfl⟩, mem_of_lookup n p vis h⟩

/-- When every strength lookup succeeds, the "Connection found" block returns a path. -/
theorem connect_succeeds (repo : GraphRepository) (fromID toID : String)
    (calls : List Call) (full : List String)
    (hs : ∀ a b, ∃ s, repo.GetConnectionStrength a b = .ok s) :
    (connect repo fromID toID calls full).path.isSome = true ∧
    (connect repo fromID toID calls full).err = none := by
  have hloop : ∀ (path : List String) (strength : ℚ) (allVerified : Bool)
      (cs : List Call), ∃ cs1 s v,
        strengthLoop repo path strength allVerified cs = (cs1, .ok (s, v)) := by
    intro path
    induction path with
    | nil => intro strength allVerified cs; exact ⟨cs, strength, allVerified, rfl⟩
    | cons a t ih =>
      intro strength allVerified cs
      cases t with
      | nil => exact ⟨cs, strength, allVerified, rfl⟩
      | cons b rest =>
        obtain ⟨x, hx⟩ := hs a b
        unfold strengthLoop
        rw [hx]
        exact ih _ _ _
  unfold connect calculatePathStrength
  by_cases hlen : full.length < 2
  · rw [if_pos hlen]
    exact ⟨rfl, rfl⟩
  · rw [if_neg hlen]
    obtain ⟨cs1, s, v, hsl⟩ := hloop full 1 true calls
    rw [hsl]
    exact ⟨rfl, rfl⟩


theorem own_record (st : BFSState) (d : Dir) (n : String) (p : Slice) :
    (BFSState.record st d n p).own d = (n, p) :: st.own d := by
  cases d <;> rfl

theorem opp_record (st : BFSState) (d : Dir) (n : String) (p : Slice) :
    (BFSState.record st d n p).opp d = st.opp d := by
  cases d <;> rfl

theorem heap_record (st : BFSState) (d : Dir) (n : String) (p : Slice) :
    (BFSState.record st d n p).heap = st.heap := by
  cases d <;> rfl

theorem frontInv_flip {h : Heap} {own opp : List (String × Slice)}
    {ownQ oppQ : List PathState} (hi : FrontInv h own opp ownQ oppQ) :
    FrontInv h opp own oppQ ownQ :=
  ⟨hi.2.1, hi.1, fun a ha b hb hab => hi.2.2.1 b hb a ha hab.symm,
    fun x hx hx2 => hi.2.2.2 x hx2 hx⟩

theorem sideInv_arr_lt {h : Heap} {vis : List (String × Slice)} {Q : List PathState}
    (hs : SideInv h vis Q) : ∀ a ∈ sliceArrs vis Q, a < h.length := by
  intro a ha
  rcases List.mem_append.1 ha with ha | ha
  · obtain ⟨e, he, rfl⟩ := List.mem_map.1 ha
    exact (hs.1 e he).1
  · obtain ⟨s, hs1, rfl⟩ := List.mem_map.1 ha
    exact ((hs.2 s hs1).1).1

/-- At a meeting point both ways of splicing give a sequence of different nodes. -/
theorem frontInv_splice {h : Heap} {own opp : List (String × Slice)}
    {ownQ oppQ : List PathState} (hi : FrontInv h own opp ownQ oppQ) (g : Nat → Nat → Nat)
    (state : PathState) (hst : state ∈ ownQ) (n : String) (oppPath : Slice)
    (ho : (n, oppPath) ∈ opp) :
    hasCycle ((append g h state.Path (reverse ((h.read oppPath).drop 1))).1.read
      (append g h state.Path (reverse ((h.read oppPath).drop 1))).2) = false ∧
    hasCycle ((append g h oppPath (reverse ((h.read state.Path).drop 1))).1.read
      (append g h oppPath (reverse ((h.read state.Path).drop 1))).2) = false := by
  obtain ⟨_, l1, hh1, hnd1, hsub1⟩ := (hi.1.2 state hst).1
  obtain ⟨_, l2, hh2, hnd2, hsub2⟩ := hi.2.1.1 (n, oppPath) ho
  have hdis : ∀ x, x ∈ l1 → x ∈ l2 → False :=
    fun x hx1 hx2 => hi.2.2.2 x (hsub1 x hx1) (hsub2 x hx2)
  rw [read_of_holds hh1, read_of_holds hh2]
  constructor
  · rw [read_of_holds (append_holds g _ hh1), hasCycle_eq_false, reverse_eq,
      List.nodup_append]
    refine ⟨hnd1, List.nodup_reverse.2 (hnd2.sublist (List.drop_sublist 1 l2)), ?_⟩
    intro x hx1 hx2
    exact hdis x hx1 (List.mem_of_mem_drop (List.mem_reverse.1 hx2))
  · rw [read_of_holds (append_holds g _ hh2), hasCycle_eq_false, reverse_eq,
      List.nodup_append]
    refine ⟨hnd2, List.nodup_reverse.2 (hnd1.sublist (List.drop_sublist 1 l1)), ?_⟩
    intro x hx2 hx1
    exact hdis x (List.mem_of_mem_drop (List.mem_reverse.1 hx1)) hx2

/-- The invariant after a frontier has appended a new node to the path of one of its
pending states and recorded and queued the result. -/
theorem frontInv_add {h : Heap} {own opp : List (String × Slice)}
    {ownQ oppQ : List PathState} (hi : FrontInv h own opp ownQ oppQ) (g : Nat → Nat → Nat)
    (state : PathState) (hst : state ∈ ownQ) (n : String) (hn1 : n ∉ own.map Prod.fst)
    (hn2 : n ∉ opp.map Prod.fst) :
    FrontInv (append g h state.Path [n]).1 ((n, (append g h state.Path [n]).2) :: own) opp
      (ownQ ++ [⟨n, (append g h state.Path [n]).2, n :: state.Visited⟩]) oppQ := by
  obtain ⟨hown, hopp, hapart, hdis⟩ := hi
  have hsarr : state.Path.arr ∈ sliceArrs own ownQ :=
    List.mem_append_right _ (List.mem_map.2 ⟨state, hst, rfl⟩)
  have hstate := hown.2 state hst
  have hnew := sliceInv_append_new g h state.Path n _ hn1 hstate.1
  refine ⟨⟨?_, ?_⟩, ⟨?_, ?_⟩, ?_, ?_⟩
  · intro e he
    rcases List.mem_cons.1 he with rfl | he
    · exact hnew
    · exact sliceInv_append_own g h state.Path n _ hn1 (hown.1 e he)
  · intro s hs
    rcases List.mem_append.1 hs with hs | hs
    · obtain ⟨h1, h2, h3⟩ := hown.2 s hs
      exact ⟨sliceInv_append_own g h state.Path n _ hn1 h1, List.mem_cons_of_mem _ h2,
        fun x hx => List.mem_cons_of_mem _ (h3 x hx)⟩
    · rw [List.mem_singleton.1 hs]
      refine ⟨hnew, List.mem_cons_self _ _, ?_⟩
      intro x hx
      rcases List.mem_cons.1 hx with rfl | hx
      · exact List.mem_cons_self _ _
      · exact List.mem_cons_of_mem _ (hstate.2.2 x hx)
  · intro e he
    have hb : e.2.arr ∈ sliceArrs opp oppQ :=
      List.mem_append_left _ (List.mem_map.2 ⟨e, he, rfl⟩)
    exact sliceInv_append_other g h state.Path [n] _
      (fun heq => hapart _ hsarr _ hb heq.symm) (hopp.1 e he)
  · intro s hs
    have hb : s.Path.arr ∈ sliceArrs opp oppQ :=
      List.mem_append_right _ (List.mem_map.2 ⟨s, hs, rfl⟩)
    obtain ⟨h1, h2, h3⟩ := hopp.2 s hs
    exact ⟨sliceInv_append_other g h state.Path [n] _
      (fun heq => hapart _ hsarr _ hb heq.symm) h1, h2, h3⟩
  · intro a ha b hb
    have hnewarr : (append g h state.Path [n]).2.arr ≠ b := by
      rcases append_arr g h state.Path [n] with h1 | h1
      · rw [h1]; exact hapart _ hsarr b hb
      · rw [h1]; exact fun heq => absurd (sideInv_arr_lt hopp b hb) (by omega)
    have hsplit : a = (append g h state.Path [n]).2.arr ∨ a ∈ sliceArrs own ownQ := by
      unfold sliceArrs at ha ⊢
      simp only [List.map_cons, List.map_append, List.map_nil, List.mem_append,
        List.mem_cons, List.mem_singleton, List.not_mem_nil, or_false] at ha ⊢
      rcases ha with (ha | ha) | ha | ha
      · exact Or.inl ha
      · exact Or.inr (Or.inl ha)
      · exact Or.inr (Or.inr ha)
      · exact Or.inl ha
    rcases hsplit with rfl | ha
    · exact hnewarr
    · exact hapart a ha b hb
  · intro x hx
    rcases List.mem_cons.1 hx with rfl | hx
    · exact hn2
    · exact hdis x hx


/-- The loop over the neighbors of a pending state keeps the invariant of the search:
it returns a path at the first neighbor that the other frontier has visited, and else
leaves every neighbor visited. -/
theorem expandNeighbors_inv (repo : GraphRepository) (g : Nat → Nat → Nat)
    (fromID toID : String) (d : Dir) (state : PathState) (P oppQ : List PathState)
    (hst : state ∈ P) (hs : ∀ a b, ∃ s, repo.GetConnectionStrength a b = .ok s) :
    ∀ (nbrs : List String) (st : BFSState) (newQueue : List PathState),
      SearchInv st d (P ++ newQueue) oppQ →
      (∀ r, expandNeighbors repo g fromID toID d state nbrs st newQueue = .ret r →
        r.path.isSome = true ∧ r.err = none) ∧
      (∀ st1 nq1, expandNeighbors repo g fromID toID d state nbrs st newQueue
          = .next st1 nq1 →
        SearchInv st1 d (P ++ nq1) oppQ ∧ st1.opp d = st.opp d ∧
        (∀ x ∈ (st.own d).map Prod.fst, x ∈ (st1.own d).map Prod.fst) ∧
        (∀ n ∈ nbrs, n ∈ (st1.own d).map Prod.fst) ∧
        (∀ x ∈ (st1.own d).map Prod.fst,
          x ∈ (st.own d).map Prod.fst ∨ x ∈ nq1.map (fun s => s.FamilyID)) ∧
        (∀ s ∈ newQueue, s ∈ nq1)) := by
  intro nbrs
  induction nbrs with
  | nil =>
    intro st newQueue hinv
    refine ⟨fun r hr => by simp [expandNeighbors] at hr, ?_⟩
    intro st1 nq1 hr
    simp only [expandNeighbors, Step.next.injEq] at hr
    obtain ⟨rfl, rfl⟩ := hr
    exact ⟨hinv, rfl, fun x hx => hx, fun n hn => absurd hn (List.not_mem_nil n),
      fun x hx => Or.inl hx, fun s hs => hs⟩
  | cons n rest ih =>
    intro st newQueue hinv
    have hstq : state ∈ P ++ newQueue := List.mem_append_left _ hst
    cases hl : (st.opp d).lookup n with
    | some oppPath =>
      have hmem := (lookup_some_mem _ _ _ hl).2
      have hcyc := frontInv_splice hinv g state hstq n oppPath hmem
      have hret : expandNeighbors repo g fromID toID d state (n :: rest) st newQueue
          = .ret (connect repo fromID toID st.calls
            (match d with
              | .forward =>
                (append g st.heap state.Path
                  (reverse ((st.heap.read oppPath).drop 1))).1.read
                  (append g st.heap state.Path (reverse ((st.heap.read oppPath).drop 1))).2
              | .backward =>
                (append g st.heap oppPath
                  (reverse ((st.heap.read state.Path).drop 1))).1.read
                  (append g st.heap oppPath
                    (reverse ((st.heap.read state.Path).drop 1))).2)) := by
        rw [expandNeighbors, hl]
        cases d with
        | forward => simp only [hcyc.1, Bool.false_eq_true, if_false]
        | backward => simp only [hcyc.2, Bool.false_eq_true, if_false]
      rw [hret]
      refine ⟨?_, fun st1 nq1 hr => by cases hr⟩
      intro r hr
      cases hr
      exact connect_succeeds repo fromID toID st.calls _ hs
    | none =>
      have hnopp : n ∉ (st.opp d).map Prod.fst := lookup_none_not_mem _ _ hl
      by_cases hvis : n ∈ state.Visited
      · have hstep : expandNeighbors repo g fromID toID d state (n :: rest) st newQueue
            = expandNeighbors repo g fromID toID d state rest st newQueue := by
          rw [expandNeighbors, hl]
          simp only [hvis, if_true]
        rw [hstep]
        obtain ⟨h1, h2⟩ := ih st newQueue hinv
        refine ⟨h1, ?_⟩
        intro st1 nq1 hr
        obtain ⟨k1, k2, k3, k4, k5, k6⟩ := h2 st1 nq1 hr
        refine ⟨k1, k2, k3, ?_, k5, k6⟩
        intro m hm
        rcases List.mem_cons.1 hm with rfl | hm
        · exact k3 _ ((hinv.1.2 state hstq).2.2 _ hvis)
        · exact k4 m hm
      · cases hown : (st.own d).lookup n with
        | some p =>
          have hstep : expandNeighbors repo g fromID toID d state (n :: rest) st newQueue
              = expandNeighbors repo g fromID toID d state rest st newQueue := by
            rw [expandNeighbors, hl]
            simp only [hvis, if_false, hown]
          rw [hstep]
          obtain ⟨h1, h2⟩ := ih st newQueue hinv
          refine ⟨h1, ?_⟩
          intro st1 nq1 hr
          obtain ⟨k1, k2, k3, k4, k5, k6⟩ := h2 st1 nq1 hr
          refine ⟨k1, k2, k3, ?_, k5, k6⟩
          intro m hm
          rcases List.mem_cons.1 hm with rfl | hm
          · exact k3 _ (lookup_some_mem _ _ _ hown).1
          · exact k4 m hm
        | none =>
          have hnown : n ∉ (st.own d).map Prod.fst := lookup_none_not_mem _ _ hown
          have hstep : expandNeighbors repo g fromID toID d state (n :: rest) st newQueue
              = expandNeighbors repo g fromID toID d state rest
                (BFSState.record { st with heap := (append g st.heap state.Path [n]).1 } d n
                  (append g st.heap state.Path [n]).2)
                (newQueue ++ [⟨n, (append g st.heap state.Path [n]).2,
                  n :: state.Visited⟩]) := by
            rw [expandNeighbors, hl]
            simp only [hvis, if_false, hown]
          rw [hstep]
          have hown2 : ∀ h1 : Heap, (BFSState.mk h1 st.calls st.forwardVisited
              st.backwardVisited).own d = st.own d := by
            intro h1; cases d <;> rfl
          have hopp2 : ∀ h1 : Heap, (BFSState.mk h1 st.calls st.forwardVisited
              st.backwardVisited).opp d = st.opp d := by
            intro h1; cases d <;> rfl
          have hinv2 : SearchInv
              (BFSState.record { st with heap := (append g st.heap state.Path [n]).1 } d n
                (append g st.heap state.Path [n]).2) d
              (P ++ (newQueue ++ [⟨n, (append g st.heap state.Path [n]).2,
                n :: state.Visited⟩])) oppQ := by
            unfold SearchInv
            rw [own_record, opp_record, heap_record, hown2, hopp2, ← List.append_assoc]
            exact frontInv_add hinv g state hstq n hnown hnopp
          obtain ⟨h1, h2⟩ := ih _ _ hinv2
          refine ⟨h1, ?_⟩
          intro st1 nq1 hr
          obtain ⟨k1, k2, k3, k4, k5, k6⟩ := h2 st1 nq1 hr
          rw [own_record, hown2] at k3 k5
          rw [opp_record, hopp2] at k2
          refine ⟨k1, k2, fun x hx => k3 x (List.mem_cons_of_mem _ hx), ?_, ?_,
            fun s hs => k6 s (List.mem_append_left _ hs)⟩
          · intro m hm
            rcases List.mem_cons.1 hm with rfl | hm
            · exact k3 _ (List.mem_cons_self _ _)
            · exact k4 m hm
          · intro x hx
            rcases k5 x hx with hx1 | hx1
            · rcases List.mem_cons.1 hx1 with rfl | hx1
              · right
                exact List.mem_map.2 ⟨_, k6 _ (List.mem_append_right _
                  (List.mem_singleton.2 rfl)), rfl⟩
              · exact Or.inl hx1
            · exact Or.inr hx1


theorem frontInv_sub {h : Heap} {own opp : List (String × Slice)}
    {ownQ ownQ1 oppQ : List PathState} (hi : FrontInv h own opp ownQ oppQ)
    (hsub : ∀ s ∈ ownQ1, s ∈ ownQ) : FrontInv h own opp ownQ1 oppQ := by
  obtain ⟨hown, hopp, hapart, hdis⟩ := hi
  refine ⟨⟨hown.1, fun s hs => hown.2 s (hsub s hs)⟩, hopp, ?_, hdis⟩
  intro a ha b hb
  refine hapart a ?_ b hb
  rcases List.mem_append.1 ha with ha | ha
  · exact List.mem_append_left _ ha
  · obtain ⟨s, hs, rfl⟩ := List.mem_map.1 ha
    exact List.mem_append_right _ (List.mem_map.2 ⟨s, hsub s hs, rfl⟩)

/-- The loop over the pending states of a frontier keeps the invariant of the search: it
returns a path, or it leaves the neighbors of every expanded state visited. -/
theorem expandQueue_inv (repo : GraphRepository) (g : Nat → Nat → Nat)
    (fromID toID : String) (d : Dir) (oppQ : List PathState) (hall : AllSucceed repo) :
    ∀ (queue : List PathState) (st : BFSState) (newQueue : List PathState),
      SearchInv st d (queue ++ newQueue) oppQ →
      (∀ r, expandQueue repo g fromID toID d queue st newQueue = .ret r →
        r.path.isSome = true ∧ r.err = none) ∧
      (∀ st1 nq1, expandQueue repo g fromID toID d queue st newQueue = .next st1 nq1 →
        SearchInv st1 d nq1 oppQ ∧ st1.opp d = st.opp d ∧
        (∀ x ∈ (st.own d).map Prod.fst, x ∈ (st1.own d).map Prod.fst) ∧
        (∀ s ∈ queue, ∀ y, Adjacent repo s.FamilyID y → y ∈ (st1.own d).map Prod.fst) ∧
        (∀ x ∈ (st1.own d).map Prod.fst,
          x ∈ (st.own d).map Prod.fst ∨ x ∈ nq1.map (fun s => s.FamilyID)) ∧
        (∀ s ∈ newQueue, s ∈ nq1)) := by
  intro queue
  induction queue with
  | nil =>
    intro st newQueue hinv
    refine ⟨fun r hr => by simp [expandQueue] at hr, ?_⟩
    intro st1 nq1 hr
    simp only [expandQueue, Step.next.injEq] at hr
    obtain ⟨rfl, rfl⟩ := hr
    exact ⟨hinv, rfl, fun x hx => hx, fun s hs => absurd hs (List.not_mem_nil s),
      fun x hx => Or.inl hx, fun s hs => hs⟩
  | cons state rest ih =>
    intro st newQueue hinv
    obtain ⟨l, hl⟩ := hall.1 state.FamilyID
    have hinv1 : SearchInv { st with calls := st.calls ++ [Call.neighbors state.FamilyID] }
        d ((state :: rest) ++ newQueue) oppQ := by
      have : ∀ cs, SearchInv (BFSState.mk st.heap cs st.forwardVisited st.backwardVisited) d
          ((state :: rest) ++ newQueue) oppQ := by
        intro cs
        cases d <;> exact hinv
      exact this _
    obtain ⟨e1, e2⟩ := expandNeighbors_inv repo g fromID toID d state (state :: rest) oppQ
      (List.mem_cons_self _ _) hall.2 l _ newQueue hinv1
    have hown1 : (BFSState.mk st.heap (st.calls ++ [Call.neighbors state.FamilyID])
        st.forwardVisited st.backwardVisited).own d = st.own d := by
      cases d <;> rfl
    have hopp1 : (BFSState.mk st.heap (st.calls ++ [Call.neighbors state.FamilyID])
        st.forwardVisited st.backwardVisited).opp d = st.opp d := by
      cases d <;> rfl
    cases hn : expandNeighbors repo g fromID toID d state l
        { st with calls := st.calls ++ [Call.neighbors state.FamilyID] } newQueue with
    | ret r0 =>
      have hq : expandQueue repo g fromID toID d (state :: rest) st newQueue = .ret r0 := by
        rw [expandQueue, hl]
        simp only [hn]
      rw [hq]
      refine ⟨?_, fun st1 nq1 hr => by cases hr⟩
      intro r hr
      cases hr
      exact e1 r0 hn
    | next st0 nq0 =>
      have hq : expandQueue repo g fromID toID d (state :: rest) st newQueue
          = expandQueue repo g fromID toID d rest st0 nq0 := by
        rw [expandQueue, hl]
        simp only [hn]
      rw [hq]
      obtain ⟨k1, k2, k3, k4, k5, k6⟩ := e2 st0 nq0 hn
      rw [hown1] at k3 k5
      rw [hopp1] at k2
      have hinv2 : SearchInv st0 d (rest ++ nq0) oppQ := by
        refine frontInv_sub k1 ?_
        intro s hs
        rcases List.mem_append.1 hs with hs | hs
        · exact List.mem_append_left _ (List.mem_cons_of_mem _ hs)
        · exact List.mem_append_right _ hs
      obtain ⟨h1, h2⟩ := ih st0 nq0 hinv2
      refine ⟨h1, ?_⟩
      intro st1 nq1 hr
      obtain ⟨j1, j2, j3, j4, j5, j6⟩ := h2 st1 nq1 hr
      refine ⟨j1, j2.trans k2, fun x hx => j3 x (k3 x hx), ?_, ?_,
        fun s hs => j6 s (k6 s hs)⟩
      · intro s hs y hy
        rcases List.mem_cons.1 hs with rfl | hs
        · obtain ⟨l1, hl1, hy1⟩ := hy
          rw [hl] at hl1
          cases hl1
          exact j3 y (k4 y hy1)
        · exact j4 s hs y hy
      · intro x hx
        rcases j5 x hx with hx1 | hx1
        · rcases k5 x hx1 with hx2 | hx2
          · exact Or.inl hx2
          · right
            obtain ⟨s, hs, rfl⟩ := List.mem_map.1 hx2
            exact List.mem_map.2 ⟨s, j6 s hs, rfl⟩
        · exact Or.inr hx1

/-- The expansion of a frontier keeps the invariant of the search. -/
theorem expandFrontier_inv (repo : GraphRepository) (g : Nat → Nat → Nat)
    (fromID toID : String) (d : Dir) (queue oppQ : List PathState) (st : BFSState)
    (hall : AllSucceed repo) (hinv : SearchInv st d queue oppQ) :
    (∀ r, expandFrontier repo g fromID toID d queue st = .ret r →
      r.path.isSome = true ∧ r.err = none) ∧
    (∀ st1 nq1, expandFrontier repo g fromID toID d queue st = .next st1 nq1 →
      SearchInv st1 d nq1 oppQ ∧ st1.opp d = st.opp d ∧
      (∀ x ∈ (st.own d).map Prod.fst, x ∈ (st1.own d).map Prod.fst) ∧
      (∀ s ∈ queue, ∀ y, Adjacent repo s.FamilyID y → y ∈ (st1.own d).map Prod.fst) ∧
      (∀ x ∈ (st1.own d).map Prod.fst,
        x ∈ (st.own d).map Prod.fst ∨ x ∈ nq1.map (fun s => s.FamilyID))) := by
  unfold expandFrontier
  by_cases hq : queue.length > 0
  · rw [if_pos hq]
    have hinv1 : SearchInv st d (queue ++ []) oppQ := by
      rw [List.append_nil]
      exact hinv
    obtain ⟨h1, h2⟩ := expandQueue_inv repo g fromID toID d oppQ hall queue st [] hinv1
    refine ⟨h1, ?_⟩
    intro st1 nq1 hr
    obtain ⟨j1, j2, j3, j4, j5, _⟩ := h2 st1 nq1 hr
    exact ⟨j1, j2, j3, j4, j5⟩
  · rw [if_neg hq]
    refine ⟨(fun r hr => by cases hr), ?_⟩
    intro st1 nq1 hr
    simp only [Step.next.injEq] at hr
    obtain ⟨rfl, rfl⟩ := hr
    have hnil : queue = [] := List.length_eq_zero.1 (by omega)
    subst hnil
    exact ⟨hinv, rfl, fun x hx => hx, fun s hs => absurd hs (List.not_mem_nil s),
      fun x hx => Or.inl hx⟩


/-- On a walk from a visited node to a node that is not visited, some step leaves the
visited nodes. -/
theorem walk_exit (repo : GraphRepository) (keys : List String) (y : String)
    (hy : y ∉ keys) :
    ∀ (k : Nat) (x : String), x ∈ keys → Walk repo k x y →
      ∃ x1 ∈ keys, ∃ z, z ∉ keys ∧ Adjacent repo x1 z ∧ ∃ j, j < k ∧ Walk repo j z y := by
  intro k
  induction k with
  | zero =>
    intro x hx hw
    have hxy : x = y := hw
    exact absurd (hxy ▸ hx) hy
  | succ k ih =>
    intro x hx hw
    obtain ⟨z, hadj, hw1⟩ := hw
    by_cases hz : z ∈ keys
    · obtain ⟨x1, hx1, z1, hz1, hadj1, j, hj, hwj⟩ := ih z hz hw1
      exact ⟨x1, hx1, z1, hz1, hadj1, j, Nat.lt_succ_of_lt hj, hwj⟩
    · exact ⟨x, hx, z, hz, hadj, k, Nat.lt_succ_self k, hw1⟩

/-- The main loop returns a path when the target is within `rounds` steps of a node that
the forward frontier has visited. -/
theorem searchRounds_complete (repo : GraphRepository) (g : Nat → Nat → Nat)
    (fromID toID : String) (hall : AllSucceed repo) :
    ∀ (rounds : Nat) (fq bq : List PathState) (st : BFSState),
      SearchInv st .forward fq bq → Closed repo st.forwardVisited fq →
      toID ∈ st.backwardVisited.map Prod.fst →
      (∃ x ∈ st.forwardVisited.map Prod.fst, ∃ k, k ≤ rounds ∧ Walk repo k x toID) →
      (searchRounds repo g fromID toID rounds fq bq st).path.isSome = true ∧
      (searchRounds repo g fromID toID rounds fq bq st).err = none := by
  intro rounds
  induction rounds with
  | zero =>
    intro fq bq st hinv _ hto hwalk
    obtain ⟨x, hx, k, hk, hw⟩ := hwalk
    have hk0 : k = 0 := Nat.le_zero.1 hk
    subst hk0
    have hxy : x = toID := hw
    exact absurd hto (hinv.2.2.2 toID (hxy ▸ hx))
  | succ R ih =>
    intro fq bq st hinv hclosed hto hwalk
    obtain ⟨x, hx, k, hk, hw⟩ := hwalk
    have htof : toID ∉ st.forwardVisited.map Prod.fst :=
      fun h => hinv.2.2.2 toID h hto
    obtain ⟨x1, hx1, z, hz, hadj, j, hj, hwj⟩ :=
      walk_exit repo _ toID htof k x hx hw
    have hpend : x1 ∈ fq.map (fun s => s.FamilyID) := by
      by_contra hnot
      exact hz (hclosed x1 hx1 hnot z hadj)
    obtain ⟨S, hS, hSid⟩ := List.mem_map.1 hpend
    have hlen : fq.length > 0 := List.length_pos_of_mem hS
    obtain ⟨f1, f2⟩ := expandFrontier_inv repo g fromID toID .forward fq bq st hall hinv
    rw [searchRounds, if_pos (Or.inl hlen)]
    cases hf : expandFrontier repo g fromID toID .forward fq st with
    | ret r => exact f1 r hf
    | next st1 fq1 =>
      simp only
      obtain ⟨k1, k2, k3, k4, k5⟩ := f2 st1 fq1 hf
      have k2' : st1.backwardVisited = st.backwardVisited := k2
      have hz1 : z ∈ st1.forwardVisited.map Prod.fst := k4 S hS z (hSid ▸ hadj)
      have hclosed1 : Closed repo st1.forwardVisited fq1 := by
        intro a ha hna y hy
        rcases k5 a ha with ha1 | ha1
        · by_cases hq : a ∈ fq.map (fun s => s.FamilyID)
          · obtain ⟨T, hT, hTid⟩ := List.mem_map.1 hq
            exact k4 T hT y (hTid ▸ hy)
          · exact k3 y (hclosed a ha1 hq y hy)
        · exact absurd ha1 hna
      have hinvb : SearchInv st1 .backward bq fq1 := frontInv_flip k1
      obtain ⟨b1, b2⟩ := expandFrontier_inv repo g fromID toID .backward bq fq1 st1 hall
        hinvb
      cases hb : expandFrontier repo g fromID toID .backward bq st1 with
      | ret r => exact b1 r hb
      | next st2 bq1 =>
        simp only
        obtain ⟨m1, m2, m3, _, _⟩ := b2 st2 bq1 hb
        have m2' : st2.forwardVisited = st1.forwardVisited := m2
        refine ih fq1 bq1 st2 (frontInv_flip m1) ?_ ?_ ?_
        · rw [m2']; exact hclosed1
        · have hto1 : toID ∈ st1.backwardVisited.map Prod.fst := by
            rw [k2']; exact hto
          exact m3 toID hto1
        · rw [m2']
          exact ⟨z, hz1, j, by omega, hwj⟩

theorem walk_of_route (repo : GraphRepository) (hsym : SymmetricNeighbors repo) :
    ∀ (route : List String) (x y : String), IsRoute repo x y route →
      Walk repo (route.length - 1) x y := by
  intro route
  induction route with
  | nil => intro x y h; simp [IsRoute] at h
  | cons a t ih =>
    intro x y h
    obtain ⟨hhead, hlast, hlinks⟩ := h
    have hax : a = x := by simpa using hhead
    subst hax
    cases t with
    | nil =>
      have : a = y := by simpa using hlast
      exact this
    | cons b rest =>
      have hlink : Linked repo a b := hlinks (a, b) (by simp [pairs])
      have hadj : Adjacent repo a b := by
        rcases hlink with h1 | h1
        · exact h1
        · exact hsym b a h1
      have hrest : IsRoute repo b y (b :: rest) := by
        refine ⟨rfl, ?_, ?_⟩
        · rw [← hlast]
          simp [List.getLast?_cons_cons]
        · intro e he
          exact hlinks e (by
            simp only [pairs, List.tail_cons, List.zip_cons_cons, List.mem_cons] at he ⊢
            exact Or.inr he)
      have := ih b y hrest
      exact ⟨b, hadj, by simpa using this⟩

/-- The queues and visited maps that `FindPath` starts from are in order. -/
theorem initialState_inv (repo : GraphRepository) (fromID toID : String)
    (hne : fromID ≠ toID) :
    SearchInv (initialState fromID toID).2.2 .forward (initialState fromID toID).1
      (initialState fromID toID).2.1 ∧
    Closed repo (initialState fromID toID).2.2.forwardVisited (initialState fromID toID).1 ∧
    toID ∈ (initialState fromID toID).2.2.backwardVisited.map Prod.fst ∧
    fromID ∈ (initialState fromID toID).2.2.forwardVisited.map Prod.fst := by
  have hslice : ∀ (i : Nat) (x : String) (keys : List String), i < 4 → x ∈ keys →
      Heap.array [[fromID], [toID], [fromID], [toID]] i = [x] →
      SliceInv [[fromID], [toID], [fromID], [toID]] keys ⟨i, 1⟩ := by
    intro i x keys hi hx harr
    refine ⟨hi, [x], ⟨rfl, [], by rw [harr]; rfl⟩, List.nodup_singleton x, ?_⟩
    intro y hy
    rw [List.mem_singleton.1 hy]
    exact hx
  refine ⟨⟨⟨?_, ?_⟩, ⟨?_, ?_⟩, ?_, ?_⟩, ?_, ?_, ?_⟩
  · intro e he
    have : e = (fromID, ⟨2, 1⟩) := by simpa [initialState, alloc, BFSState.own] using he
    subst this
    exact hslice 2 fromID _ (by omega) (List.mem_singleton.2 rfl) rfl
  · intro s hs
    have : s = ⟨fromID, ⟨0, 1⟩, [fromID]⟩ := by simpa [initialState, alloc] using hs
    subst this
    refine ⟨hslice 0 fromID _ (by omega) (List.mem_singleton.2 rfl) rfl,
      List.mem_singleton.2 rfl, ?_⟩
    intro x hx
    exact hx
  · intro e he
    have : e = (toID, ⟨3, 1⟩) := by simpa [initialState, alloc, BFSState.opp] using he
    subst this
    exact hslice 3 toID _ (by omega) (List.mem_singleton.2 rfl) rfl
  · intro s hs
    have : s = ⟨toID, ⟨1, 1⟩, [toID]⟩ := by simpa [initialState, alloc] using hs
    subst this
    refine ⟨hslice 1 toID _ (by omega) (List.mem_singleton.2 rfl) rfl,
      List.mem_singleton.2 rfl, ?_⟩
    intro x hx
    exact hx
  · intro a ha b hb
    have h1 : a = 2 ∨ a = 0 := by
      simpa [initialState, alloc, BFSState.own, sliceArrs] using ha
    have h2 : b = 3 ∨ b = 1 := by
      simpa [initialState, alloc, BFSState.opp, sliceArrs] using hb
    omega
  · intro x hx hx2
    have h1 : x = fromID := by simpa [initialState, alloc, BFSState.own] using hx
    have h2 : x = toID := by simpa [initialState, alloc, BFSState.opp] using hx2
    exact hne (h1 ▸ h2)
  · intro x _ hnot
    have h1 : x ∈ [fromID] := by assumption
    exact absurd (by simpa [initialState, alloc] using List.mem_singleton.1 h1) hnot
  · exact List.mem_singleton.2 rfl
  · exact List.mem_singleton.2 rfl

/-- C29.  Completeness of the bounded search: on a graph with a symmetric neighbor
relation in which every lookup succeeds, for `from ≠ to` and `maxDepth ≥ 0`, if some route
of at most `maxDepth` edges joins `from` and `to`, then `FindPath(from, to, maxDepth)`
returns a path and no error; in particular the cycle filter at the splice does not
discard every candidate. -/
theorem FindPath_complete (repo : GraphRepository) (growCap : Nat → Nat → Nat)
    (fromID toID : String) (maxDepth : Int) (route : List String)
    (hall : AllSucceed repo) (hsym : SymmetricNeighbors repo) (hne : fromID ≠ toID)
    (hdepth : 0 ≤ maxDepth) (hroute : IsRoute repo fromID toID route)
    (hlen : (route.length : Int) - 1 ≤ maxDepth) :
    ∃ p, (FindPath repo growCap fromID toID maxDepth).path = some p ∧
      (FindPath repo growCap fromID toID maxDepth).err = none := by
  obtain ⟨h1, h2, h3, h4⟩ := initialState_inv repo fromID toID hne
  have hw := walk_of_route repo hsym route fromID toID hroute
  have hk : route.length - 1 ≤ (maxDepth + 1).toNat := by omega
  obtain ⟨hp, he⟩ := searchRounds_complete repo growCap fromID toID hall
    (maxDepth + 1).toNat _ _ _ h1 h2 h3 ⟨fromID, h4, route.length - 1, hk, hw⟩
  unfold FindPath
  rw [if_neg hne]
  exact ⟨_, (Option.some_get hp).symm, he⟩


theorem edgeStore_allSucceed (edges : List (String × String × ℚ)) :
    AllSucceed (edgeStore edges) :=
  ⟨fun _ => ⟨_, rfl⟩, fun _ _ => ⟨_, rfl⟩⟩

theorem edgeStore_adjacent (edges : List (String × String × ℚ)) (x y : String) :
    Adjacent (edgeStore edges) x y ↔
      ∃ e ∈ edges, (e.1 = x ∧ e.2.1 = y) ∨ (e.1 ≠ x ∧ e.2.1 = x ∧ e.1 = y) := by
  unfold Adjacent
  constructor
  · rintro ⟨l, hl, hy⟩
    have hl2 : l = edges.filterMap (fun e =>
        if e.1 = x then some e.2.1 else if e.2.1 = x then some e.1 else none) := by
      have : (edgeStore edges).GetNeighbors x = .ok (edges.filterMap (fun e =>
        if e.1 = x then some e.2.1 else if e.2.1 = x then some e.1 else none)) := rfl
      rw [this] at hl
      exact (Except.ok.inj hl).symm
    subst hl2
    obtain ⟨e, he, hval⟩ := List.mem_filterMap.1 hy
    refine ⟨e, he, ?_⟩
    by_cases h1 : e.1 = x
    · rw [if_pos h1] at hval
      exact Or.inl ⟨h1, Option.some.inj hval⟩
    · rw [if_neg h1] at hval
      by_cases h2 : e.2.1 = x
      · rw [if_pos h2] at hval
        exact Or.inr ⟨h1, h2, Option.some.inj hval⟩
      · rw [if_neg h2] at hval
        cases hval
  · rintro ⟨e, he, h⟩
    refine ⟨_, rfl, List.mem_filterMap.2 ⟨e, he, ?_⟩⟩
    rcases h with ⟨h1, h2⟩ | ⟨h1, h2, h3⟩
    · rw [if_pos h1, h2]
    · rw [if_neg h1, if_pos h2, h3]

theorem edgeStore_symmetric (edges : List (String × String × ℚ)) :
    SymmetricNeighbors (edgeStore edges) := by
  intro x y h
  obtain ⟨e, he, hc⟩ := (edgeStore_adjacent edges x y).1 h
  refine (edgeStore_adjacent edges y x).2 ⟨e, he, ?_⟩
  rcases hc with ⟨h1, h2⟩ | ⟨h1, h2, h3⟩
  · by_cases hxy : e.1 = y
    · exact Or.inl ⟨hxy, by rw [h2, ← hxy, h1]⟩
    · exact Or.inr ⟨hxy, h2, h1⟩
  · exact Or.inl ⟨h3, h2⟩

/-- Witness for C29: on the chain A–B–C–D–E the route A, B, C has two edges, and
`FindPath("A", "C", 2)` returns a path. -/
theorem FindPath_complete_witness :
    IsRoute chainAE "A" "C" ["A", "B", "C"] ∧
    ∃ p, (FindPath chainAE gcGrowCap "A" "C" 2).path = some p ∧
      (FindPath chainAE gcGrowCap "A" "C" 2).err = none := by
  have hr : IsRoute chainAE "A" "C" ["A", "B", "C"] := by
    refine ⟨rfl, rfl, ?_⟩
    intro e he
    have hp : pairs ["A", "B", "C"] = [("A", "B"), ("B", "C")] := rfl
    rw [hp] at he
    simp only [List.mem_cons, List.mem_singleton, List.not_mem_nil, or_false] at he
    rcases he with rfl | rfl
    · exact Or.inl ⟨["B"], rfl, by decide⟩
    · exact Or.inl ⟨["A", "C"], rfl, by decide⟩
  exact ⟨hr, FindPath_complete chainAE gcGrowCap "A" "C" 2 ["A", "B", "C"]
    (edgeStore_allSucceed _) (edgeStore_symmetric _) (by decide) (by decide) hr
    (by decide)⟩

end KinConnect
